import Mathlib

/-! pomofocus-rank-finder: a verification development for `main.go`

The program looks a user id up in a remote, paginated ranking. The remote service is
abstracted as a `Dataset` (what `getRankData` returns for each rank page); everything else
is embedded from the Go source:

* `main`                 : the flag dispatch of `func main`;
* `sequentialSearchLoop` : the `for` loop of `func sequentialSearch`;
* `readResults`          : the result-reading loop at the end of `func concurrentSearch`;
* `step` / `run`         : `func concurrentSearch` as an interleaving state machine with one
                           actor for the page generator goroutine, one per worker goroutine
                           and one for the coordinating (main) goroutine;
* `buildDateDigitListQueryParams` : the date query string, over a model of the `time` and
                           `fmt` routines it calls.

Rank pages are Go `int`s that start at 0 and only ever grow by one; they are modelled as `Nat`
(a run would need 2^63 fetches to overflow).
-/

namespace Pomofocus

/-! ## Data model -/

/-- One entry of a rank page (`type PomofocusRankResponse struct`). -/
structure PomofocusRankResponse where
  ID : String
  TimeFocused : String
  Name : String
  Picture : String
deriving DecidableEq, Repr

/-- What `getRankData` returns: the decoded page, or the error (transport or decode). -/
abbrev FetchResult := Except String (List PomofocusRankResponse)

/-- The remote ranking service seen through `getRankData`: a result for every rank page. -/
abbrev Dataset := Nat → FetchResult

/-- How a search ends. `found v` is the line "UserID found in rank page: v", `notFound` the line
"UserID was not found in any of the rank page.", `fatal err` is `log.Fatal(err)`. -/
inductive Outcome where
  | found (rankPage : Int)
  | notFound
  | fatal (err : String)
deriving DecidableEq, Repr

/-- The scan `for _, item := range rankData { if item.ID == userID { ... return } }`:
true when the loop body returns at some item. -/
def containsUser (userID : String) : List PomofocusRankResponse → Bool
  | [] => false
  | item :: rest => if item.ID = userID then true else containsUser userID rest

/-! ## `func main` -/

/-- What `func main` does after `flag.Parse()`. -/
inductive MainEffect where
  /-- the report `log.Printf("User ID must be provided.")`, then return. -/
  | userIdError
  /-- the call `sequentialSearch(userID)`. -/
  | runSequential (userID : String)
  /-- the report `log.Printf("Worker count must be greater than zero.")`, then return. -/
  | workerCountError
  /-- the call `concurrentSearch(userID, numOfWorkers)`. -/
  | runConcurrent (userID : String) (numOfWorkers : Int)
  /-- falling off the end of `main`: nothing is printed, nothing is run. -/
  | silentReturn
deriving DecidableEq, Repr

/-- The body of `func main` over the parsed flag values. -/
def main (pomofocusUserID approach : String) (numOfWorkers : Int) : MainEffect :=
  if pomofocusUserID = "" then .userIdError
  else if approach = "sequential" then .runSequential pomofocusUserID
  else if approach = "concurrent" then
    if numOfWorkers ≤ 0 then .workerCountError
    else .runConcurrent pomofocusUserID numOfWorkers
  else .silentReturn

/-- The effect is one of the two error reports. -/
def MainEffect.reportsError : MainEffect → Bool
  | .userIdError => true
  | .workerCountError => true
  | _ => false

/-- The effect is a call of `sequentialSearch` or of `concurrentSearch`. -/
def MainEffect.runsSearch : MainEffect → Bool
  | .runSequential _ => true
  | .runConcurrent _ _ => true
  | _ => false

/-! ## `func sequentialSearch` -/

/-- The `for` loop of `sequentialSearch`, started at `rankPage` with the list `fetched` of the
pages requested so far. `fuel` bounds the number of iterations; `none` means the loop is still
running when the fuel is used up. The result carries the pages requested, in order. -/
def sequentialSearchLoop (getRankData : Dataset) (userID : String) :
    Nat → Nat → List Nat → Option (Outcome × List Nat)
  | 0, _, _ => none
  | fuel + 1, rankPage, fetched =>
    match getRankData rankPage with
    | .error err => some (.fatal err, fetched ++ [rankPage])
    | .ok rankData =>
      if rankData.length = 0 then some (.notFound, fetched ++ [rankPage])
      else if containsUser userID rankData then some (.found rankPage, fetched ++ [rankPage])
      else sequentialSearchLoop getRankData userID fuel (rankPage + 1) (fetched ++ [rankPage])

/-- The function `sequentialSearch`: the loop from `rankPage := 0`. -/
def sequentialSearch (getRankData : Dataset) (userID : String) (fuel : Nat) :
    Option (Outcome × List Nat) :=
  sequentialSearchLoop getRankData userID fuel 0 []

/-! ## The result loop of `func concurrentSearch` -/

/-- The loop `for i := 0; i < numOfWorkers; i++ { resultValue := <-rankPageResultsChan; ... }`
run on the sequence `outcomes` of values that arrive on the channel, from loop counter `i` with
`read` values taken so far. The answer is the outcome together with the number of values taken
from the channel; `none` means the loop is blocked on an empty channel. -/
def readResultsFrom (numOfWorkers : Nat) : Nat → Nat → List Int → Option (Outcome × Nat)
  | i, read, [] => if i < numOfWorkers then none else some (.notFound, read)
  | i, read, resultValue :: rest =>
    if i < numOfWorkers then
      if resultValue ≠ -1 then some (.found resultValue, read + 1)
      else readResultsFrom numOfWorkers (i + 1) (read + 1) rest
    else some (.notFound, read)

/-- The result loop from `i := 0`. -/
def readResults (numOfWorkers : Nat) (outcomes : List Int) : Option (Outcome × Nat) :=
  readResultsFrom numOfWorkers 0 0 outcomes

/-! ## `func concurrentSearch` as an interleaving state machine -/

/-- Where a worker goroutine stands. Each constructor is the next channel, context or network
operation the worker will perform; the local computation after an operation is part of its step. -/
inductive WorkerPC where
  /-- at `for rankPageValue := range rankPageValuesReadOnlyChannel`, waiting for a page. -/
  | recv
  /-- holding page `p`, at the `select` on `ctx.Done()`. -/
  | select (p : Nat)
  /-- holding page `p`, past the `default` branch, at the call of `getRankData`. -/
  | fetch (p : Nat)
  /-- at `rankPageResultsWriteOnlyChannel <- -1`. -/
  | sendNeg
  /-- at `rankPageResultsWriteOnlyChannel <- rankPageValue`, with `rankPageValue = p`. -/
  | sendFound (p : Nat)
  /-- at `contextCancelFunc()`. -/
  | cancel
  /-- returned. -/
  | done
deriving DecidableEq, Repr

/-- The goroutines of `concurrentSearch`. -/
inductive Actor where
  /-- the goroutine that pushes 0, 1, 2, ... into `rankPageValuesChan`. -/
  | generator
  /-- the worker goroutine with index `w` (its `workerNumber` is `w + 1`). -/
  | worker (w : Nat)
  /-- the goroutine that called `concurrentSearch` and reads `rankPageResultsChan`. -/
  | coordinator
deriving DecidableEq, Repr

/-- The shared state of one call of `concurrentSearch`. `fetched` and `sent` are history logs:
they record, with the worker index, every `getRankData` call and every value sent on
`rankPageResultsChan`; no step reads them. -/
structure CState where
  /-- the generator's local `rankPage`. -/
  rankPage : Nat
  /-- the buffer of `rankPageValuesChan`. -/
  values : List Nat
  /-- the buffer of `rankPageResultsChan`. -/
  results : List Int
  /-- whether `ctx.Done()` is closed. -/
  cancelled : Bool
  /-- the program counter of each worker. -/
  pc : Nat → WorkerPC
  /-- the loop counter `i` of the result loop. -/
  i : Nat
  /-- absent while the process runs; `some o` once it has ended with outcome `o`. -/
  status : Option Outcome
  /-- log of `getRankData` calls: (worker, page). -/
  fetched : List (Nat × Nat)
  /-- log of sends on `rankPageResultsChan`: (worker, value). -/
  sent : List (Nat × Int)

/-- The state right after the channels and the context are made. -/
def CState.init : CState :=
  { rankPage := 0, values := [], results := [], cancelled := false, pc := fun _ => .recv,
    i := 0, status := none, fetched := [], sent := [] }

/-- One step of the generator goroutine: `rankPageValuesWriteOnlyChan <- rankPage; rankPage += 1`.
The send blocks while the buffer holds `numOfWorkers` values. -/
def stepGenerator (numOfWorkers : Nat) (s : CState) : CState :=
  if s.values.length < numOfWorkers then
    { s with values := s.values ++ [s.rankPage], rankPage := s.rankPage + 1 }
  else s

/-- One step of worker `w`. -/
def stepWorker (getRankData : Dataset) (userID : String) (numOfWorkers : Nat) (w : Nat)
    (s : CState) : CState :=
  match s.pc w with
  | .recv =>
    match s.values with
    | [] => s
    | rankPageValue :: rest =>
      { s with values := rest, pc := Function.update s.pc w (.select rankPageValue) }
  | .select p =>
    if s.cancelled then { s with pc := Function.update s.pc w .sendNeg }
    else { s with pc := Function.update s.pc w (.fetch p) }
  | .fetch p =>
    match getRankData p with
    | .error err => { s with status := some (.fatal err), fetched := s.fetched ++ [(w, p)] }
    | .ok rankData =>
      if rankData.length = 0 then
        { s with pc := Function.update s.pc w .sendNeg, fetched := s.fetched ++ [(w, p)] }
      else if containsUser userID rankData then
        { s with pc := Function.update s.pc w (.sendFound p), fetched := s.fetched ++ [(w, p)] }
      else
        { s with pc := Function.update s.pc w .recv, fetched := s.fetched ++ [(w, p)] }
  | .sendNeg =>
    if s.results.length < numOfWorkers then
      { s with results := s.results ++ [-1], sent := s.sent ++ [(w, -1)],
               pc := Function.update s.pc w .done }
    else s
  | .sendFound p =>
    if s.results.length < numOfWorkers then
      { s with results := s.results ++ [(p : Int)], sent := s.sent ++ [(w, (p : Int))],
               pc := Function.update s.pc w .cancel }
    else s
  | .cancel => { s with cancelled := true, pc := Function.update s.pc w .done }
  | .done => s

/-- One step of the coordinator: one iteration of the result loop, or the code after it. -/
def stepCoordinator (numOfWorkers : Nat) (s : CState) : CState :=
  if s.i < numOfWorkers then
    match s.results with
    | [] => s
    | resultValue :: rest =>
      if resultValue ≠ -1 then { s with results := rest, status := some (.found resultValue) }
      else { s with results := rest, i := s.i + 1 }
  else { s with status := some .notFound }

/-- One scheduling decision: actor `a` runs its next operation. An actor that is blocked, a
worker index that does not exist, and any actor once the process has ended, leave the state as
it is. The process ends when the coordinator returns (`main` returns right after) and when a
worker calls `log.Fatal`. -/
def step (getRankData : Dataset) (userID : String) (numOfWorkers : Nat) (s : CState) :
    Actor → CState
  | .generator => if s.status = none then stepGenerator numOfWorkers s else s
  | .worker w =>
    if s.status = none ∧ w < numOfWorkers then stepWorker getRankData userID numOfWorkers w s
    else s
  | .coordinator => if s.status = none then stepCoordinator numOfWorkers s else s

/-- The state after the scheduling decisions `schedule`, from `s`. -/
def run (getRankData : Dataset) (userID : String) (numOfWorkers : Nat) (s : CState)
    (schedule : List Actor) : CState :=
  schedule.foldl (step getRankData userID numOfWorkers) s

/-- The call `concurrentSearch(userID, numberOfWorkers)` under the interleaving `schedule`. -/
def concurrentSearch (getRankData : Dataset) (userID : String) (numberOfWorkers : Nat)
    (schedule : List Actor) : CState :=
  run getRankData userID numberOfWorkers CState.init schedule

/-- The actors that exist in a run with `numOfWorkers` workers. -/
def Actor.valid (numOfWorkers : Nat) : Actor → Prop
  | .worker w => w < numOfWorkers
  | _ => True

/-- An infinite schedule is fair when every existing goroutine is scheduled again and again. -/
def Fair (numOfWorkers : Nat) (σ : Nat → Actor) : Prop :=
  ∀ a, a.valid numOfWorkers → ∀ t, ∃ t', t ≤ t' ∧ σ t' = a

/-- The state of `concurrentSearch` after the first `t` decisions of the infinite schedule `σ`. -/
def concurrentSearchAt (getRankData : Dataset) (userID : String) (numberOfWorkers : Nat)
    (σ : Nat → Actor) (t : Nat) : CState :=
  concurrentSearch getRankData userID numberOfWorkers ((List.range t).map σ)

/-- The values worker `w` has sent on `rankPageResultsChan` so far. -/
def CState.sentBy (s : CState) (w : Nat) : List Int :=
  (s.sent.filter (fun e => e.1 = w)).map Prod.snd

/-- The `Found` outcomes (values other than -1) sent on `rankPageResultsChan` so far. -/
def CState.foundsSent (s : CState) : List Int :=
  (s.sent.map Prod.snd).filter (fun v => v ≠ -1)

/-! ## Datasets -/

/-- Page `p` is fetched without error and holds a record whose id is `userID`. -/
def pageHasUser (getRankData : Dataset) (userID : String) (p : Nat) : Prop :=
  ∃ rankData, getRankData p = .ok rankData ∧ containsUser userID rankData = true

/-- Page `p` is fetched without error and is not empty. -/
def pageNonEmpty (getRankData : Dataset) (p : Nat) : Prop :=
  ∃ rankData, getRankData p = .ok rankData ∧ rankData ≠ []

/-- Page `p` is fetched without error and is empty. -/
def pageEmpty (getRankData : Dataset) (p : Nat) : Prop :=
  getRankData p = .ok []

/-- No fetch fails. -/
def neverFails (getRankData : Dataset) : Prop :=
  ∀ p, ∃ rankData, getRankData p = .ok rankData

/-- A record with the given id (the other fields do not matter to the search). -/
def mkRecord (id : String) : PomofocusRankResponse :=
  { ID := id, TimeFocused := "", Name := "", Picture := "" }

/-- Page `p` is fetched without error, is not empty and holds no record whose id is `userID`:
the search goes on to the next page. -/
def pagePasses (getRankData : Dataset) (userID : String) (p : Nat) : Prop :=
  ∃ rankData, getRankData p = .ok rankData ∧ rankData ≠ [] ∧ containsUser userID rankData = false

/-! ## Invariants of the state machine -/

/-- The worker at this program counter holds rank page `p` (it has pulled it and has not yet
finished with it). -/
def WorkerPC.holds : WorkerPC → Nat → Prop
  | .select q, p => q = p
  | .fetch q, p => q = p
  | .sendFound q, p => q = p
  | _, _ => False

/-- The worker at this program counter has sent its value on the result channel. -/
def WorkerPC.hasSent : WorkerPC → Prop
  | .cancel => True
  | .done => True
  | _ => False

/-- The next page a worker will pull: the pages below it have all been pulled. -/
def CState.nextPage (s : CState) : Nat := s.rankPage - s.values.length

/-- The page channel holds the consecutive pages `nextPage, ..., rankPage - 1`, at most
`numOfWorkers` of them. -/
structure InvValues (n rankPage : Nat) (values : List Nat) : Prop where
  eq : values = List.range' (rankPage - values.length) values.length
  le : values.length ≤ rankPage
  cap : values.length ≤ n

/-- The pages held by workers are distinct pages below `next`; a worker about to send a page
has seen the key in it. -/
structure InvPc (ds : Dataset) (key : String) (n : Nat) (pc : Nat → WorkerPC) (next : Nat) :
    Prop where
  out : ∀ w, n ≤ w → pc w = .recv
  held_lt : ∀ w p, (pc w).holds p → p < next
  held_inj : ∀ w1 w2 p, (pc w1).holds p → (pc w2).holds p → w1 = w2
  hit : ∀ w p, pc w = .sendFound p → pageHasUser ds key p

/-- The send log: each worker has sent at most once, exactly the workers past their send have
sent, a value other than -1 is a page that holds the key, was pulled and is held by nobody any
more, no page is sent twice, and cancellation is only raised after a page was sent. -/
structure InvSent (ds : Dataset) (key : String) (pc : Nat → WorkerPC) (next : Nat)
    (cancelled : Bool) (sent : List (Nat × Int)) : Prop where
  nodup : (sent.map Prod.fst).Nodup
  iff : ∀ w, w ∈ sent.map Prod.fst ↔ (pc w).hasSent
  hit : ∀ e, e ∈ sent → e.2 = -1 ∨
    ∃ p : Nat, e.2 = (p : Int) ∧ pageHasUser ds key p ∧ p < next ∧ ∀ w, ¬ (pc w).holds p
  founds_nodup : ((sent.map Prod.snd).filter (fun v => v ≠ -1)).Nodup
  cancel : ∀ w, pc w = .cancel → ∃ e, e ∈ sent ∧ e.1 = w ∧ e.2 ≠ -1
  cancelled : cancelled = true → ∃ e, e ∈ sent ∧ e.2 ≠ -1

/-- The result loop: while no page has been reported, every value read so far was -1, so the
send log is the `i` values read followed by the channel buffer. -/
structure InvCoord (n i : Nat) (results : List Int) (status : Option Outcome)
    (sent : List (Nat × Int)) : Prop where
  i_le : i ≤ n
  reads : (∀ v, status ≠ some (.found v)) →
    sent.map Prod.snd = List.replicate i (-1) ++ results

/-- The invariant of `concurrentSearch`, for any dataset, key and worker count. -/
structure Inv (ds : Dataset) (key : String) (n : Nat) (s : CState) : Prop where
  values : InvValues n s.rankPage s.values
  pcs : InvPc ds key n s.pc (s.rankPage - s.values.length)
  sent : InvSent ds key s.pc (s.rankPage - s.values.length) s.cancelled s.sent
  coord : InvCoord n s.i s.results s.status s.sent

/-- Why things are in the logs: a worker about to send -1 has seen the cancellation raised or has
fetched an empty page; a worker about to send page `p` has fetched `p` and `p` holds the key;
the same for the values already sent; a reported page was sent by a worker; an abort comes from a
failed fetch, which is the last one made, by a worker that stands at that fetch. -/
structure InvLog (ds : Dataset) (key : String) (s : CState) : Prop where
  sendNeg_cause : ∀ w, s.pc w = .sendNeg →
    s.cancelled = true ∨ ∃ p, (w, p) ∈ s.fetched ∧ pageEmpty ds p
  sendFound_cause : ∀ w p, s.pc w = .sendFound p → (w, p) ∈ s.fetched ∧ pageHasUser ds key p
  sent_cause : ∀ w v, (w, v) ∈ s.sent →
    (v = -1 ∧ (s.cancelled = true ∨ ∃ p, (w, p) ∈ s.fetched ∧ pageEmpty ds p)) ∨
    (∃ p : Nat, v = (p : Int) ∧ (w, p) ∈ s.fetched ∧ pageHasUser ds key p)
  found_cause : ∀ v, s.status = some (.found v) → v ≠ -1 ∧ ∃ w, (w, v) ∈ s.sent
  fatal_cause : ∀ err, s.status = some (.fatal err) →
    ∃ w p, s.pc w = .fetch p ∧ ds p = .error err ∧ s.fetched.getLast? = some (w, p)

/-! ## Example datasets -/

/-- A dataset whose every fetch fails. -/
def failingDataset : Dataset := fun _ => .error "boom"

/-- A dataset with the key "u" on pages 0 and 1 (second position) and nothing after. -/
def duplicateDataset : Dataset := fun p =>
  if p ≤ 1 then .ok [mkRecord "a", mkRecord "u"] else .ok []

/-- A dataset of three pages with the key "u" at the second position of page 1. -/
def threePageDataset : Dataset := fun p =>
  if p = 0 then .ok [mkRecord "a"]
  else if p = 1 then .ok [mkRecord "b", mkRecord "u"]
  else if p = 2 then .ok [mkRecord "c"]
  else .ok []

/-- A dataset whose pages 0..3 hold other users and whose page 4 cannot be fetched. -/
def failAtFourDataset : Dataset := fun p =>
  if p < 4 then .ok [mkRecord "a"] else if p = 4 then .error "boom" else .ok []

/-! ## Progress measure -/

/-- Sum of a weight of the program counters of workers `0 .. n-1`. -/
def weightSum (ω : WorkerPC → Nat) (pc : Nat → WorkerPC) : Nat → Nat
  | 0 => 0
  | n + 1 => weightSum ω pc n + ω (pc n)

/-- The work a worker still has in front of it, given that only pages below `m` can send it back
to the top of its loop. -/
def workerWeight (m : Nat) : WorkerPC → Nat
  | .recv => 10
  | .select p => if p < m then 14 else 8
  | .fetch p => if p < m then 12 else 6
  | .sendFound _ => 4
  | .cancel => 2
  | .sendNeg => 2
  | .done => 0

/-- A bound on the number of state-changing steps still possible, when only pages below `m` can
send a worker back to the top of its loop. -/
def progressMeasure (m n : Nat) (s : CState) : Nat :=
  (if s.status = none then 1 else 0) + (n - s.i) + (n - s.values.length) +
    6 * (m - (s.rankPage - s.values.length)) + weightSum (workerWeight m) s.pc n

/-- Every decision of the schedule changes the state: each scheduled goroutine was able to
move. -/
def allMove (ds : Dataset) (key : String) (n : Nat) : CState → List Actor → Prop
  | _, [] => True
  | s, a :: l => step ds key n s a ≠ s ∧ allMove ds key n (step ds key n s a) l

/-- A dataset of two non-empty pages without the key, and nothing after. -/
def twoPageDataset : Dataset := fun p =>
  if p < 2 then .ok [mkRecord "a"] else .ok []

/-! ## The phases of a search for a key held by page `k` only -/

/-- Page `k` has not been pulled yet: every worker is waiting for a page or busy with a page
below `k`. -/
def phaseA (k : Nat) (s : CState) : Prop :=
  s.rankPage - s.values.length ≤ k ∧
    ∀ w, s.pc w = .recv ∨ (∃ p, s.pc w = .select p) ∨ (∃ p, s.pc w = .fetch p)

/-- Some worker holds page `k`. -/
def phaseB (k n : Nat) (s : CState) : Prop :=
  ∃ w, w < n ∧ (s.pc w).holds k

/-- Page `k` has been sent on the result channel. -/
def phaseC (k : Nat) (s : CState) : Prop :=
  (k : Int) ∈ s.sent.map Prod.snd

/-- The number of operations between a worker that holds a page with the key and its send. -/
def WorkerPC.stepsToSend : WorkerPC → Nat
  | .select _ => 3
  | .fetch _ => 2
  | .sendFound _ => 1
  | _ => 0

/-- The dataset of a successful search: no fetch fails, page `k` holds the key, no other page
does, and every page before `k` is non-empty. -/
structure KeyOnlyAt (ds : Dataset) (key : String) (k : Nat) : Prop where
  ok : neverFails ds
  hit : pageHasUser ds key k
  only : ∀ p, pageHasUser ds key p → p = k
  before : ∀ j, j < k → pageNonEmpty ds j

/-! ## `func buildDateDigitListQueryParams`

The function calls `time.Now().UTC()`, `Time.AddDate`, `Time.Year`, `Time.Month`, `Time.Day` and
`fmt.Sprintf`. These belong to the Go standard library, not to the repository; they are modelled
here after the library's implementation (package `time`: `absDate`, `daysSinceEpoch`, `norm`,
`Date`, `AddDate`; package `fmt`: `%0Nd`), for UTC times, without the nanoseconds. -/

/-- A UTC `time.Time`, given by the value of its `abs()`: the seconds since January 1 of the
absolute zero year. The library computes on `uint64`; the times that matter here are far from
the wrap-around (year 292277026596). -/
structure Time where
  abs : Nat
deriving DecidableEq, Repr

/-- The library constant `absoluteZeroYear`. -/
def absoluteZeroYear : Int := -292277022399

/-- The library constant `secondsPerDay`. -/
def secondsPerDay : Nat := 86400

/-- The library constant `daysPer400Years`. -/
def daysPer400Years : Nat := 365 * 400 + 97

/-- The library constant `daysPer100Years`. -/
def daysPer100Years : Nat := 365 * 100 + 24

/-- The library constant `daysPer4Years`. -/
def daysPer4Years : Nat := 365 * 4 + 1

/-- The library constant `unixToInternal + internalToAbsolute`: the `abs()` of the Unix epoch. -/
def unixToAbsolute : Nat := 62135596800 + 9223371966579724800

/-- The UTC time of a wall clock reading, in seconds since the Unix epoch: `time.Now().UTC()`. -/
def Time.ofUnix (unixSec : Nat) : Time := ⟨unixSec + unixToAbsolute⟩

/-- The library function `isLeap`. -/
def isLeap (year : Int) : Bool :=
  year % 4 = 0 && (year % 100 ≠ 0 || year % 400 = 0)

/-- The library table `daysBefore`: the days of a non-leap year before month `m + 1`. -/
def daysBefore : Nat → Nat
  | 0 => 0
  | 1 => 31
  | 2 => 31 + 28
  | 3 => 31 + 28 + 31
  | 4 => 31 + 28 + 31 + 30
  | 5 => 31 + 28 + 31 + 30 + 31
  | 6 => 31 + 28 + 31 + 30 + 31 + 30
  | 7 => 31 + 28 + 31 + 30 + 31 + 30 + 31
  | 8 => 31 + 28 + 31 + 30 + 31 + 30 + 31 + 31
  | 9 => 31 + 28 + 31 + 30 + 31 + 30 + 31 + 31 + 30
  | 10 => 31 + 28 + 31 + 30 + 31 + 30 + 31 + 31 + 30 + 31
  | 11 => 31 + 28 + 31 + 30 + 31 + 30 + 31 + 31 + 30 + 31 + 30
  | _ => 31 + 28 + 31 + 30 + 31 + 30 + 31 + 31 + 30 + 31 + 30 + 31

/-- First half of the library function `absDate`: the years since the absolute zero year and
the day within the year (from 0), by cutting off 400-year, 100-year, 4-year cycles and years. -/
def absYearDay (abs : Nat) : Nat × Nat :=
  let d := abs / secondsPerDay
  let n := d / daysPer400Years
  let y := 400 * n
  let d := d - daysPer400Years * n
  let n := d / daysPer100Years
  let n := n - n / 4
  let y := y + 100 * n
  let d := d - daysPer100Years * n
  let n := d / daysPer4Years
  let y := y + 4 * n
  let d := d - daysPer4Years * n
  let n := d / 365
  let n := n - n / 4
  let y := y + n
  let d := d - 365 * n
  (y, d)

/-- Second half of the library function `absDate`: month and day of the month from the day of
the year (from 0). -/
def monthDay (leap : Bool) (yday : Nat) : Nat × Nat :=
  if leap ∧ yday = 31 + 29 - 1 then (2, 29)
  else
    let day := if leap ∧ yday > 31 + 29 - 1 then yday - 1 else yday
    let month := day / 31
    let end_ := daysBefore (month + 1)
    if day ≥ end_ then (month + 2, day - end_ + 1)
    else (month + 1, day - daysBefore month + 1)

/-- The library function `absDate`: year, month and day of a time. -/
def absDate (abs : Nat) : Int × Nat × Nat :=
  let yd := absYearDay abs
  let year : Int := (yd.1 : Int) + absoluteZeroYear
  let md := monthDay (isLeap year) yd.2
  (year, md.1, md.2)

/-- The method `Time.Year`. -/
def Time.Year (t : Time) : Int := (absDate t.abs).1

/-- The method `Time.Month`. -/
def Time.Month (t : Time) : Nat := (absDate t.abs).2.1

/-- The method `Time.Day`. -/
def Time.Day (t : Time) : Nat := (absDate t.abs).2.2

/-- The method `Time.Clock`: hour, minute and second within the day. -/
def Time.Clock (t : Time) : Nat × Nat × Nat :=
  let sec := t.abs % secondsPerDay
  let hour := sec / 3600
  let sec := sec - hour * 3600
  let min := sec / 60
  let sec := sec - min * 60
  (hour, min, sec)

/-- The library function `daysSinceEpoch`: the days from the absolute zero year to the start of
`year`. -/
def daysSinceEpoch (year : Int) : Nat :=
  let y := (year - absoluteZeroYear).toNat
  let n := y / 400
  let y := y - 400 * n
  let d := daysPer400Years * n
  let n := y / 100
  let y := y - 100 * n
  let d := d + daysPer100Years * n
  let n := y / 4
  let y := y - 4 * n
  let d := d + daysPer4Years * n
  let n := y
  d + 365 * n

/-- The library function `norm`: `hi, lo` with `lo` brought into `[0, base)`. -/
def norm (hi lo base : Int) : Int × Int :=
  let hl : Int × Int :=
    if lo < 0 then
      let n := (-lo - 1) / base + 1
      (hi - n, lo + n * base)
    else (hi, lo)
  if hl.2 ≥ base then
    let n := hl.2 / base
    (hl.1 + n, hl.2 - n * base)
  else hl

/-- The library function `Date` for the UTC location: the time of a (possibly out of range)
year, month, day, hour, minute and second. -/
def Date (year month day hour min sec : Int) : Time :=
  let ym := norm year (month - 1) 12
  let year := ym.1
  let month := ym.2 + 1
  let ms := norm min sec 60
  let sec := ms.2
  let hm := norm hour ms.1 60
  let min := hm.2
  let dh := norm day hm.1 24
  let hour := dh.2
  let day := dh.1
  let d : Int := daysSinceEpoch year
  let d := d + daysBefore (month - 1).toNat
  let d := if isLeap year ∧ month ≥ 3 then d + 1 else d
  let d := d + (day - 1)
  let abs := d * secondsPerDay + (hour * 3600 + min * 60 + sec)
  ⟨abs.toNat⟩

/-- The method `Time.AddDate`. -/
def Time.AddDate (t : Time) (years months days : Int) : Time :=
  let clock := t.Clock
  Date (t.Year + years) ((t.Month : Int) + months) ((t.Day : Int) + days)
    clock.1 clock.2.1 clock.2.2

/-- The verb `%0Nd` of `fmt.Sprintf` with `N = width`: the decimal digits, padded with zeros on
the left to `width` characters, the sign of a negative number counting as one character. -/
def fmtZeroPadded (width : Nat) (v : Int) : List Char :=
  let digits := Nat.toDigits 10 v.natAbs
  if v < 0 then '-' :: (List.replicate (width - 1 - digits.length) '0' ++ digits)
  else List.replicate (width - digits.length) '0' ++ digits

/-- The call `fmt.Sprintf("dateDigitList[]=%04d%02d%02d", year, month, day)`. -/
def dateDigitListEntry (year : Int) (month day : Nat) : String :=
  String.mk ("dateDigitList[]=".toList ++ fmtZeroPadded 4 year ++ fmtZeroPadded 2 month ++
    fmtZeroPadded 2 day)

/-- The function `buildDateDigitListQueryParams`, with `today` the value of
`time.Now().UTC()`: the loop `for i := 0; i <= 6; i++` writing to the string builder. -/
def buildDateDigitListQueryParams (today : Time) : String :=
  (List.range 7).foldl
    (fun (sb : String) (i : Nat) =>
      let sb := if i > 0 then sb ++ "&" else sb
      let updatedDay := today.AddDate 0 0 (-(i : Int))
      sb ++ dateDigitListEntry updatedDay.Year updatedDay.Month updatedDay.Day)
    ""

/-- The token `YYYYMMDD` as the spec describes it: the four decimal digits of the year, then the
two of the month and the two of the day. -/
def yyyymmdd (year month day : Nat) : List Char :=
  [Nat.digitChar (year / 1000), Nat.digitChar (year / 100 % 10), Nat.digitChar (year / 10 % 10),
   Nat.digitChar (year % 10), Nat.digitChar (month / 10), Nat.digitChar (month % 10),
   Nat.digitChar (day / 10), Nat.digitChar (day % 10)]

/-- The token the spec asks for at position `i`: that of the calendar date of the instant `i`
days (of 86400 seconds) before `today`. -/
def dateToken (today : Time) (i : Nat) : List Char :=
  yyyymmdd (absDate (today.abs - i * secondsPerDay)).1.toNat
    (absDate (today.abs - i * secondsPerDay)).2.1 (absDate (today.abs - i * secondsPerDay)).2.2

/-! ## Theorems: `main` -/

/-- C10: the dispatch of `main` is the decision table: `sequentialSearch(userId)` runs exactly when
userId is non-empty and approach is "sequential", whatever workerCount is; `concurrentSearch(userId,
workerCount)` runs exactly when userId is non-empty, approach is "concurrent" and workerCount > 0;
in every other case no search runs; and with a non-empty userId and an approach other than the
two names `main` returns silently: no search and no error report. -/
theorem main_decision_table (userId approach : String) (workerCount : Int) :
    (main userId approach workerCount = .runSequential userId ↔
        userId ≠ "" ∧ approach = "sequential") ∧
    (main userId approach workerCount = .runConcurrent userId workerCount ↔
        userId ≠ "" ∧ approach = "concurrent" ∧ 0 < workerCount) ∧
    ((main userId approach workerCount).runsSearch = true ↔
        main userId approach workerCount = .runSequential userId ∨
        main userId approach workerCount = .runConcurrent userId workerCount) ∧
    (userId ≠ "" → approach ≠ "sequential" → approach ≠ "concurrent" →
        main userId approach workerCount = .silentReturn) := by
  have hne : ("sequential" : String) ≠ "concurrent" := by decide
  unfold main
  by_cases h1 : userId = ""
  · simp [h1, MainEffect.runsSearch]
  · by_cases h2 : approach = "sequential"
    · subst h2
      simp [h1, MainEffect.runsSearch]
    · by_cases h3 : approach = "concurrent"
      · subst h3
        by_cases h4 : workerCount ≤ 0
        · simp [h1, h4, MainEffect.runsSearch]
        · simp [h1, h4, MainEffect.runsSearch]
          omega
      · simp [h1, h2, h3, MainEffect.runsSearch]

/-- C8 (as stated) fails: with a non-empty userId and the default approach "sequential", the
non-positive workerCount 0 is not looked at: no error is reported and `sequentialSearch` runs. -/
theorem main_workerCount_zero_sequential_runs :
    ("u" ≠ "" ∨ (0 : Int) ≤ 0) ∧ main "u" "sequential" 0 = .runSequential "u" ∧
    (main "u" "sequential" 0).reportsError = false ∧
    (main "u" "sequential" 0).runsSearch = true := by
  decide

/-- C8 (amended): when userId is empty, or approach is "concurrent" and workerCount is
non-positive, `main` reports an error and calls neither `sequentialSearch` nor
`concurrentSearch`. -/
theorem main_config_error (userId approach : String) (workerCount : Int)
    (h : userId = "" ∨ (approach = "concurrent" ∧ workerCount ≤ 0)) :
    (main userId approach workerCount).reportsError = true ∧
    (main userId approach workerCount).runsSearch = false := by
  have hne : ("concurrent" : String) ≠ "sequential" := by decide
  unfold main
  rcases h with h | ⟨h, hw⟩
  · simp [h, MainEffect.reportsError, MainEffect.runsSearch]
  · subst h
    by_cases h1 : userId = ""
    · simp [h1, MainEffect.reportsError, MainEffect.runsSearch]
    · simp [h1, hne, hw, MainEffect.reportsError, MainEffect.runsSearch]

/-- Witness of `main_config_error`: approach "concurrent" with workerCount 0. -/
theorem main_config_error_witness :
    (main "u" "concurrent" 0).reportsError = true ∧
    (main "u" "concurrent" 0).runsSearch = false :=
  main_config_error "u" "concurrent" 0 (Or.inr ⟨rfl, le_refl 0⟩)

/-! ## Theorems: the result loop -/

theorem readResultsFrom_found (n : Nat) (outs : List Int) :
    ∀ (i read : Nat) (v : Int) (r : Nat),
      readResultsFrom n i read outs = some (.found v, r) ↔
        ∃ j, r = read + j + 1 ∧ i + j < n ∧ outs[j]? = some v ∧ v ≠ -1 ∧
          ∀ j', j' < j → outs[j']? = some (-1) := by
  induction outs with
  | nil =>
    intro i read v r
    unfold readResultsFrom
    by_cases h : i < n <;> simp [h]
  | cons x rest ih =>
    intro i read v r
    unfold readResultsFrom
    by_cases h : i < n
    · by_cases hx : x = -1
      · subst hx
        simp only [h, if_true, ne_eq, not_true_eq_false, if_false]
        rw [ih]
        constructor
        · rintro ⟨j, hr, hlt, hv, hne, hall⟩
          refine ⟨j + 1, by omega, by omega, by simpa using hv, hne, ?_⟩
          intro j' hj'
          cases j' with
          | zero => simp
          | succ j'' => simpa using hall j'' (by omega)
        · rintro ⟨j, hr, hlt, hv, hne, hall⟩
          cases j with
          | zero => simp at hv; exact absurd hv.symm hne
          | succ j0 =>
            refine ⟨j0, by omega, by omega, by simpa using hv, hne, ?_⟩
            intro j' hj'
            simpa using hall (j' + 1) (by omega)
      · simp only [h, if_true, ne_eq, hx, not_false_eq_true, Option.some.injEq, Prod.mk.injEq,
          Outcome.found.injEq]
        constructor
        · rintro ⟨rfl, rfl⟩
          exact ⟨0, by omega, by omega, by simp, hx, by intro j' hj'; omega⟩
        · rintro ⟨j, hr, hlt, hv, hne, hall⟩
          cases j with
          | zero => simp at hv; exact ⟨hv, by omega⟩
          | succ j0 =>
            have := hall 0 (by omega)
            simp at this
            exact absurd this hx
    · simp only [h, if_false]
      constructor
      · intro hh; simp at hh
      · rintro ⟨j, hr, hlt, _⟩; omega

theorem readResultsFrom_notFound (n : Nat) (outs : List Int) :
    ∀ (i read : Nat) (r : Nat),
      readResultsFrom n i read outs = some (.notFound, r) ↔
        r = read + (n - i) ∧ n - i ≤ outs.length ∧
          ∀ j, j < n - i → outs[j]? = some (-1) := by
  induction outs with
  | nil =>
    intro i read r
    unfold readResultsFrom
    by_cases h : i < n
    · simp only [h, if_true, List.length_nil]
      constructor
      · intro hh; simp at hh
      · rintro ⟨_, h2, _⟩; omega
    · simp only [h, if_false, List.length_nil, Option.some.injEq, Prod.mk.injEq, true_and]
      have : n - i = 0 := by omega
      constructor
      · rintro rfl; exact ⟨by omega, by omega, by intro j hj; omega⟩
      · rintro ⟨h1, h2⟩; omega
  | cons x rest ih =>
    intro i read r
    unfold readResultsFrom
    by_cases h : i < n
    · by_cases hx : x = -1
      · subst hx
        simp only [h, if_true, ne_eq, not_true_eq_false, if_false]
        rw [ih]
        constructor
        · rintro ⟨hr, hlen, hall⟩
          refine ⟨by omega, by simp; omega, ?_⟩
          intro j hj
          cases j with
          | zero => simp
          | succ j0 => simpa using hall j0 (by omega)
        · rintro ⟨hr, hlen, hall⟩
          refine ⟨by omega, by simp at hlen; omega, ?_⟩
          intro j hj
          simpa using hall (j + 1) (by omega)
      · simp only [h, if_true, ne_eq, hx, not_false_eq_true]
        constructor
        · intro hh; simp at hh
        · rintro ⟨hr, hlen, hall⟩
          have := hall 0 (by omega)
          simp at this
          exact absurd this hx
    · simp only [h, if_false]
      have : n - i = 0 := by omega
      simp [this]
      constructor
      · rintro rfl; rfl
      · rintro rfl; rfl

theorem readResultsFrom_not_fatal (n : Nat) (outs : List Int) :
    ∀ (i read : Nat) (err : String) (r : Nat),
      readResultsFrom n i read outs ≠ some (.fatal err, r) := by
  induction outs with
  | nil =>
    intro i read err r h
    unfold readResultsFrom at h
    by_cases hi : i < n <;> simp [hi] at h
  | cons x rest ih =>
    intro i read err r h
    unfold readResultsFrom at h
    by_cases hi : i < n
    · by_cases hx : x = -1
      · simp [hi, hx] at h
        exact ih _ _ _ _ h
      · simp [hi, hx] at h
    · simp [hi] at h

/-- C4: the result loop of `concurrentSearch`, fed any sequence of worker outcomes, returns
success with value `v` after taking exactly `j + 1` values if and only if `v` is the first value
other than -1, it stands at position `j` and `j < workerCount` (so nothing after it is read); and it
returns the not-found failure if and only if it has taken exactly `workerCount` values and all of
them are -1. It never ends in any other way. -/
theorem readResults_spec (workerCount : Nat) (outcomes : List Int) :
    (∀ (v : Int) (j : Nat), readResults workerCount outcomes = some (.found v, j + 1) ↔
        j < workerCount ∧ outcomes[j]? = some v ∧ v ≠ -1 ∧
          ∀ j', j' < j → outcomes[j']? = some (-1)) ∧
    (∀ v : Int, readResults workerCount outcomes ≠ some (.found v, 0)) ∧
    (∀ r : Nat, readResults workerCount outcomes = some (.notFound, r) ↔
        r = workerCount ∧ workerCount ≤ outcomes.length ∧
          ∀ j, j < workerCount → outcomes[j]? = some (-1)) ∧
    (∀ (err : String) (r : Nat), readResults workerCount outcomes ≠ some (.fatal err, r)) := by
  refine ⟨?_, ?_, ?_, ?_⟩
  · intro v j
    unfold readResults
    rw [readResultsFrom_found]
    constructor
    · rintro ⟨j0, hr, hlt, hv, hne, hall⟩
      have : j0 = j := by omega
      subst this
      exact ⟨by omega, hv, hne, hall⟩
    · rintro ⟨hlt, hv, hne, hall⟩
      exact ⟨j, by omega, by omega, hv, hne, hall⟩
  · intro v h
    unfold readResults at h
    rw [readResultsFrom_found] at h
    obtain ⟨j, hr, _⟩ := h
    omega
  · intro r
    unfold readResults
    rw [readResultsFrom_notFound]
    simp
  · intro err r
    exact readResultsFrom_not_fatal workerCount outcomes 0 0 err r

/-! ## Theorems: `sequentialSearch` -/

theorem containsUser_nil (userID : String) : containsUser userID [] = false := rfl

theorem pagePasses_iff (ds : Dataset) (key : String) (p : Nat) :
    pagePasses ds key p ↔ pageNonEmpty ds p ∧ ¬ pageHasUser ds key p := by
  unfold pagePasses pageNonEmpty pageHasUser
  constructor
  · rintro ⟨d, hd, hne, hc⟩
    refine ⟨⟨d, hd, hne⟩, ?_⟩
    rintro ⟨d', hd', hc'⟩
    rw [hd] at hd'
    cases hd'
    rw [hc] at hc'
    exact Bool.noConfusion hc'
  · rintro ⟨⟨d, hd, hne⟩, hno⟩
    refine ⟨d, hd, hne, ?_⟩
    cases hc : containsUser key d
    · rfl
    · exact absurd ⟨d, hd, hc⟩ hno

theorem pageHasUser_nonEmpty (ds : Dataset) (key : String) (p : Nat)
    (h : pageHasUser ds key p) : pageNonEmpty ds p := by
  obtain ⟨d, hd, hc⟩ := h
  refine ⟨d, hd, ?_⟩
  rintro rfl
  simp [containsUser] at hc

/-- What one iteration of the loop does on each kind of page. -/
theorem sequentialSearchLoop_pass (ds : Dataset) (key : String) (fuel a : Nat) (log : List Nat)
    (h : pagePasses ds key a) :
    sequentialSearchLoop ds key (fuel + 1) a log =
      sequentialSearchLoop ds key fuel (a + 1) (log ++ [a]) := by
  obtain ⟨d, hd, hne, hc⟩ := h
  have hl : d.length ≠ 0 := by
    intro h0
    exact hne (List.length_eq_zero.mp h0)
  simp only [sequentialSearchLoop, hd, hl, if_false, hc, Bool.false_eq_true]

theorem sequentialSearchLoop_hit (ds : Dataset) (key : String) (fuel a : Nat) (log : List Nat)
    (h : pageHasUser ds key a) :
    sequentialSearchLoop ds key (fuel + 1) a log = some (.found (a : Int), log ++ [a]) := by
  obtain ⟨d, hd, hc⟩ := h
  have hl : d.length ≠ 0 := by
    intro h0
    rw [List.length_eq_zero.mp h0] at hc
    simp [containsUser] at hc
  simp only [sequentialSearchLoop, hd, hl, if_false, hc, if_true]

theorem sequentialSearchLoop_empty (ds : Dataset) (key : String) (fuel a : Nat) (log : List Nat)
    (h : pageEmpty ds a) :
    sequentialSearchLoop ds key (fuel + 1) a log = some (.notFound, log ++ [a]) := by
  unfold pageEmpty at h
  simp only [sequentialSearchLoop, h, List.length_nil, if_true]

theorem sequentialSearchLoop_error (ds : Dataset) (key : String) (fuel a : Nat) (log : List Nat)
    (err : String) (h : ds a = .error err) :
    sequentialSearchLoop ds key (fuel + 1) a log = some (.fatal err, log ++ [a]) := by
  simp only [sequentialSearchLoop, h]

/-- Every page is of exactly one of the four kinds. -/
theorem page_cases (ds : Dataset) (key : String) (p : Nat) :
    pagePasses ds key p ∨ pageHasUser ds key p ∨ pageEmpty ds p ∨ ∃ err, ds p = .error err := by
  cases hd : ds p with
  | error e => exact Or.inr (Or.inr (Or.inr ⟨e, rfl⟩))
  | ok d =>
    cases d with
    | nil => exact Or.inr (Or.inr (Or.inl hd))
    | cons x rest =>
      cases hc : containsUser key (x :: rest)
      · exact Or.inl ⟨_, hd, by simp, hc⟩
      · exact Or.inr (Or.inl ⟨_, hd, hc⟩)

/-- Running through passing pages: from `a`, `c` passing pages cost `c` iterations. -/
theorem sequentialSearchLoop_skip (ds : Dataset) (key : String) (fuel : Nat) :
    ∀ (c a : Nat) (log : List Nat), (∀ j, a ≤ j → j < a + c → pagePasses ds key j) →
      sequentialSearchLoop ds key (fuel + c) a log =
        sequentialSearchLoop ds key fuel (a + c) (log ++ List.range' a c) := by
  intro c
  induction c with
  | zero => intro a log _; simp
  | succ c ih =>
    intro a log h
    have h1 : fuel + (c + 1) = (fuel + c) + 1 := by omega
    rw [h1, sequentialSearchLoop_pass ds key _ a log (h a (le_refl _) (by omega))]
    rw [ih (a + 1) (log ++ [a]) (fun j hj1 hj2 => h j (by omega) (by omega))]
    have h2 : a + 1 + c = a + (c + 1) := by omega
    rw [h2, List.range'_succ]
    simp

/-- Any result of the loop comes from a stop page `b` reached through passing pages. -/
theorem sequentialSearchLoop_sound (ds : Dataset) (key : String) :
    ∀ (fuel a : Nat) (log : List Nat) (o : Outcome) (log' : List Nat),
      sequentialSearchLoop ds key fuel a log = some (o, log') →
        ∃ c, c < fuel ∧ (∀ j, a ≤ j → j < a + c → pagePasses ds key j) ∧
          log' = log ++ List.range' a (c + 1) ∧
          ((o = .found ((a + c : Nat) : Int) ∧ pageHasUser ds key (a + c)) ∨
           (o = .notFound ∧ pageEmpty ds (a + c)) ∨
           (∃ err, o = .fatal err ∧ ds (a + c) = .error err)) := by
  intro fuel
  induction fuel with
  | zero => intro a log o log' h; simp [sequentialSearchLoop] at h
  | succ fuel ih =>
    intro a log o log' h
    rcases page_cases ds key a with hp | hp | hp | ⟨err, hp⟩
    · rw [sequentialSearchLoop_pass ds key fuel a log hp] at h
      obtain ⟨c, hc, hpass, hlog, hout⟩ := ih (a + 1) (log ++ [a]) o log' h
      refine ⟨c + 1, by omega, ?_, ?_, ?_⟩
      · intro j hj1 hj2
        by_cases hja : j = a
        · subst hja; exact hp
        · exact hpass j (by omega) (by omega)
      · rw [hlog, List.range'_succ a (c + 1)]
        simp
      · have e : a + 1 + c = a + (c + 1) := by omega
        rw [e] at hout
        exact hout
    · rw [sequentialSearchLoop_hit ds key fuel a log hp] at h
      simp only [Option.some.injEq, Prod.mk.injEq] at h
      exact ⟨0, by omega, by intro j h1 h2; omega, by simp [h.2.symm], Or.inl ⟨h.1.symm, hp⟩⟩
    · rw [sequentialSearchLoop_empty ds key fuel a log hp] at h
      simp only [Option.some.injEq, Prod.mk.injEq] at h
      exact ⟨0, by omega, by intro j h1 h2; omega, by simp [h.2.symm],
        Or.inr (Or.inl ⟨h.1.symm, hp⟩)⟩
    · rw [sequentialSearchLoop_error ds key fuel a log err hp] at h
      simp only [Option.some.injEq, Prod.mk.injEq] at h
      exact ⟨0, by omega, by intro j h1 h2; omega, by simp [h.2.symm],
        Or.inr (Or.inr ⟨err, h.1.symm, hp⟩)⟩

/-- Soundness of `sequentialSearch`, from page 0. -/
theorem sequentialSearch_sound (ds : Dataset) (key : String) (fuel : Nat) (o : Outcome)
    (log : List Nat) (h : sequentialSearch ds key fuel = some (o, log)) :
    ∃ b, b < fuel ∧ (∀ j, j < b → pagePasses ds key j) ∧ log = List.range (b + 1) ∧
      ((o = .found (b : Int) ∧ pageHasUser ds key b) ∨ (o = .notFound ∧ pageEmpty ds b) ∨
       (∃ err, o = .fatal err ∧ ds b = .error err)) := by
  obtain ⟨c, hc, hpass, hlog, hout⟩ := sequentialSearchLoop_sound ds key fuel 0 [] o log h
  refine ⟨c, hc, fun j hj => hpass j (Nat.zero_le _) (by omega), ?_, ?_⟩
  · rw [hlog, List.range_eq_range']
    simp
  · simpa using hout

/-- Completeness of `sequentialSearch`: passing pages below `b` lead the loop to page `b`. -/
theorem sequentialSearch_reach (ds : Dataset) (key : String) (b : Nat)
    (hpass : ∀ j, j < b → pagePasses ds key j) :
    sequentialSearch ds key (b + 1) =
      sequentialSearchLoop ds key 1 b (List.range b) := by
  unfold sequentialSearch
  have h := sequentialSearchLoop_skip ds key 1 b 0 [] (fun j _ hj => hpass j (by omega))
  have e : 1 + b = b + 1 := by omega
  rw [e] at h
  rw [h, List.range_eq_range']
  simp

/-- A passing page is of no other kind. -/
theorem pagePasses_excl (ds : Dataset) (key : String) (p : Nat) (h : pagePasses ds key p) :
    ¬ pageHasUser ds key p ∧ ¬ pageEmpty ds p ∧ ∀ err, ds p ≠ .error err := by
  obtain ⟨d, hd, hne, hc⟩ := h
  refine ⟨?_, ?_, ?_⟩
  · rintro ⟨d', hd', hc'⟩
    rw [hd] at hd'
    cases hd'
    rw [hc] at hc'
    exact Bool.noConfusion hc'
  · intro he
    unfold pageEmpty at he
    rw [hd] at he
    cases he
    exact hne rfl
  · intro err he
    rw [hd] at he
    cases he

/-- The stop page of a dataset is unique: two pages that are each reached through passing pages
and are not passing themselves coincide. -/
theorem stop_page_unique (ds : Dataset) (key : String) (b1 b2 : Nat)
    (h1 : ∀ j, j < b1 → pagePasses ds key j) (h2 : ∀ j, j < b2 → pagePasses ds key j)
    (n1 : ¬ pagePasses ds key b1) (n2 : ¬ pagePasses ds key b2) : b1 = b2 := by
  rcases Nat.lt_trichotomy b1 b2 with h | h | h
  · exact absurd (h2 b1 h) n1
  · exact h
  · exact absurd (h1 b2 h) n2

/-- The stop page of a result is not a passing page. -/
theorem stop_not_passes (ds : Dataset) (key : String) (b : Nat) (o : Outcome)
    (h : (o = .found (b : Int) ∧ pageHasUser ds key b) ∨ (o = .notFound ∧ pageEmpty ds b) ∨
       (∃ err, o = .fatal err ∧ ds b = .error err)) : ¬ pagePasses ds key b := by
  intro hp
  obtain ⟨e1, e2, e3⟩ := pagePasses_excl ds key b hp
  rcases h with ⟨_, h⟩ | ⟨_, h⟩ | ⟨err, _, h⟩
  · exact e1 h
  · exact e2 h
  · exact e3 err h

/-- The result of `sequentialSearch` does not depend on the fuel. -/
theorem sequentialSearch_deterministic (ds : Dataset) (key : String) (f1 f2 : Nat)
    (r1 r2 : Outcome × List Nat) (h1 : sequentialSearch ds key f1 = some r1)
    (h2 : sequentialSearch ds key f2 = some r2) : r1 = r2 := by
  obtain ⟨o1, l1⟩ := r1
  obtain ⟨o2, l2⟩ := r2
  obtain ⟨b1, _, p1, hl1, ho1⟩ := sequentialSearch_sound ds key f1 o1 l1 h1
  obtain ⟨b2, _, p2, hl2, ho2⟩ := sequentialSearch_sound ds key f2 o2 l2 h2
  have hb : b1 = b2 :=
    stop_page_unique ds key b1 b2 p1 p2 (stop_not_passes ds key b1 o1 ho1)
      (stop_not_passes ds key b2 o2 ho2)
  subst hb
  have hf : sequentialSearch ds key (b1 + 1) = sequentialSearch ds key (b1 + 1) := rfl
  have e1 : sequentialSearch ds key (b1 + 1) = some (o1, l1) := by
    rw [sequentialSearch_reach ds key b1 p1]
    rcases ho1 with ⟨ho, hp⟩ | ⟨ho, hp⟩ | ⟨err, ho, hp⟩
    · rw [sequentialSearchLoop_hit ds key 0 b1 _ hp, ho, hl1, List.range_succ]
    · rw [sequentialSearchLoop_empty ds key 0 b1 _ hp, ho, hl1, List.range_succ]
    · rw [sequentialSearchLoop_error ds key 0 b1 _ err hp, ho, hl1, List.range_succ]
  have e2 : sequentialSearch ds key (b1 + 1) = some (o2, l2) := by
    rw [sequentialSearch_reach ds key b1 p1]
    rcases ho2 with ⟨ho, hp⟩ | ⟨ho, hp⟩ | ⟨err, ho, hp⟩
    · rw [sequentialSearchLoop_hit ds key 0 b1 _ hp, ho, hl2, List.range_succ]
    · rw [sequentialSearchLoop_empty ds key 0 b1 _ hp, ho, hl2, List.range_succ]
    · rw [sequentialSearchLoop_error ds key 0 b1 _ err hp, ho, hl2, List.range_succ]
  rw [e1] at e2
  exact Option.some.inj e2

/-- C2: on a dataset whose fetches never fail, `sequentialSearch` requests pages 0, 1, 2, ... in
increasing order, each once, and stops at the first match or the first empty page. It reports
Found(k), having requested exactly pages 0..k, if and only if page k holds the key, no page below
k holds it and every page below k is non-empty; it reports NotFound, having requested exactly
pages 0..m, if and only if m is the first empty page and no page below m holds the key. A
reported page is a page index, the run never aborts, and the result is the same for every
sufficient number of iterations. -/
theorem sequentialSearch_spec (ds : Dataset) (key : String) (hok : neverFails ds) :
    (∀ (k : Nat) (log : List Nat),
      (∃ fuel, sequentialSearch ds key fuel = some (.found (k : Int), log)) ↔
        pageHasUser ds key k ∧ (∀ j, j < k → pageNonEmpty ds j ∧ ¬ pageHasUser ds key j) ∧
          log = List.range (k + 1)) ∧
    (∀ (log : List Nat),
      (∃ fuel, sequentialSearch ds key fuel = some (.notFound, log)) ↔
        ∃ m, pageEmpty ds m ∧ (∀ j, j < m → pageNonEmpty ds j ∧ ¬ pageHasUser ds key j) ∧
          log = List.range (m + 1)) ∧
    (∀ (fuel : Nat) (v : Int) (log : List Nat),
      sequentialSearch ds key fuel = some (.found v, log) → ∃ k : Nat, v = (k : Int)) ∧
    (∀ (fuel : Nat) (err : String) (log : List Nat),
      sequentialSearch ds key fuel ≠ some (.fatal err, log)) ∧
    (∀ (f1 f2 : Nat) (r1 r2 : Outcome × List Nat), sequentialSearch ds key f1 = some r1 →
      sequentialSearch ds key f2 = some r2 → r1 = r2) := by
  refine ⟨?_, ?_, ?_, ?_, ?_⟩
  · intro k log
    constructor
    · rintro ⟨fuel, h⟩
      obtain ⟨b, _, hp, hl, ho⟩ := sequentialSearch_sound ds key fuel _ log h
      rcases ho with ⟨ho, hh⟩ | ⟨ho, _⟩ | ⟨err, ho, _⟩
      · have hb : k = b := by
          have := Outcome.found.inj ho
          omega
        subst hb
        exact ⟨hh, fun j hj => (pagePasses_iff ds key j).mp (hp j hj), hl⟩
      · cases ho
      · cases ho
    · rintro ⟨hh, hp, hl⟩
      refine ⟨k + 1, ?_⟩
      rw [sequentialSearch_reach ds key k (fun j hj => (pagePasses_iff ds key j).mpr (hp j hj)),
        sequentialSearchLoop_hit ds key 0 k _ hh, hl, List.range_succ]
  · intro log
    constructor
    · rintro ⟨fuel, h⟩
      obtain ⟨b, _, hp, hl, ho⟩ := sequentialSearch_sound ds key fuel _ log h
      rcases ho with ⟨ho, _⟩ | ⟨_, hh⟩ | ⟨err, ho, _⟩
      · cases ho
      · exact ⟨b, hh, fun j hj => (pagePasses_iff ds key j).mp (hp j hj), hl⟩
      · cases ho
    · rintro ⟨m, hh, hp, hl⟩
      refine ⟨m + 1, ?_⟩
      rw [sequentialSearch_reach ds key m (fun j hj => (pagePasses_iff ds key j).mpr (hp j hj)),
        sequentialSearchLoop_empty ds key 0 m _ hh, hl, List.range_succ]
  · intro fuel v log h
    obtain ⟨b, _, _, _, ho⟩ := sequentialSearch_sound ds key fuel _ log h
    rcases ho with ⟨ho, _⟩ | ⟨ho, _⟩ | ⟨err, ho, _⟩
    · exact ⟨b, Outcome.found.inj ho⟩
    · cases ho
    · cases ho
  · intro fuel err log h
    obtain ⟨b, _, _, _, ho⟩ := sequentialSearch_sound ds key fuel _ log h
    rcases ho with ⟨ho, _⟩ | ⟨ho, _⟩ | ⟨err', _, he⟩
    · cases ho
    · cases ho
    · obtain ⟨d, hd⟩ := hok b
      rw [hd] at he
      cases he
  · exact sequentialSearch_deterministic ds key

/-- Witness of `sequentialSearch_spec`: when page 0 is empty the search reports NotFound after
exactly one fetch, that of page 0. -/
theorem sequentialSearch_spec_witness :
    neverFails (fun _ => .ok []) ∧
    ∃ fuel, sequentialSearch (fun _ => .ok []) "u" fuel = some (.notFound, [0]) :=
  ⟨fun _ => ⟨[], rfl⟩,
   ((sequentialSearch_spec (fun _ => .ok []) "u" (fun _ => ⟨[], rfl⟩)).2.1 [0]).mpr
     ⟨0, rfl, fun j hj => absurd hj (Nat.not_lt_zero j), rfl⟩⟩

/-! ## Theorems: the invariant of `concurrentSearch` -/

theorem holds_update (pc : Nat → WorkerPC) (w : Nat) (x : WorkerPC) (w' p : Nat) :
    (Function.update pc w x w').holds p ↔
      (w' = w ∧ x.holds p) ∨ (w' ≠ w ∧ (pc w').holds p) := by
  by_cases h : w' = w
  · subst h; simp
  · simp [Function.update_noteq h, h]

theorem update_eq_iff (pc : Nat → WorkerPC) (w : Nat) (x : WorkerPC) (w' : Nat) (y : WorkerPC) :
    Function.update pc w x w' = y ↔ (w' = w ∧ x = y) ∨ (w' ≠ w ∧ pc w' = y) := by
  by_cases h : w' = w
  · subst h; simp
  · simp [Function.update_noteq h, h]

theorem hasSent_update (pc : Nat → WorkerPC) (w : Nat) (x : WorkerPC) (w' : Nat) :
    (Function.update pc w x w').hasSent ↔
      (w' = w ∧ x.hasSent) ∨ (w' ≠ w ∧ (pc w').hasSent) := by
  by_cases h : w' = w
  · subst h; simp
  · simp [Function.update_noteq h, h]

theorem invValues_push (n rankPage : Nat) (values : List Nat) (h : InvValues n rankPage values)
    (hlt : values.length < n) : InvValues n (rankPage + 1) (values ++ [rankPage]) := by
  obtain ⟨heq, hle, hcap⟩ := h
  refine ⟨?_, by simp; omega, by simp; omega⟩
  have e1 : (values ++ [rankPage]).length = values.length + 1 := by simp
  have e2 : rankPage + 1 - (values.length + 1) = rankPage - values.length := by omega
  rw [e1, e2, List.range'_concat, ← heq]
  have e3 : rankPage - values.length + 1 * values.length = rankPage := by omega
  rw [e3]

theorem invValues_pull (n rankPage p : Nat) (rest : List Nat)
    (h : InvValues n rankPage (p :: rest)) :
    InvValues n rankPage rest ∧ p = rankPage - (rest.length + 1) ∧ rest.length + 1 ≤ rankPage := by
  obtain ⟨heq, hle, hcap⟩ := h
  simp only [List.length_cons] at heq hle hcap
  rw [List.range'_succ] at heq
  have hp : p = rankPage - (rest.length + 1) := (List.cons.inj heq).1
  have hr := (List.cons.inj heq).2
  refine ⟨⟨?_, by omega, by omega⟩, hp, hle⟩
  have e : rankPage - rest.length = rankPage - (rest.length + 1) + 1 := by omega
  rw [e]
  exact hr

/-- A worker changes its program counter without taking a new page. -/
theorem invPc_update (ds : Dataset) (key : String) (n : Nat) (pc : Nat → WorkerPC) (next : Nat)
    (h : InvPc ds key n pc next) (w : Nat) (hw : w < n) (x : WorkerPC)
    (hx : ∀ p, x.holds p → (pc w).holds p)
    (hhit : ∀ p, x = .sendFound p → pageHasUser ds key p) :
    InvPc ds key n (Function.update pc w x) next := by
  refine ⟨?_, ?_, ?_, ?_⟩
  · intro w' hw'
    have : w' ≠ w := by omega
    rw [Function.update_noteq this]
    exact h.out w' hw'
  · intro w' p hp
    rw [holds_update] at hp
    rcases hp with ⟨rfl, hp⟩ | ⟨_, hp⟩
    · exact h.held_lt _ p (hx p hp)
    · exact h.held_lt w' p hp
  · intro w1 w2 p h1 h2
    rw [holds_update] at h1 h2
    rcases h1 with ⟨rfl, h1⟩ | ⟨n1, h1⟩ <;> rcases h2 with ⟨rfl, h2⟩ | ⟨n2, h2⟩
    · rfl
    · exact h.held_inj _ _ p (hx p h1) h2
    · exact h.held_inj _ _ p h1 (hx p h2)
    · exact h.held_inj _ _ p h1 h2
  · intro w' p hp
    rw [update_eq_iff] at hp
    rcases hp with ⟨_, hp⟩ | ⟨_, hp⟩
    · exact hhit p hp
    · exact h.hit w' p hp

/-- A worker at `recv` pulls page `next`. -/
theorem invPc_pull (ds : Dataset) (key : String) (n : Nat) (pc : Nat → WorkerPC) (next : Nat)
    (h : InvPc ds key n pc next) (w : Nat) (hw : w < n) :
    InvPc ds key n (Function.update pc w (.select next)) (next + 1) := by
  refine ⟨?_, ?_, ?_, ?_⟩
  · intro w' hw'
    have : w' ≠ w := by omega
    rw [Function.update_noteq this]
    exact h.out w' hw'
  · intro w' p hp
    rw [holds_update] at hp
    rcases hp with ⟨rfl, hp⟩ | ⟨_, hp⟩
    · simp only [WorkerPC.holds] at hp
      omega
    · have := h.held_lt w' p hp
      omega
  · intro w1 w2 p h1 h2
    rw [holds_update] at h1 h2
    rcases h1 with ⟨rfl, h1⟩ | ⟨n1, h1⟩ <;> rcases h2 with ⟨rfl, h2⟩ | ⟨n2, h2⟩
    · rfl
    · simp only [WorkerPC.holds] at h1
      have := h.held_lt _ p h2
      omega
    · simp only [WorkerPC.holds] at h2
      have := h.held_lt _ p h1
      omega
    · exact h.held_inj _ _ p h1 h2
  · intro w' p hp
    rw [update_eq_iff] at hp
    rcases hp with ⟨_, hp⟩ | ⟨_, hp⟩
    · cases hp
    · exact h.hit w' p hp

/-- A worker changes its program counter without taking a page and without sending. -/
theorem invSent_update (ds : Dataset) (key : String) (pc : Nat → WorkerPC) (next : Nat)
    (cancelled cancelled' : Bool) (sent : List (Nat × Int))
    (h : InvSent ds key pc next cancelled sent) (w : Nat) (x : WorkerPC)
    (hx : ∀ p, x.holds p → (pc w).holds p)
    (hs : x.hasSent ↔ (pc w).hasSent)
    (hc : x = .cancel → pc w = .cancel)
    (hcd : cancelled' = true → cancelled = true ∨ pc w = .cancel) :
    InvSent ds key (Function.update pc w x) next cancelled' sent := by
  refine ⟨h.nodup, ?_, ?_, h.founds_nodup, ?_, ?_⟩
  · intro w'
    rw [hasSent_update, h.iff]
    by_cases hw : w' = w
    · subst hw; simp [hs]
    · simp [hw]
  · intro e he
    rcases h.hit e he with h1 | ⟨p, hp, hhit, hlt, hno⟩
    · exact Or.inl h1
    · refine Or.inr ⟨p, hp, hhit, hlt, ?_⟩
      intro w' hw'
      rw [holds_update] at hw'
      rcases hw' with ⟨rfl, hw'⟩ | ⟨_, hw'⟩
      · exact hno _ (hx p hw')
      · exact hno w' hw'
  · intro w' hw'
    rw [update_eq_iff] at hw'
    rcases hw' with ⟨rfl, hw'⟩ | ⟨_, hw'⟩
    · exact h.cancel _ (hc hw')
    · exact h.cancel w' hw'
  · intro hcc
    rcases hcd hcc with h1 | h1
    · exact h.cancelled h1
    · obtain ⟨e, he, _, hne⟩ := h.cancel w h1
      exact ⟨e, he, hne⟩

/-- A worker at `recv` pulls page `next`. -/
theorem invSent_pull (ds : Dataset) (key : String) (pc : Nat → WorkerPC) (next : Nat)
    (cancelled : Bool) (sent : List (Nat × Int))
    (h : InvSent ds key pc next cancelled sent) (w : Nat) (hpc : pc w = .recv) :
    InvSent ds key (Function.update pc w (.select next)) (next + 1) cancelled sent := by
  refine ⟨h.nodup, ?_, ?_, h.founds_nodup, ?_, h.cancelled⟩
  · intro w'
    rw [hasSent_update, h.iff]
    by_cases hw : w' = w
    · subst hw; simp [hpc, WorkerPC.hasSent]
    · simp [hw]
  · intro e he
    rcases h.hit e he with h1 | ⟨p, hp, hhit, hlt, hno⟩
    · exact Or.inl h1
    · refine Or.inr ⟨p, hp, hhit, by omega, ?_⟩
      intro w' hw'
      rw [holds_update] at hw'
      rcases hw' with ⟨rfl, hw'⟩ | ⟨_, hw'⟩
      · simp only [WorkerPC.holds] at hw'
        omega
      · exact hno w' hw'
  · intro w' hw'
    rw [update_eq_iff] at hw'
    rcases hw' with ⟨_, hw'⟩ | ⟨_, hw'⟩
    · cases hw'
    · exact h.cancel w' hw'

/-- A worker at `sendNeg` sends -1 and returns. -/
theorem invSent_sendNeg (ds : Dataset) (key : String) (pc : Nat → WorkerPC) (next : Nat)
    (cancelled : Bool) (sent : List (Nat × Int))
    (h : InvSent ds key pc next cancelled sent) (w : Nat) (hpc : pc w = .sendNeg) :
    InvSent ds key (Function.update pc w .done) next cancelled (sent ++ [(w, -1)]) := by
  have hnot : w ∉ sent.map Prod.fst := by
    rw [h.iff, hpc]
    simp [WorkerPC.hasSent]
  refine ⟨?_, ?_, ?_, ?_, ?_, ?_⟩
  · rw [List.map_append, List.nodup_append]
    refine ⟨h.nodup, by simp, ?_⟩
    intro a ha hb
    simp at hb
    subst hb
    exact hnot ha
  · intro w'
    rw [hasSent_update, List.map_append, List.mem_append, h.iff]
    by_cases hw : w' = w
    · subst hw; simp [WorkerPC.hasSent]
    · simp [hw]
  · intro e he
    rw [List.mem_append] at he
    rcases he with he | he
    · rcases h.hit e he with h1 | ⟨p, hp, hhit, hlt, hno⟩
      · exact Or.inl h1
      · refine Or.inr ⟨p, hp, hhit, hlt, ?_⟩
        intro w' hw'
        rw [holds_update] at hw'
        rcases hw' with ⟨_, hw'⟩ | ⟨_, hw'⟩
        · exact hw'
        · exact hno w' hw'
    · simp at he
      subst he
      exact Or.inl rfl
  · simpa using h.founds_nodup
  · intro w' hw'
    rw [update_eq_iff] at hw'
    rcases hw' with ⟨_, hw'⟩ | ⟨_, hw'⟩
    · cases hw'
    · obtain ⟨e, he, h1, h2⟩ := h.cancel w' hw'
      exact ⟨e, List.mem_append_left _ he, h1, h2⟩
  · intro hc
    obtain ⟨e, he, h2⟩ := h.cancelled hc
    exact ⟨e, List.mem_append_left _ he, h2⟩

/-- A worker at `sendFound p` sends `p` and moves on to the cancel call. -/
theorem invSent_sendFound (ds : Dataset) (key : String) (n : Nat) (pc : Nat → WorkerPC)
    (next : Nat) (cancelled : Bool) (sent : List (Nat × Int))
    (h : InvSent ds key pc next cancelled sent) (hp : InvPc ds key n pc next) (w p : Nat)
    (hpc : pc w = .sendFound p) :
    InvSent ds key (Function.update pc w .cancel) next cancelled (sent ++ [(w, (p : Int))]) := by
  have hnot : w ∉ sent.map Prod.fst := by
    rw [h.iff, hpc]
    simp [WorkerPC.hasSent]
  have hholds : (pc w).holds p := by rw [hpc]; rfl
  have hpne : (p : Int) ≠ -1 := by omega
  refine ⟨?_, ?_, ?_, ?_, ?_, ?_⟩
  · rw [List.map_append, List.nodup_append]
    refine ⟨h.nodup, by simp, ?_⟩
    intro a ha hb
    simp at hb
    subst hb
    exact hnot ha
  · intro w'
    rw [hasSent_update, List.map_append, List.mem_append, h.iff]
    by_cases hw : w' = w
    · subst hw; simp [WorkerPC.hasSent]
    · simp [hw]
  · intro e he
    rw [List.mem_append] at he
    rcases he with he | he
    · rcases h.hit e he with h1 | ⟨q, hq, hhit, hlt, hno⟩
      · exact Or.inl h1
      · refine Or.inr ⟨q, hq, hhit, hlt, ?_⟩
        intro w' hw'
        rw [holds_update] at hw'
        rcases hw' with ⟨_, hw'⟩ | ⟨_, hw'⟩
        · exact hw'
        · exact hno w' hw'
    · simp at he
      subst he
      refine Or.inr ⟨p, rfl, hp.hit w p hpc, hp.held_lt w p hholds, ?_⟩
      intro w' hw'
      rw [holds_update] at hw'
      rcases hw' with ⟨_, hw'⟩ | ⟨hne, hw'⟩
      · exact hw'
      · exact hne (hp.held_inj w' w p hw' hholds)
  · rw [List.map_append, List.filter_append, List.nodup_append]
    refine ⟨h.founds_nodup, by simp [hpne], ?_⟩
    intro a ha hb
    simp [hpne] at hb
    subst hb
    rw [List.mem_filter, List.mem_map] at ha
    obtain ⟨⟨e, he, hea⟩, _⟩ := ha
    rcases h.hit e he with h1 | ⟨q, hq, _, _, hno⟩
    · rw [hea] at h1
      exact hpne h1
    · rw [hea] at hq
      have : p = q := by omega
      subst this
      exact hno w hholds
  · intro w' hw'
    rw [update_eq_iff] at hw'
    rcases hw' with ⟨rfl, _⟩ | ⟨_, hw'⟩
    · exact ⟨(w', (p : Int)), by simp, rfl, hpne⟩
    · obtain ⟨e, he, h1, h2⟩ := h.cancel w' hw'
      exact ⟨e, List.mem_append_left _ he, h1, h2⟩
  · intro hc
    obtain ⟨e, he, h2⟩ := h.cancelled hc
    exact ⟨e, List.mem_append_left _ he, h2⟩

theorem invCoord_send (n i : Nat) (results : List Int) (status : Option Outcome)
    (sent : List (Nat × Int)) (h : InvCoord n i results status sent) (w : Nat) (v : Int) :
    InvCoord n i (results ++ [v]) status (sent ++ [(w, v)]) := by
  refine ⟨h.i_le, ?_⟩
  intro hs
  rw [List.map_append, h.reads hs]
  simp

theorem invCoord_status (n i : Nat) (results : List Int) (status' : Option Outcome)
    (sent : List (Nat × Int)) (h : InvCoord n i results none sent) :
    InvCoord n i results status' sent := by
  refine ⟨h.i_le, ?_⟩
  intro _
  exact h.reads (by intro v hv; cases hv)

theorem inv_init (ds : Dataset) (key : String) (n : Nat) : Inv ds key n CState.init := by
  refine ⟨⟨by simp [CState.init], by simp [CState.init], by simp [CState.init]⟩,
    ⟨fun _ _ => rfl, ?_, ?_, ?_⟩, ⟨by simp [CState.init], ?_, ?_, by simp [CState.init], ?_, ?_⟩,
    ⟨Nat.zero_le _, by intro _; simp [CState.init]⟩⟩
  · intro w p h; exact absurd h (by simp [CState.init, WorkerPC.holds])
  · intro w1 w2 p h; exact absurd h (by simp [CState.init, WorkerPC.holds])
  · intro w p h; simp [CState.init] at h
  · intro w; simp [CState.init, WorkerPC.hasSent]
  · intro e he; simp [CState.init] at he
  · intro w h; simp [CState.init] at h
  · intro h; simp [CState.init] at h

theorem inv_stepGenerator (ds : Dataset) (key : String) (n : Nat) (s : CState)
    (h : Inv ds key n s) : Inv ds key n (stepGenerator n s) := by
  unfold stepGenerator
  by_cases hlt : s.values.length < n
  · simp only [hlt, if_true]
    have hle := h.values.le
    have e : s.rankPage + 1 - (s.values ++ [s.rankPage]).length =
        s.rankPage - s.values.length := by
      simp
    refine ⟨invValues_push n _ _ h.values hlt, ?_, ?_, h.coord⟩
    · show InvPc ds key n s.pc (s.rankPage + 1 - (s.values ++ [s.rankPage]).length)
      rw [e]; exact h.pcs
    · show InvSent ds key s.pc (s.rankPage + 1 - (s.values ++ [s.rankPage]).length) s.cancelled
        s.sent
      rw [e]; exact h.sent
  · simp only [hlt, if_false]
    exact h

theorem inv_stepCoordinator (ds : Dataset) (key : String) (n : Nat) (s : CState)
    (h : Inv ds key n s) (hrun : s.status = none) : Inv ds key n (stepCoordinator n s) := by
  unfold stepCoordinator
  have hc := h.coord
  rw [hrun] at hc
  by_cases hlt : s.i < n
  · simp only [hlt, if_true]
    cases hres : s.results with
    | nil => simp only []; exact h
    | cons v rest =>
      simp only []
      rw [hres] at hc
      by_cases hv : v = -1
      · subst hv
        simp only [ne_eq, not_true_eq_false, if_false]
        refine ⟨h.values, h.pcs, h.sent, ⟨hlt, ?_⟩⟩
        intro _
        show s.sent.map Prod.snd = List.replicate (s.i + 1) (-1) ++ rest
        rw [hc.reads (by intro v hv; cases hv), List.replicate_succ']
        simp
      · simp only [ne_eq, hv, not_false_eq_true, if_true]
        refine ⟨h.values, h.pcs, h.sent, ⟨hc.i_le, ?_⟩⟩
        intro hh
        exact absurd rfl (hh v)
  · simp only [hlt, if_false]
    exact ⟨h.values, h.pcs, h.sent, invCoord_status n _ _ _ _ hc⟩

theorem inv_stepWorker (ds : Dataset) (key : String) (n w : Nat) (s : CState)
    (h : Inv ds key n s) (hw : w < n) (hrun : s.status = none) :
    Inv ds key n (stepWorker ds key n w s) := by
  unfold stepWorker
  have hc := h.coord
  have hpcs := h.pcs
  have hsent := h.sent
  cases hpc : s.pc w with
  | recv =>
    simp only []
    cases hv : s.values with
    | nil => simp only []; exact h
    | cons p rest =>
      simp only []
      have hvals := h.values
      rw [hv] at hvals hpcs hsent
      obtain ⟨hv', hp, hle⟩ := invValues_pull n _ p rest hvals
      simp only [List.length_cons] at hpcs hsent
      have e : s.rankPage - rest.length = (s.rankPage - (rest.length + 1)) + 1 := by omega
      refine ⟨hv', ?_, ?_, hc⟩
      · show InvPc ds key n (Function.update s.pc w (.select p)) (s.rankPage - rest.length)
        rw [e, hp]
        exact invPc_pull ds key n _ _ hpcs w hw
      · show InvSent ds key (Function.update s.pc w (.select p)) (s.rankPage - rest.length)
          s.cancelled s.sent
        rw [e, hp]
        exact invSent_pull ds key _ _ _ _ hsent w hpc
  | select p =>
    simp only []
    by_cases hcan : s.cancelled = true
    · rw [if_pos hcan]
      refine ⟨h.values, invPc_update ds key n _ _ hpcs w hw _ ?_ ?_,
        ?_, hc⟩
      · intro q hq; exact absurd hq (by simp [WorkerPC.holds])
      · intro q hq; cases hq
      · have := invSent_update ds key _ _ _ s.cancelled _ hsent w .sendNeg
          (by intro q hq; exact absurd hq (by simp [WorkerPC.holds]))
          (by rw [hpc]; simp [WorkerPC.hasSent]) (by intro hq; cases hq) (fun hh => Or.inl hh)
        exact this
    · rw [if_neg hcan]
      refine ⟨h.values, invPc_update ds key n _ _ hpcs w hw _ ?_ ?_, ?_, hc⟩
      · intro q hq; rw [hpc]; exact hq
      · intro q hq; cases hq
      · exact invSent_update ds key _ _ _ s.cancelled _ hsent w (.fetch p)
          (by intro q hq; rw [hpc]; exact hq)
          (by rw [hpc]; simp [WorkerPC.hasSent]) (by intro hq; cases hq) (fun hh => Or.inl hh)
  | fetch p =>
    simp only []
    cases hd : ds p with
    | error err =>
      simp only []
      rw [hrun] at hc
      exact ⟨h.values, hpcs, hsent, invCoord_status n _ _ _ _ hc⟩
    | ok d =>
      simp only []
      by_cases hlen : d.length = 0
      · simp only [hlen, if_true]
        refine ⟨h.values, invPc_update ds key n _ _ hpcs w hw _ ?_ ?_, ?_, hc⟩
        · intro q hq; exact absurd hq (by simp [WorkerPC.holds])
        · intro q hq; cases hq
        · exact invSent_update ds key _ _ _ s.cancelled _ hsent w .sendNeg
            (by intro q hq; exact absurd hq (by simp [WorkerPC.holds]))
            (by rw [hpc]; simp [WorkerPC.hasSent]) (by intro hq; cases hq) (fun hh => Or.inl hh)
      · simp only [hlen, if_false]
        by_cases hcon : containsUser key d = true
        · simp only [hcon, if_true]
          refine ⟨h.values, invPc_update ds key n _ _ hpcs w hw _ ?_ ?_, ?_, hc⟩
          · intro q hq; rw [hpc]; exact hq
          · intro q hq
            cases hq
            exact ⟨d, hd, hcon⟩
          · exact invSent_update ds key _ _ _ s.cancelled _ hsent w (.sendFound p)
              (by intro q hq; rw [hpc]; exact hq)
              (by rw [hpc]; simp [WorkerPC.hasSent]) (by intro hq; cases hq)
              (fun hh => Or.inl hh)
        · simp only [hcon, if_false]
          refine ⟨h.values, invPc_update ds key n _ _ hpcs w hw _ ?_ ?_, ?_, hc⟩
          · intro q hq; exact absurd hq (by simp [WorkerPC.holds])
          · intro q hq; cases hq
          · exact invSent_update ds key _ _ _ s.cancelled _ hsent w .recv
              (by intro q hq; exact absurd hq (by simp [WorkerPC.holds]))
              (by rw [hpc]; simp [WorkerPC.hasSent]) (by intro hq; cases hq)
              (fun hh => Or.inl hh)
  | sendNeg =>
    simp only []
    by_cases hlt : s.results.length < n
    · simp only [hlt, if_true]
      refine ⟨h.values, invPc_update ds key n _ _ hpcs w hw _ ?_ ?_,
        invSent_sendNeg ds key _ _ _ _ hsent w hpc, invCoord_send n _ _ _ _ hc w (-1)⟩
      · intro q hq; exact absurd hq (by simp [WorkerPC.holds])
      · intro q hq; cases hq
    · simp only [hlt, if_false]
      exact h
  | sendFound p =>
    simp only []
    by_cases hlt : s.results.length < n
    · simp only [hlt, if_true]
      refine ⟨h.values, invPc_update ds key n _ _ hpcs w hw _ ?_ ?_,
        invSent_sendFound ds key n _ _ _ _ hsent hpcs w p hpc, invCoord_send n _ _ _ _ hc w p⟩
      · intro q hq; exact absurd hq (by simp [WorkerPC.holds])
      · intro q hq; cases hq
    · simp only [hlt, if_false]
      exact h
  | cancel =>
    simp only []
    refine ⟨h.values, invPc_update ds key n _ _ hpcs w hw _ ?_ ?_, ?_, hc⟩
    · intro q hq; exact absurd hq (by simp [WorkerPC.holds])
    · intro q hq; cases hq
    · exact invSent_update ds key _ _ s.cancelled true _ hsent w .done
        (by intro q hq; exact absurd hq (by simp [WorkerPC.holds]))
        (by rw [hpc]; simp [WorkerPC.hasSent]) (by intro hq; cases hq)
        (fun _ => Or.inr hpc)
  | done =>
    simp only []
    exact h

theorem inv_step (ds : Dataset) (key : String) (n : Nat) (s : CState) (a : Actor)
    (h : Inv ds key n s) : Inv ds key n (step ds key n s a) := by
  cases a with
  | generator =>
    unfold step
    by_cases hrun : s.status = none
    · simp only [hrun, if_true]; exact inv_stepGenerator ds key n s h
    · simp only [hrun, if_false]; exact h
  | worker w =>
    unfold step
    by_cases hrun : s.status = none ∧ w < n
    · simp only [hrun, and_self, if_true]; exact inv_stepWorker ds key n w s h hrun.2 hrun.1
    · simp only [hrun, if_false]; exact h
  | coordinator =>
    unfold step
    by_cases hrun : s.status = none
    · simp only [hrun, if_true]; exact inv_stepCoordinator ds key n s h hrun
    · simp only [hrun, if_false]; exact h

theorem inv_run (ds : Dataset) (key : String) (n : Nat) (l : List Actor) :
    ∀ s, Inv ds key n s → Inv ds key n (run ds key n s l) := by
  induction l with
  | nil => intro s h; exact h
  | cons a l ih => intro s h; exact ih _ (inv_step ds key n s a h)

theorem inv_concurrentSearch (ds : Dataset) (key : String) (n : Nat) (l : List Actor) :
    Inv ds key n (concurrentSearch ds key n l) :=
  inv_run ds key n l _ (inv_init ds key n)

theorem invLog_init (ds : Dataset) (key : String) : InvLog ds key CState.init := by
  refine ⟨?_, ?_, ?_, ?_, ?_⟩
  · intro w h; simp [CState.init] at h
  · intro w p h; simp [CState.init] at h
  · intro w v h; simp [CState.init] at h
  · intro v h; simp [CState.init] at h
  · intro err h; simp [CState.init] at h

/-- The log invariant is kept when the logs only grow, cancellation is not withdrawn, and every
new program counter at a send and every new log entry has its cause. -/
theorem invLog_frame (ds : Dataset) (key : String) (s s' : CState) (hl : InvLog ds key s)
    (hfound : ∀ v, s'.status = some (.found v) → v ≠ -1 ∧ ∃ w, (w, v) ∈ s'.sent)
    (hfatal : ∀ err, s'.status = some (.fatal err) →
      ∃ w p, s'.pc w = .fetch p ∧ ds p = .error err ∧ s'.fetched.getLast? = some (w, p))
    (hcan : s.cancelled = true → s'.cancelled = true)
    (hfet : ∀ e, e ∈ s.fetched → e ∈ s'.fetched)
    (hneg : ∀ w, s'.pc w = .sendNeg → s.pc w = .sendNeg ∨
      (s'.cancelled = true ∨ ∃ p, (w, p) ∈ s'.fetched ∧ pageEmpty ds p))
    (hfnd : ∀ w p, s'.pc w = .sendFound p → s.pc w = .sendFound p ∨
      ((w, p) ∈ s'.fetched ∧ pageHasUser ds key p))
    (hsent : ∀ w v, (w, v) ∈ s'.sent → (w, v) ∈ s.sent ∨
      (v = -1 ∧ s.pc w = .sendNeg) ∨ (∃ p : Nat, v = (p : Int) ∧ s.pc w = .sendFound p)) :
    InvLog ds key s' := by
  have negc : ∀ w, s.pc w = .sendNeg →
      s'.cancelled = true ∨ ∃ p, (w, p) ∈ s'.fetched ∧ pageEmpty ds p := by
    intro w hw
    rcases hl.sendNeg_cause w hw with h1 | ⟨p, hp, he⟩
    · exact Or.inl (hcan h1)
    · exact Or.inr ⟨p, hfet _ hp, he⟩
  have fndc : ∀ w p, s.pc w = .sendFound p → (w, p) ∈ s'.fetched ∧ pageHasUser ds key p := by
    intro w p hw
    obtain ⟨h1, h2⟩ := hl.sendFound_cause w p hw
    exact ⟨hfet _ h1, h2⟩
  refine ⟨?_, ?_, ?_, ?_, ?_⟩
  · intro w hw
    rcases hneg w hw with h1 | h1
    · exact negc w h1
    · exact h1
  · intro w p hw
    rcases hfnd w p hw with h1 | h1
    · exact fndc w p h1
    · exact h1
  · intro w v hv
    rcases hsent w v hv with h1 | ⟨rfl, h1⟩ | ⟨p, rfl, h1⟩
    · rcases hl.sent_cause w v h1 with ⟨rfl, h2 | ⟨p, hp, he⟩⟩ | ⟨p, rfl, hp, hh⟩
      · exact Or.inl ⟨rfl, Or.inl (hcan h2)⟩
      · exact Or.inl ⟨rfl, Or.inr ⟨p, hfet _ hp, he⟩⟩
      · exact Or.inr ⟨p, rfl, hfet _ hp, hh⟩
    · exact Or.inl ⟨rfl, negc w h1⟩
    · exact Or.inr ⟨p, rfl, fndc w p h1⟩
  · exact hfound
  · exact hfatal

theorem invLog_stepWorker (ds : Dataset) (key : String) (n w : Nat) (s : CState)
    (hl : InvLog ds key s) (hrun : s.status = none) :
    InvLog ds key (stepWorker ds key n w s) := by
  have hf : ∀ v, s.status = some (Outcome.found v) → v ≠ -1 ∧ ∃ w, (w, v) ∈ s.sent := by
    intro v hv; rw [hrun] at hv; cases hv
  have hfa : ∀ err, s.status = some (Outcome.fatal err) → False := by
    intro v hv; rw [hrun] at hv; cases hv
  have keepNeg : ∀ (x : WorkerPC), x ≠ .sendNeg → ∀ w', Function.update s.pc w x w' = .sendNeg →
      s.pc w' = .sendNeg := by
    intro x hx w' hw'
    rw [update_eq_iff] at hw'
    rcases hw' with ⟨_, h1⟩ | ⟨_, h1⟩
    · exact absurd h1 hx
    · exact h1
  have keepFnd : ∀ (x : WorkerPC), (∀ q, x ≠ .sendFound q) → ∀ w' q,
      Function.update s.pc w x w' = .sendFound q → s.pc w' = .sendFound q := by
    intro x hx w' q hw'
    rw [update_eq_iff] at hw'
    rcases hw' with ⟨_, h1⟩ | ⟨_, h1⟩
    · exact absurd h1 (hx q)
    · exact h1
  unfold stepWorker
  cases hpc : s.pc w with
  | recv =>
    simp only []
    cases hv : s.values with
    | nil => simp only []; exact hl
    | cons p rest =>
      simp only []
      exact invLog_frame ds key s _ hl hf (fun err hv => (hfa err hv).elim) (fun h => h)
        (fun e he => he)
        (fun w' hw' => Or.inl (keepNeg _ (by intro h; cases h) w' hw'))
        (fun w' q hw' => Or.inl (keepFnd _ (by intro q h; cases h) w' q hw'))
        (fun w' v hv => Or.inl hv)
  | select p =>
    simp only []
    by_cases hcan : s.cancelled = true
    · rw [if_pos hcan]
      exact invLog_frame ds key s _ hl hf (fun err hv => (hfa err hv).elim) (fun h => h)
        (fun e he => he)
        (fun w' hw' => Or.inr (Or.inl hcan))
        (fun w' q hw' => Or.inl (keepFnd _ (by intro q h; cases h) w' q hw'))
        (fun w' v hv => Or.inl hv)
    · rw [if_neg hcan]
      exact invLog_frame ds key s _ hl hf (fun err hv => (hfa err hv).elim) (fun h => h)
        (fun e he => he)
        (fun w' hw' => Or.inl (keepNeg _ (by intro h; cases h) w' hw'))
        (fun w' q hw' => Or.inl (keepFnd _ (by intro q h; cases h) w' q hw'))
        (fun w' v hv => Or.inl hv)
  | fetch p =>
    simp only []
    cases hd : ds p with
    | error err =>
      simp only []
      refine invLog_frame ds key s _ hl ?_ ?_ (fun h => h)
        (fun e he => List.mem_append_left _ he) (fun w' hw' => Or.inl hw')
        (fun w' q hw' => Or.inl hw') (fun w' v hv => Or.inl hv)
      · intro v hv; cases hv
      · intro err' hv
        simp only [Option.some.injEq, Outcome.fatal.injEq] at hv
        subst hv
        exact ⟨w, p, hpc, hd, by simp⟩
    | ok d =>
      simp only []
      by_cases hlen : d.length = 0
      · simp only [hlen, if_true]
        refine invLog_frame ds key s _ hl hf (fun err hv => (hfa err hv).elim) (fun h => h)
          (fun e he => List.mem_append_left _ he) ?_
          (fun w' q hw' => Or.inl (keepFnd _ (by intro q h; cases h) w' q hw'))
          (fun w' v hv => Or.inl hv)
        intro w' hw'
        simp only [update_eq_iff] at hw'
        rcases hw' with ⟨rfl, _⟩ | ⟨_, h1⟩
        · refine Or.inr (Or.inr ⟨p, by simp, ?_⟩)
          unfold pageEmpty
          rw [hd, List.length_eq_zero.mp hlen]
        · exact Or.inl h1
      · simp only [hlen, if_false]
        by_cases hcon : containsUser key d = true
        · simp only [hcon, if_true]
          refine invLog_frame ds key s _ hl hf (fun err hv => (hfa err hv).elim) (fun h => h)
            (fun e he => List.mem_append_left _ he)
            (fun w' hw' => Or.inl (keepNeg _ (by intro h; cases h) w' hw')) ?_
            (fun w' v hv => Or.inl hv)
          intro w' q hw'
          simp only [update_eq_iff] at hw'
          rcases hw' with ⟨rfl, h1⟩ | ⟨_, h1⟩
          · cases h1
            exact Or.inr ⟨by simp, d, hd, hcon⟩
          · exact Or.inl h1
        · simp only [hcon, if_false]
          exact invLog_frame ds key s _ hl hf (fun err hv => (hfa err hv).elim) (fun h => h)
            (fun e he => List.mem_append_left _ he)
            (fun w' hw' => Or.inl (keepNeg _ (by intro h; cases h) w' hw'))
            (fun w' q hw' => Or.inl (keepFnd _ (by intro q h; cases h) w' q hw'))
            (fun w' v hv => Or.inl hv)
  | sendNeg =>
    simp only []
    by_cases hlt : s.results.length < n
    · simp only [hlt, if_true]
      refine invLog_frame ds key s _ hl (fun v hv => by rw [hrun] at hv; cases hv)
        (fun err hv => (hfa err hv).elim) (fun h => h)
        (fun e he => he)
        (fun w' hw' => Or.inl (keepNeg _ (by intro h; cases h) w' hw'))
        (fun w' q hw' => Or.inl (keepFnd _ (by intro q h; cases h) w' q hw')) ?_
      intro w' v hv
      simp only [List.mem_append, List.mem_singleton, Prod.mk.injEq] at hv
      rcases hv with h1 | ⟨rfl, rfl⟩
      · exact Or.inl h1
      · exact Or.inr (Or.inl ⟨rfl, hpc⟩)
    · simp only [hlt, if_false]
      exact hl
  | sendFound p =>
    simp only []
    by_cases hlt : s.results.length < n
    · simp only [hlt, if_true]
      refine invLog_frame ds key s _ hl (fun v hv => by rw [hrun] at hv; cases hv)
        (fun err hv => (hfa err hv).elim) (fun h => h)
        (fun e he => he)
        (fun w' hw' => Or.inl (keepNeg _ (by intro h; cases h) w' hw'))
        (fun w' q hw' => Or.inl (keepFnd _ (by intro q h; cases h) w' q hw')) ?_
      intro w' v hv
      simp only [List.mem_append, List.mem_singleton, Prod.mk.injEq] at hv
      rcases hv with h1 | ⟨rfl, rfl⟩
      · exact Or.inl h1
      · exact Or.inr (Or.inr ⟨p, rfl, hpc⟩)
    · simp only [hlt, if_false]
      exact hl
  | cancel =>
    simp only []
    exact invLog_frame ds key s _ hl hf (fun err hv => (hfa err hv).elim) (fun _ => rfl)
      (fun e he => he)
      (fun w' hw' => Or.inr (Or.inl rfl))
      (fun w' q hw' => Or.inl (keepFnd _ (by intro q h; cases h) w' q hw'))
      (fun w' v hv => Or.inl hv)
  | done =>
    simp only []
    exact hl

theorem invLog_stepCoordinator (ds : Dataset) (key : String) (n : Nat) (s : CState)
    (h : Inv ds key n s) (hl : InvLog ds key s) (hrun : s.status = none) :
    InvLog ds key (stepCoordinator n s) := by
  unfold stepCoordinator
  have hc := h.coord
  rw [hrun] at hc
  have hreads := hc.reads (by intro v hv; cases hv)
  by_cases hlt : s.i < n
  · simp only [hlt, if_true]
    cases hres : s.results with
    | nil => simp only []; exact hl
    | cons v rest =>
      simp only []
      by_cases hv : v = -1
      · subst hv
        simp only [ne_eq, not_true_eq_false, if_false]
        refine invLog_frame ds key s _ hl ?_ ?_ (fun h => h) (fun e he => he)
          (fun w' hw' => Or.inl hw') (fun w' q hw' => Or.inl hw') (fun w' v hv => Or.inl hv)
        · intro v hv; rw [hrun] at hv; cases hv
        · intro err hv; rw [hrun] at hv; cases hv
      · simp only [ne_eq, hv, not_false_eq_true, if_true]
        refine invLog_frame ds key s _ hl ?_ ?_ (fun h => h) (fun e he => he)
          (fun w' hw' => Or.inl hw') (fun w' q hw' => Or.inl hw') (fun w' v hv => Or.inl hv)
        · intro v' hv'
          simp only [Option.some.injEq, Outcome.found.injEq] at hv'
          subst hv'
          refine ⟨hv, ?_⟩
          have hmem : v ∈ s.sent.map Prod.snd := by
            rw [hreads, hres]
            simp
          rw [List.mem_map] at hmem
          obtain ⟨⟨w, v'⟩, he, rfl⟩ := hmem
          exact ⟨w, he⟩
        · intro err hv'; cases hv'
  · simp only [hlt, if_false]
    refine invLog_frame ds key s _ hl ?_ ?_ (fun h => h) (fun e he => he)
      (fun w' hw' => Or.inl hw') (fun w' q hw' => Or.inl hw') (fun w' v hv => Or.inl hv)
    · intro v hv; cases hv
    · intro err hv; cases hv

theorem invLog_step (ds : Dataset) (key : String) (n : Nat) (s : CState) (a : Actor)
    (h : Inv ds key n s) (hl : InvLog ds key s) : InvLog ds key (step ds key n s a) := by
  cases a with
  | generator =>
    unfold step
    by_cases hrun : s.status = none
    · simp only [hrun, if_true]
      unfold stepGenerator
      by_cases hlt : s.values.length < n
      · simp only [hlt, if_true]
        refine invLog_frame ds key s _ hl ?_ ?_ (fun h => h) (fun e he => he)
          (fun w' hw' => Or.inl hw') (fun w' q hw' => Or.inl hw') (fun w' v hv => Or.inl hv)
        · intro v hv; rw [hrun] at hv; cases hv
        · intro err hv; rw [hrun] at hv; cases hv
      · simp only [hlt, if_false]; exact hl
    · simp only [hrun, if_false]; exact hl
  | worker w =>
    unfold step
    by_cases hrun : s.status = none ∧ w < n
    · simp only [hrun, and_self, if_true]; exact invLog_stepWorker ds key n w s hl hrun.1
    · simp only [hrun, if_false]; exact hl
  | coordinator =>
    unfold step
    by_cases hrun : s.status = none
    · simp only [hrun, if_true]; exact invLog_stepCoordinator ds key n s h hl hrun
    · simp only [hrun, if_false]; exact hl

/-- Both invariants hold in every state of every run. -/
theorem inv_all_run (ds : Dataset) (key : String) (n : Nat) (l : List Actor) :
    ∀ s, Inv ds key n s → InvLog ds key s →
      Inv ds key n (run ds key n s l) ∧ InvLog ds key (run ds key n s l) := by
  induction l with
  | nil => intro s h hl; exact ⟨h, hl⟩
  | cons a l ih =>
    intro s h hl
    exact ih _ (inv_step ds key n s a h) (invLog_step ds key n s a h hl)

theorem invLog_concurrentSearch (ds : Dataset) (key : String) (n : Nat) (l : List Actor) :
    InvLog ds key (concurrentSearch ds key n l) :=
  (inv_all_run ds key n l _ (inv_init ds key n) (invLog_init ds key)).2

/-! ## Theorems: runs -/

theorem run_append (ds : Dataset) (key : String) (n : Nat) (s : CState) (l1 l2 : List Actor) :
    run ds key n s (l1 ++ l2) = run ds key n (run ds key n s l1) l2 := by
  unfold run
  rw [List.foldl_append]

theorem step_frozen (ds : Dataset) (key : String) (n : Nat) (s : CState) (a : Actor)
    (h : s.status ≠ none) : step ds key n s a = s := by
  cases a <;> simp [step, h]

theorem run_frozen (ds : Dataset) (key : String) (n : Nat) (l : List Actor) :
    ∀ s, s.status ≠ none → run ds key n s l = s := by
  induction l with
  | nil => intro s _; rfl
  | cons a l ih =>
    intro s h
    show run ds key n (step ds key n s a) l = s
    rw [step_frozen ds key n s a h]
    exact ih s h

theorem concurrentSearch_append (ds : Dataset) (key : String) (n : Nat) (l1 l2 : List Actor) :
    concurrentSearch ds key n (l1 ++ l2) = run ds key n (concurrentSearch ds key n l1) l2 :=
  run_append ds key n _ l1 l2

/-- Once the process has ended, the rest of the schedule changes nothing. -/
theorem concurrentSearch_final (ds : Dataset) (key : String) (n : Nat) (l1 l2 : List Actor)
    (h : (concurrentSearch ds key n l1).status ≠ none) :
    concurrentSearch ds key n (l1 ++ l2) = concurrentSearch ds key n l1 := by
  rw [concurrentSearch_append]
  exact run_frozen ds key n l2 _ h

/-! ## Theorems: what the workers send -/

theorem filter_fst_length (l : List (Nat × Int)) (w : Nat) (h : (l.map Prod.fst).Nodup) :
    (l.filter (fun e => e.1 = w)).length = if w ∈ l.map Prod.fst then 1 else 0 := by
  induction l with
  | nil => simp
  | cons e rest ih =>
    rw [List.map_cons, List.nodup_cons] at h
    have ih' := ih h.2
    by_cases hw : e.1 = w
    · have hnot : w ∉ rest.map Prod.fst := by rw [← hw]; exact h.1
      rw [if_neg hnot] at ih'
      simp [List.filter_cons, hw, ih']
    · have hw' : ¬ w = e.1 := fun hh => hw hh.symm
      simp only [List.filter_cons, hw, decide_False, Bool.false_eq_true, if_false, ih',
        List.map_cons, List.mem_cons, hw', false_or]

theorem sentBy_length (ds : Dataset) (key : String) (n : Nat) (s : CState)
    (h : Inv ds key n s) (w : Nat) [Decidable ((s.pc w).hasSent)] :
    (s.sentBy w).length = if (s.pc w).hasSent then 1 else 0 := by
  unfold CState.sentBy
  rw [List.length_map, filter_fst_length _ w h.sent.nodup]
  by_cases hs : (s.pc w).hasSent
  · rw [if_pos hs, if_pos ((h.sent.iff w).mpr hs)]
  · rw [if_neg hs, if_neg (fun hh => hs ((h.sent.iff w).mp hh))]

theorem mem_sentBy (s : CState) (w : Nat) (v : Int) : v ∈ s.sentBy w ↔ (w, v) ∈ s.sent := by
  unfold CState.sentBy
  simp only [List.mem_map, List.mem_filter, decide_eq_true_eq]
  constructor
  · rintro ⟨⟨w', v'⟩, ⟨he, hw⟩, hv⟩
    simp only at hw hv
    subst hw; subst hv
    exact he
  · intro he
    exact ⟨(w, v), ⟨he, rfl⟩, rfl⟩

/-- C6 (as stated) fails: a worker whose fetch returns an error stops, by `log.Fatal`, without
having sent anything. One worker on a dataset whose fetches fail: after it has pulled page 0,
passed the cancellation check and fetched, the process has been aborted and the send log is
empty. -/
theorem worker_fetch_error_sends_nothing :
    (concurrentSearch failingDataset "u" 1
        [.generator, .worker 0, .worker 0, .worker 0]).status = some (.fatal "boom") ∧
    (concurrentSearch failingDataset "u" 1
        [.generator, .worker 0, .worker 0, .worker 0]).fetched = [(0, 0)] ∧
    (concurrentSearch failingDataset "u" 1
        [.generator, .worker 0, .worker 0, .worker 0]).sentBy 0 = [] ∧
    ∀ more, (concurrentSearch failingDataset "u" 1
        ([.generator, .worker 0, .worker 0, .worker 0] ++ more)).sentBy 0 = [] := by
  have h1 : (concurrentSearch failingDataset "u" 1
        [.generator, .worker 0, .worker 0, .worker 0]).status = some (.fatal "boom") := by decide
  refine ⟨h1, by decide, by decide, ?_⟩
  intro more
  rw [concurrentSearch_final failingDataset "u" 1 _ more (by rw [h1]; simp)]
  decide

/-- C6 (amended): in every run, for every dataset and every interleaving, a worker sends at most
one value on the result channel; a worker that has returned has sent exactly one: -1 if it saw
the cancellation raised or fetched an empty page, and otherwise the index of a page it fetched and
that holds the key; and when a fetch error has aborted the process, the worker that made the
failing fetch stands at that fetch and has sent nothing. -/
theorem worker_emits_at_most_once (ds : Dataset) (key : String) (n : Nat)
    (schedule : List Actor) (w : Nat) :
    ((concurrentSearch ds key n schedule).sentBy w).length ≤ 1 ∧
    ((concurrentSearch ds key n schedule).pc w = .done →
      ∃ v, (concurrentSearch ds key n schedule).sentBy w = [v] ∧
        ((v = -1 ∧ ((concurrentSearch ds key n schedule).cancelled = true ∨
            ∃ p, (w, p) ∈ (concurrentSearch ds key n schedule).fetched ∧ pageEmpty ds p)) ∨
         ∃ p : Nat, v = (p : Int) ∧ (w, p) ∈ (concurrentSearch ds key n schedule).fetched ∧
            pageHasUser ds key p)) ∧
    (∀ err, (concurrentSearch ds key n schedule).status = some (.fatal err) →
      ∃ w' p, (concurrentSearch ds key n schedule).pc w' = .fetch p ∧ ds p = .error err ∧
        (concurrentSearch ds key n schedule).fetched.getLast? = some (w', p) ∧
        (concurrentSearch ds key n schedule).sentBy w' = []) := by
  have hinv := inv_concurrentSearch ds key n schedule
  have hlog := invLog_concurrentSearch ds key n schedule
  generalize concurrentSearch ds key n schedule = s at hinv hlog
  classical
  refine ⟨?_, ?_, ?_⟩
  · rw [sentBy_length ds key n s hinv w]
    split <;> omega
  · intro hdone
    have hlen := sentBy_length ds key n s hinv w
    rw [hdone] at hlen
    simp only [WorkerPC.hasSent, if_true] at hlen
    obtain ⟨v, hv⟩ := List.length_eq_one.mp hlen
    refine ⟨v, hv, ?_⟩
    have hmem : (w, v) ∈ s.sent := by
      rw [← mem_sentBy, hv]
      simp
    exact hlog.sent_cause w v hmem
  · intro err herr
    obtain ⟨w', p, hpc, hd, hlast⟩ := hlog.fatal_cause err herr
    refine ⟨w', p, hpc, hd, hlast, ?_⟩
    have hlen := sentBy_length ds key n s hinv w'
    rw [hpc] at hlen
    simp only [WorkerPC.hasSent, if_false] at hlen
    exact List.length_eq_zero.mp hlen

/-! ## Theorems: Found outcomes -/

theorem foundsSent_hit (ds : Dataset) (key : String) (n : Nat) (s : CState)
    (h : Inv ds key n s) (v : Int) (hv : v ∈ s.foundsSent) :
    ∃ p : Nat, v = (p : Int) ∧ pageHasUser ds key p := by
  unfold CState.foundsSent at hv
  rw [List.mem_filter, List.mem_map] at hv
  obtain ⟨⟨e, he, hev⟩, hne⟩ := hv
  rcases h.sent.hit e he with h1 | ⟨p, hp, hhit, _, _⟩
  · rw [hev] at h1
    simp [h1] at hne
  · rw [hev] at hp
    exact ⟨p, hp, hhit⟩

/-- C3 (as stated) fails: with the key on pages 0 and 1 and two workers, both workers pull a
page, pass the cancellation check, fetch and find the key before either raises the cancellation,
and both send a Found outcome: the values 1 and 0 are sent on the result channel. -/
theorem two_found_outcomes_sent :
    (concurrentSearch duplicateDataset "u" 2
      [.generator, .generator, .worker 0, .worker 1, .worker 0, .worker 1, .worker 0, .worker 1,
       .worker 1, .worker 0]).foundsSent = [1, 0] ∧
    (concurrentSearch duplicateDataset "u" 2
      [.generator, .generator, .worker 0, .worker 1, .worker 0, .worker 1, .worker 0, .worker 1,
       .worker 1, .worker 0]).sent = [(1, 1), (0, 0)] := by
  constructor <;> decide

/-- C3 (amended): when the key is held by at most one page, at most one Found outcome (a value
other than -1) is ever sent on the result channel, for every worker count and every
interleaving. For every dataset, the key duplicated or not, the Found outcomes sent are indices
of pages that hold the key, no page index is sent twice, and the coordinator reports at most one
page: once it has reported, the rest of the run changes nothing. -/
theorem at_most_one_found (ds : Dataset) (key : String) (n : Nat) (schedule : List Actor) :
    ((∀ p q, pageHasUser ds key p → pageHasUser ds key q → p = q) →
      (concurrentSearch ds key n schedule).foundsSent.length ≤ 1) ∧
    (concurrentSearch ds key n schedule).foundsSent.Nodup ∧
    (∀ v, v ∈ (concurrentSearch ds key n schedule).foundsSent →
      ∃ p : Nat, v = (p : Int) ∧ pageHasUser ds key p) ∧
    (∀ v more, (concurrentSearch ds key n schedule).status = some (.found v) →
      concurrentSearch ds key n (schedule ++ more) = concurrentSearch ds key n schedule) := by
  have hinv := inv_concurrentSearch ds key n schedule
  refine ⟨?_, hinv.sent.founds_nodup, foundsSent_hit ds key n _ hinv, ?_⟩
  · intro huniq
    have hnd : (concurrentSearch ds key n schedule).foundsSent.Nodup := hinv.sent.founds_nodup
    have hall := foundsSent_hit ds key n _ hinv
    generalize (concurrentSearch ds key n schedule).foundsSent = l at hnd hall
    match l, hnd, hall with
    | [], _, _ => simp
    | [_], _, _ => simp
    | a :: b :: rest, hnd, hall =>
      exfalso
      obtain ⟨p, hp, hhp⟩ := hall a (by simp)
      obtain ⟨q, hq, hhq⟩ := hall b (by simp)
      have hpq := huniq p q hhp hhq
      have hab : a = b := by rw [hp, hq, hpq]
      rw [List.nodup_cons] at hnd
      exact hnd.1 (by simp [hab])
  · intro v more hv
    exact concurrentSearch_final ds key n schedule more (by rw [hv]; simp)

theorem threePageDataset_hit (p : Nat) (h : pageHasUser threePageDataset "u" p) : p = 1 := by
  obtain ⟨d, hd, hc⟩ := h
  unfold threePageDataset at hd
  by_cases h0 : p = 0
  · subst h0
    simp only [if_true] at hd
    cases hd
    exact absurd hc (by decide)
  · by_cases h1 : p = 1
    · exact h1
    · by_cases h2 : p = 2
      · subst h2
        simp only [if_neg h0, if_neg h1, if_true] at hd
        cases hd
        exact absurd hc (by decide)
      · simp only [if_neg h0, if_neg h1, if_neg h2] at hd
        cases hd
        exact absurd hc (by decide)

/-- Witness of `at_most_one_found`: with three pages and the key on page 1 only, two workers
that both fetch before the first send: at most one Found outcome is sent. With the key on pages 0
and 1 and both workers sending a Found outcome, the two values sent are distinct, each is the index
of a page that holds the key, and after the coordinator has reported page 1 nothing changes. -/
theorem at_most_one_found_witness :
    (concurrentSearch threePageDataset "u" 2
      [.generator, .generator, .worker 0, .worker 1, .worker 0, .worker 1, .worker 0, .worker 1,
       .worker 1]).foundsSent.length ≤ 1 ∧
    (concurrentSearch duplicateDataset "u" 2
      [.generator, .generator, .worker 0, .worker 1, .worker 0, .worker 1, .worker 0, .worker 1,
       .worker 1, .worker 0, .coordinator]).foundsSent.Nodup ∧
    (∀ v, v ∈ (concurrentSearch duplicateDataset "u" 2
      [.generator, .generator, .worker 0, .worker 1, .worker 0, .worker 1, .worker 0, .worker 1,
       .worker 1, .worker 0, .coordinator]).foundsSent →
      ∃ p : Nat, v = (p : Int) ∧ pageHasUser duplicateDataset "u" p) ∧
    (∀ more, concurrentSearch duplicateDataset "u" 2
      ([.generator, .generator, .worker 0, .worker 1, .worker 0, .worker 1, .worker 0, .worker 1,
        .worker 1, .worker 0, .coordinator] ++ more) =
      concurrentSearch duplicateDataset "u" 2
      [.generator, .generator, .worker 0, .worker 1, .worker 0, .worker 1, .worker 0, .worker 1,
       .worker 1, .worker 0, .coordinator]) :=
  ⟨(at_most_one_found threePageDataset "u" 2
      [.generator, .generator, .worker 0, .worker 1, .worker 0, .worker 1, .worker 0, .worker 1,
       .worker 1]).1
      (fun p q hp hq => by rw [threePageDataset_hit p hp, threePageDataset_hit q hq]),
   (at_most_one_found duplicateDataset "u" 2
      [.generator, .generator, .worker 0, .worker 1, .worker 0, .worker 1, .worker 0, .worker 1,
       .worker 1, .worker 0, .coordinator]).2.1,
   (at_most_one_found duplicateDataset "u" 2
      [.generator, .generator, .worker 0, .worker 1, .worker 0, .worker 1, .worker 0, .worker 1,
       .worker 1, .worker 0, .coordinator]).2.2.1,
   fun more => (at_most_one_found duplicateDataset "u" 2
      [.generator, .generator, .worker 0, .worker 1, .worker 0, .worker 1, .worker 0, .worker 1,
       .worker 1, .worker 0, .coordinator]).2.2.2 1 more (by decide)⟩

/-! ## Theorems: fetch errors -/

/-- C7: a fetch error is fatal to the whole search in both modes. If the fetch of page `e` fails
with `err`: (sequential) when every page below `e` lets the search go on, `sequentialSearch` ends
with `log.Fatal(err)` after requesting exactly pages 0..e, and that is its only result; (concurrent)
when a worker of a running search performs its fetch of page `e`, the process is aborted with `err`,
whatever is scheduled afterwards changes nothing, so no page is fetched after `e` and neither Found
nor NotFound is reported; and an abort of `concurrentSearch` always carries the error of the
last fetch made. -/
theorem fetch_error_is_fatal (ds : Dataset) (key : String) (e : Nat) (err : String)
    (herr : ds e = .error err) :
    ((∀ j, j < e → pagePasses ds key j) →
      sequentialSearch ds key (e + 1) = some (.fatal err, List.range (e + 1)) ∧
      ∀ fuel r, sequentialSearch ds key fuel = some r → r = (.fatal err, List.range (e + 1))) ∧
    (∀ (n : Nat) (schedule : List Actor) (w : Nat) (more : List Actor),
      (concurrentSearch ds key n schedule).status = none → w < n →
      (concurrentSearch ds key n schedule).pc w = .fetch e →
        (concurrentSearch ds key n (schedule ++ .worker w :: more)).status = some (.fatal err) ∧
        (concurrentSearch ds key n (schedule ++ .worker w :: more)).fetched =
          (concurrentSearch ds key n schedule).fetched ++ [(w, e)] ∧
        (concurrentSearch ds key n (schedule ++ .worker w :: more)).sent =
          (concurrentSearch ds key n schedule).sent) ∧
    (∀ (n : Nat) (schedule : List Actor) (err' : String),
      (concurrentSearch ds key n schedule).status = some (.fatal err') →
        ∃ w p, ds p = .error err' ∧
          (concurrentSearch ds key n schedule).fetched.getLast? = some (w, p)) := by
  refine ⟨?_, ?_, ?_⟩
  · intro hpass
    have h1 : sequentialSearch ds key (e + 1) = some (.fatal err, List.range (e + 1)) := by
      rw [sequentialSearch_reach ds key e hpass, sequentialSearchLoop_error ds key 0 e _ err herr,
        List.range_succ]
    exact ⟨h1, fun fuel r hr => sequentialSearch_deterministic ds key fuel (e + 1) r _ hr h1⟩
  · intro n schedule w more hrun hw hpc
    have hstep : step ds key n (concurrentSearch ds key n schedule) (.worker w) =
        { concurrentSearch ds key n schedule with
          status := some (.fatal err),
          fetched := (concurrentSearch ds key n schedule).fetched ++ [(w, e)] } := by
      simp only [step, hrun, hw, and_self, if_true, stepWorker, hpc, herr]
    have hcat : schedule ++ Actor.worker w :: more = (schedule ++ [Actor.worker w]) ++ more := by
      simp
    have hone : concurrentSearch ds key n (schedule ++ [Actor.worker w]) =
        step ds key n (concurrentSearch ds key n schedule) (.worker w) := by
      rw [concurrentSearch_append]
      rfl
    have hfin : concurrentSearch ds key n (schedule ++ Actor.worker w :: more) =
        step ds key n (concurrentSearch ds key n schedule) (.worker w) := by
      rw [hcat, concurrentSearch_final ds key n _ more, hone]
      rw [hone, hstep]
      simp
    rw [hfin, hstep]
    exact ⟨rfl, rfl, rfl⟩
  · intro n schedule err' hst
    obtain ⟨w, p, _, hd, hlast⟩ := (invLog_concurrentSearch ds key n schedule).fatal_cause err' hst
    exact ⟨w, p, hd, hlast⟩

theorem failAtFourDataset_passes (j : Nat) (hj : j < 4) : pagePasses failAtFourDataset "u" j := by
  refine ⟨[mkRecord "a"], ?_, by simp, by decide⟩
  unfold failAtFourDataset
  rw [if_pos hj]

/-- Witness of `fetch_error_is_fatal`: the fetch of page 4 fails; the sequential search aborts
after requesting pages 0..4. -/
theorem fetch_error_is_fatal_witness :
    failAtFourDataset 4 = .error "boom" ∧
    sequentialSearch failAtFourDataset "u" 5 = some (.fatal "boom", List.range 5) :=
  ⟨rfl, ((fetch_error_is_fatal failAtFourDataset "u" 4 "boom" rfl).1
    failAtFourDataset_passes).1⟩

/-! ## Theorems: progress -/

theorem concurrentSearchAt_zero (ds : Dataset) (key : String) (n : Nat) (σ : Nat → Actor) :
    concurrentSearchAt ds key n σ 0 = CState.init := rfl

theorem concurrentSearchAt_succ (ds : Dataset) (key : String) (n : Nat) (σ : Nat → Actor)
    (t : Nat) :
    concurrentSearchAt ds key n σ (t + 1) =
      step ds key n (concurrentSearchAt ds key n σ t) (σ t) := by
  unfold concurrentSearchAt
  rw [List.range_succ, List.map_append, concurrentSearch_append]
  rfl

theorem weightSum_update (ω : WorkerPC → Nat) (pc : Nat → WorkerPC) (w : Nat) (x : WorkerPC) :
    ∀ n, w < n →
      weightSum ω (Function.update pc w x) n + ω (pc w) = weightSum ω pc n + ω x := by
  have hge : ∀ n, n ≤ w → weightSum ω (Function.update pc w x) n = weightSum ω pc n := by
    intro n
    induction n with
    | zero => intro _; rfl
    | succ n ih =>
      intro h
      have hne : n ≠ w := by omega
      simp only [weightSum, ih (by omega), Function.update_noteq hne]
  intro n
  induction n with
  | zero => intro h; omega
  | succ n ih =>
    intro h
    by_cases hw : w = n
    · subst hw
      simp only [weightSum, hge w (le_refl _), Function.update_same]
      omega
    · have hne : n ≠ w := fun hh => hw hh.symm
      have := ih (by omega)
      simp only [weightSum, Function.update_noteq hne]
      omega

/-- Every step either leaves the state as it is or lowers the progress measure, provided only
pages below `m` send a worker back to the top of its loop. -/
theorem progressMeasure_step (ds : Dataset) (key : String) (m n : Nat) (s : CState) (a : Actor)
    (hV : InvValues n s.rankPage s.values)
    (hback : ∀ w p d, s.pc w = .fetch p → ds p = .ok d → d.length ≠ 0 →
      containsUser key d ≠ true → p < m) :
    step ds key n s a = s ∨ progressMeasure m n (step ds key n s a) < progressMeasure m n s := by
  cases a with
  | generator =>
    unfold step
    by_cases hrun : s.status = none
    · simp only [hrun, if_true]
      unfold stepGenerator
      by_cases hlt : s.values.length < n
      · right
        have hle := hV.le
        simp only [hlt, if_true, progressMeasure, hrun, List.length_append, List.length_singleton]
        have e : s.rankPage + 1 - (s.values.length + 1) = s.rankPage - s.values.length := by omega
        rw [e]
        omega
      · left; simp only [hlt, if_false]
    · left; simp only [hrun, if_false]
  | coordinator =>
    unfold step
    by_cases hrun : s.status = none
    · simp only [hrun, if_true]
      unfold stepCoordinator
      by_cases hlt : s.i < n
      · simp only [hlt, if_true]
        cases hres : s.results with
        | nil => left; rfl
        | cons v rest =>
          right
          by_cases hv : v = -1
          · subst hv
            simp only [ne_eq, not_true_eq_false, if_false, progressMeasure, hrun, if_true]
            omega
          · simp only [ne_eq, hv, not_false_eq_true, if_true, progressMeasure, hrun]
            simp
      · right
        simp only [hlt, if_false, progressMeasure, hrun]
        simp
    · left; simp only [hrun, if_false]
  | worker w =>
    unfold step
    by_cases hrun : s.status = none ∧ w < n
    · obtain ⟨hst, hw⟩ := hrun
      simp only [hst, hw, and_self, if_true]
      unfold stepWorker
      cases hpc : s.pc w with
      | recv =>
        simp only []
        cases hv : s.values with
        | nil => left; simp only []
        | cons p rest =>
          right
          simp only []
          have hV' := hV
          rw [hv] at hV'
          obtain ⟨_, hp, hle⟩ := invValues_pull n _ p rest hV'
          have hcap := hV'.cap
          simp only [List.length_cons] at hcap
          have hsum := weightSum_update (workerWeight m) s.pc w (.select p) n hw
          rw [hpc] at hsum
          simp only [workerWeight] at hsum
          simp only [progressMeasure, hst, if_true, hv, List.length_cons]
          by_cases hpm : p < m
          · rw [if_pos hpm] at hsum
            omega
          · rw [if_neg hpm] at hsum
            omega
      | select p =>
        right
        simp only []
        by_cases hcan : s.cancelled = true
        · rw [if_pos hcan]
          have hsum := weightSum_update (workerWeight m) s.pc w .sendNeg n hw
          rw [hpc] at hsum
          simp only [workerWeight] at hsum
          simp only [progressMeasure, hst, if_true]
          split_ifs at hsum <;> omega
        · rw [if_neg hcan]
          have hsum := weightSum_update (workerWeight m) s.pc w (.fetch p) n hw
          rw [hpc] at hsum
          simp only [workerWeight] at hsum
          simp only [progressMeasure, hst, if_true]
          split_ifs at hsum <;> omega
      | fetch p =>
        right
        simp only []
        cases hd : ds p with
        | error err =>
          simp only [progressMeasure, hst]
          simp
        | ok d =>
          simp only []
          by_cases hlen : d.length = 0
          · simp only [hlen, if_true]
            have hsum := weightSum_update (workerWeight m) s.pc w .sendNeg n hw
            rw [hpc] at hsum
            simp only [workerWeight] at hsum
            simp only [progressMeasure, hst, if_true]
            split_ifs at hsum <;> omega
          · simp only [hlen, if_false]
            by_cases hcon : containsUser key d = true
            · simp only [hcon, if_true]
              have hsum := weightSum_update (workerWeight m) s.pc w (.sendFound p) n hw
              rw [hpc] at hsum
              simp only [workerWeight] at hsum
              simp only [progressMeasure, hst, if_true]
              split_ifs at hsum <;> omega
            · rw [if_neg hcon]
              have hpm := hback w p d hpc hd hlen hcon
              have hsum := weightSum_update (workerWeight m) s.pc w .recv n hw
              rw [hpc] at hsum
              simp only [workerWeight, if_pos hpm] at hsum
              simp only [progressMeasure, hst, if_true]
              omega
      | sendNeg =>
        simp only []
        by_cases hlt : s.results.length < n
        · right
          simp only [hlt, if_true]
          have hsum := weightSum_update (workerWeight m) s.pc w .done n hw
          rw [hpc] at hsum
          simp only [workerWeight] at hsum
          simp only [progressMeasure, hst, if_true]
          omega
        · left; simp only [hlt, if_false]
      | sendFound p =>
        simp only []
        by_cases hlt : s.results.length < n
        · right
          simp only [hlt, if_true]
          have hsum := weightSum_update (workerWeight m) s.pc w .cancel n hw
          rw [hpc] at hsum
          simp only [workerWeight] at hsum
          simp only [progressMeasure, hst, if_true]
          omega
        · left; simp only [hlt, if_false]
      | cancel =>
        right
        simp only []
        have hsum := weightSum_update (workerWeight m) s.pc w .done n hw
        rw [hpc] at hsum
        simp only [workerWeight] at hsum
        simp only [progressMeasure, hst, if_true]
        omega
      | done => left; rfl
    · left; simp only [hrun, if_false]

theorem sent_ids_lt (ds : Dataset) (key : String) (n : Nat) (s : CState)
    (h : Inv ds key n s) (x : Nat) (hx : x ∈ s.sent.map Prod.fst) : x < n := by
  by_contra hge
  have hrecv := h.pcs.out x (by omega)
  have := (h.sent.iff x).mp hx
  rw [hrecv] at this
  exact this

/-- While a worker has not sent, fewer than `n` values have been sent. -/
theorem sent_length_lt (ds : Dataset) (key : String) (n : Nat) (s : CState)
    (h : Inv ds key n s) (w : Nat) (hw : w < n) (hns : ¬ (s.pc w).hasSent) :
    s.sent.length < n := by
  have hsub : (s.sent.map Prod.fst).toFinset ⊆ (Finset.range n).erase w := by
    intro x hx
    rw [List.mem_toFinset] at hx
    rw [Finset.mem_erase, Finset.mem_range]
    refine ⟨?_, sent_ids_lt ds key n s h x hx⟩
    rintro rfl
    exact hns ((h.sent.iff x).mp hx)
  have hcard := Finset.card_le_card hsub
  rw [List.toFinset_card_of_nodup h.sent.nodup, List.length_map,
    Finset.card_erase_of_mem (Finset.mem_range.mpr hw), Finset.card_range] at hcard
  omega

theorem sent_length_le (ds : Dataset) (key : String) (n : Nat) (s : CState)
    (h : Inv ds key n s) : s.sent.length ≤ n := by
  have hsub : (s.sent.map Prod.fst).toFinset ⊆ Finset.range n := by
    intro x hx
    rw [List.mem_toFinset] at hx
    rw [Finset.mem_range]
    exact sent_ids_lt ds key n s h x hx
  have hcard := Finset.card_le_card hsub
  rw [List.toFinset_card_of_nodup h.sent.nodup, List.length_map, Finset.card_range] at hcard
  exact hcard

/-- When every worker has sent, exactly `n` values have been sent. -/
theorem sent_length_eq (ds : Dataset) (key : String) (n : Nat) (s : CState)
    (h : Inv ds key n s) (hall : ∀ w, w < n → (s.pc w).hasSent) : s.sent.length = n := by
  have hsub : Finset.range n ⊆ (s.sent.map Prod.fst).toFinset := by
    intro x hx
    rw [Finset.mem_range] at hx
    rw [List.mem_toFinset]
    exact (h.sent.iff x).mpr (hall x hx)
  have hcard := Finset.card_le_card hsub
  rw [List.toFinset_card_of_nodup h.sent.nodup, List.length_map, Finset.card_range] at hcard
  have := sent_length_le ds key n s h
  omega

theorem sent_length_split (ds : Dataset) (key : String) (n : Nat) (s : CState)
    (h : Inv ds key n s) (hrun : s.status = none) :
    s.sent.length = s.i + s.results.length := by
  have := h.coord.reads (by intro v hv; rw [hrun] at hv; cases hv)
  have hl := congrArg List.length this
  simpa using hl

/-- A send on the result channel never blocks. -/
theorem results_room (ds : Dataset) (key : String) (n : Nat) (s : CState)
    (h : Inv ds key n s) (hrun : s.status = none) (w : Nat) (hw : w < n)
    (hns : ¬ (s.pc w).hasSent) : s.results.length < n := by
  have h1 := sent_length_lt ds key n s h w hw hns
  have h2 := sent_length_split ds key n s h hrun
  omega

/-- While the process runs some goroutine can move: no deadlock. -/
theorem exists_enabled (ds : Dataset) (key : String) (n : Nat) (s : CState) (hn : 1 ≤ n)
    (h : Inv ds key n s) (hrun : s.status = none) :
    ∃ a : Actor, a.valid n ∧ step ds key n s a ≠ s := by
  by_cases h1 : ∃ w, w < n ∧ s.pc w ≠ .recv ∧ s.pc w ≠ .done
  · obtain ⟨w, hw, hr, hd⟩ := h1
    refine ⟨.worker w, hw, ?_⟩
    intro heq
    have hpcw := congrArg (fun t => t.pc w) heq
    have hst := congrArg CState.status heq
    cases hpc : s.pc w with
    | recv => exact hr hpc
    | done => exact hd hpc
    | select p =>
      simp only [step, hrun, hw, and_self, if_true, stepWorker, hpc] at hpcw
      by_cases hcan : s.cancelled = true
      · rw [if_pos hcan] at hpcw
        simp [hpc] at hpcw
      · rw [if_neg hcan] at hpcw
        simp [hpc] at hpcw
    | fetch p =>
      simp only [step, hrun, hw, and_self, if_true, stepWorker, hpc] at hpcw hst
      cases hd' : ds p with
      | error err =>
        rw [hd'] at hst
        simp [hrun] at hst
      | ok d =>
        rw [hd'] at hpcw
        simp only [] at hpcw
        split_ifs at hpcw <;> simp [hpc] at hpcw
    | sendNeg =>
      have hroom := results_room ds key n s h hrun w hw (by rw [hpc]; simp [WorkerPC.hasSent])
      simp only [step, hrun, hw, and_self, if_true, stepWorker, hpc, hroom] at hpcw
      simp [hpc] at hpcw
    | sendFound p =>
      have hroom := results_room ds key n s h hrun w hw (by rw [hpc]; simp [WorkerPC.hasSent])
      simp only [step, hrun, hw, and_self, if_true, stepWorker, hpc, hroom] at hpcw
      simp [hpc] at hpcw
    | cancel =>
      simp only [step, hrun, hw, and_self, if_true, stepWorker, hpc] at hpcw
      simp [hpc] at hpcw
  · have hall : ∀ w, w < n → s.pc w = .recv ∨ s.pc w = .done := by
      intro w hw
      by_contra hc
      rw [not_or] at hc
      exact h1 ⟨w, hw, hc.1, hc.2⟩
    by_cases h2 : ∃ w, w < n ∧ s.pc w = .recv
    · obtain ⟨w, hw, hpc⟩ := h2
      cases hv : s.values with
      | nil =>
        refine ⟨.generator, trivial, ?_⟩
        intro heq
        have hlen := congrArg (fun t => t.values.length) heq
        have hpos : s.values.length < n := by rw [hv]; simpa using hn
        simp only [step, hrun, if_true, stepGenerator, hpos] at hlen
        simp at hlen
      | cons p rest =>
        refine ⟨.worker w, hw, ?_⟩
        intro heq
        have hpcw := congrArg (fun t => t.pc w) heq
        simp only [step, hrun, hw, and_self, if_true, stepWorker, hpc, hv] at hpcw
        simp [hpc] at hpcw
    · have hdone : ∀ w, w < n → s.pc w = .done := by
        intro w hw
        rcases hall w hw with hc | hc
        · exact absurd ⟨w, hw, hc⟩ h2
        · exact hc
      have hlen := sent_length_eq ds key n s h
        (fun w hw => by rw [hdone w hw]; simp [WorkerPC.hasSent])
      have hsplit := sent_length_split ds key n s h hrun
      refine ⟨.coordinator, trivial, ?_⟩
      intro heq
      by_cases hlt : s.i < n
      · have hres := congrArg (fun t => t.results.length) heq
        cases hr : s.results with
        | nil => rw [hr] at hsplit; simp at hsplit; omega
        | cons v rest =>
          simp only [step, hrun, if_true, stepCoordinator, hlt, hr] at hres
          split_ifs at hres <;> simp at hres
      · have hst := congrArg CState.status heq
        simp only [step, hrun, if_true, stepCoordinator, hlt, if_false] at hst
        simp at hst

/-- Progress under a fair schedule, when every state-changing step lowers a measure: from a state
with `P`, where some goroutine can move, a state with `G` is reached. -/
theorem fair_progress (ds : Dataset) (key : String) (n : Nat) (σ : Nat → Actor)
    (hfair : Fair n σ) (P G : CState → Prop) (μ : CState → Nat)
    (H1 : ∀ s, P s → ∃ a : Actor, a.valid n ∧ step ds key n s a ≠ s)
    (H2 : ∀ s b, P s → step ds key n s b = s ∨ G (step ds key n s b) ∨
      (P (step ds key n s b) ∧ μ (step ds key n s b) < μ s))
    (S : Nat → CState) (hS : ∀ t, S (t + 1) = step ds key n (S t) (σ t)) :
    ∀ m t, μ (S t) = m → P (S t) → ∃ t', t ≤ t' ∧ G (S t') := by
  intro m
  induction m using Nat.strong_induction_on with
  | _ m ih =>
    intro t hm hP
    obtain ⟨a, hval, hne⟩ := H1 _ hP
    obtain ⟨t', htt', hσ⟩ := hfair a hval t
    have claim : ∀ d, (∃ t'', t ≤ t'' ∧ G (S t'')) ∨
        (∃ t'', t ≤ t'' ∧ P (S t'') ∧ μ (S t'') < m) ∨ S (t + d) = S t := by
      intro d
      induction d with
      | zero => exact Or.inr (Or.inr rfl)
      | succ d ihd =>
        rcases ihd with hg | hp | heq
        · exact Or.inl hg
        · exact Or.inr (Or.inl hp)
        · have hstep : S (t + (d + 1)) = step ds key n (S t) (σ (t + d)) := by
            rw [← Nat.add_assoc, hS, heq]
          rcases H2 (S t) (σ (t + d)) hP with h1 | h1 | ⟨h1, h2⟩
          · exact Or.inr (Or.inr (by rw [hstep, h1]))
          · exact Or.inl ⟨t + (d + 1), by omega, by rw [hstep]; exact h1⟩
          · exact Or.inr (Or.inl ⟨t + (d + 1), by omega, by rw [hstep]; exact h1,
              by rw [hstep, ← hm]; exact h2⟩)
    rcases claim (t' - t) with hg | ⟨t'', ht'', hP'', hlt⟩ | heq
    · exact hg
    · obtain ⟨t3, h3, hG⟩ := ih _ hlt t'' rfl hP''
      exact ⟨t3, by omega, hG⟩
    · have e : t + (t' - t) = t' := by omega
      rw [e] at heq
      have hstep : S (t' + 1) = step ds key n (S t) a := by rw [hS, heq, hσ]
      rcases H2 (S t) a hP with h1 | h1 | ⟨h1, h2⟩
      · exact absurd h1 hne
      · exact ⟨t' + 1, by omega, by rw [hstep]; exact h1⟩
      · have hlt : μ (S (t' + 1)) < m := by rw [hstep, ← hm]; exact h2
        obtain ⟨t3, h3, hG⟩ := ih _ hlt (t' + 1) rfl (by rw [hstep]; exact h1)
        exact ⟨t3, by omega, hG⟩

/-- Progress under a fair schedule by one goroutine `a` that can always move: when no step
raises the measure or leaves `P` other than into `G`, and every step of `a` lowers the measure
or reaches `G`, then `G` is reached. -/
theorem fair_progress_by (ds : Dataset) (key : String) (n : Nat) (σ : Nat → Actor)
    (hfair : Fair n σ) (a : Actor) (hval : a.valid n) (P G : CState → Prop) (μ : CState → Nat)
    (H1 : ∀ s, P s → G (step ds key n s a) ∨
      (P (step ds key n s a) ∧ μ (step ds key n s a) < μ s))
    (H2 : ∀ s b, P s → G (step ds key n s b) ∨
      (P (step ds key n s b) ∧ μ (step ds key n s b) ≤ μ s))
    (S : Nat → CState) (hS : ∀ t, S (t + 1) = step ds key n (S t) (σ t)) :
    ∀ m t, μ (S t) ≤ m → P (S t) → ∃ t', t ≤ t' ∧ G (S t') := by
  intro m
  induction m using Nat.strong_induction_on with
  | _ m ih =>
    intro t hm hP
    obtain ⟨t', htt', hσ⟩ := hfair a hval t
    have claim : ∀ d, (∃ t'', t ≤ t'' ∧ G (S t'')) ∨ (P (S (t + d)) ∧ μ (S (t + d)) ≤ m) := by
      intro d
      induction d with
      | zero => exact Or.inr ⟨hP, hm⟩
      | succ d ihd =>
        rcases ihd with hg | ⟨hp, hle⟩
        · exact Or.inl hg
        · have hstep : S (t + (d + 1)) = step ds key n (S (t + d)) (σ (t + d)) := by
            rw [← Nat.add_assoc, hS]
          rcases H2 (S (t + d)) (σ (t + d)) hp with h1 | ⟨h1, h2⟩
          · exact Or.inl ⟨t + (d + 1), by omega, by rw [hstep]; exact h1⟩
          · exact Or.inr ⟨by rw [hstep]; exact h1, by rw [hstep]; omega⟩
    rcases claim (t' - t) with hg | ⟨hp, hle⟩
    · exact hg
    · have e : t + (t' - t) = t' := by omega
      rw [e] at hp hle
      have hstep : S (t' + 1) = step ds key n (S t') a := by rw [hS, hσ]
      rcases H1 (S t') hp with h1 | ⟨h1, h2⟩
      · exact ⟨t' + 1, by omega, by rw [hstep]; exact h1⟩
      · have hlt : μ (S (t' + 1)) < m := by rw [hstep]; omega
        obtain ⟨t3, h3, hG⟩ := ih _ hlt (t' + 1) (le_refl _) (by rw [hstep]; exact h1)
        exact ⟨t3, by omega, hG⟩

/-! ## Theorems: termination without a match -/

theorem concurrentSearchAt_frozen (ds : Dataset) (key : String) (n : Nat) (σ : Nat → Actor)
    (t : Nat) (h : (concurrentSearchAt ds key n σ t).status ≠ none) :
    ∀ t', t ≤ t' → concurrentSearchAt ds key n σ t' = concurrentSearchAt ds key n σ t := by
  intro t' htt'
  induction t' with
  | zero =>
    have : t = 0 := by omega
    rw [this]
  | succ d ih =>
    by_cases hd : t = d + 1
    · rw [hd]
    · have hprev := ih (by omega)
      rw [concurrentSearchAt_succ, hprev, step_frozen ds key n _ _ h]

theorem invs_concurrentSearchAt (ds : Dataset) (key : String) (n : Nat) (σ : Nat → Actor)
    (t : Nat) :
    Inv ds key n (concurrentSearchAt ds key n σ t) ∧
      InvLog ds key (concurrentSearchAt ds key n σ t) :=
  ⟨inv_concurrentSearch ds key n _, invLog_concurrentSearch ds key n _⟩

theorem weightSum_init (m n : Nat) : weightSum (workerWeight m) CState.init.pc n = 10 * n := by
  induction n with
  | zero => rfl
  | succ n ih =>
    simp only [weightSum, ih]
    simp [CState.init, workerWeight]
    omega

theorem progressMeasure_init (m n : Nat) :
    progressMeasure m n CState.init = 12 * n + 6 * m + 1 := by
  unfold progressMeasure
  rw [weightSum_init]
  simp [CState.init]
  omega

/-- On a dataset without failing fetches and without the key, a search that has ended has
reported NotFound. -/
theorem ended_notFound (ds : Dataset) (key : String) (s : CState) (hl : InvLog ds key s)
    (hok : neverFails ds) (hno : ∀ p, ¬ pageHasUser ds key p) (o : Outcome)
    (ho : s.status = some o) : o = .notFound := by
  cases o with
  | notFound => rfl
  | found v =>
    exfalso
    obtain ⟨hne, w, hw⟩ := hl.found_cause v ho
    rcases hl.sent_cause w v hw with ⟨h1, _⟩ | ⟨p, _, _, hp⟩
    · exact hne h1
    · exact hno p hp
  | fatal err =>
    exfalso
    obtain ⟨w, p, _, hd, _⟩ := hl.fatal_cause err ho
    obtain ⟨d, hd'⟩ := hok p
    rw [hd] at hd'
    cases hd'

/-- When the pages from `m` on are empty, only a page below `m` sends a worker back to the top
of its loop. -/
theorem back_of_empty_tail (ds : Dataset) (key : String) (m : Nat)
    (hend : ∀ p, m ≤ p → pageEmpty ds p) (s : CState) :
    ∀ w p d, s.pc w = .fetch p → ds p = .ok d → d.length ≠ 0 →
      containsUser key d ≠ true → p < m := by
  intro w p d _ hd hlen _
  by_contra hge
  have he := hend p (by omega)
  unfold pageEmpty at he
  rw [hd] at he
  cases he
  exact hlen rfl

theorem allMove_length (ds : Dataset) (key : String) (m n : Nat)
    (hend : ∀ p, m ≤ p → pageEmpty ds p) (l : List Actor) :
    ∀ s, Inv ds key n s → allMove ds key n s l →
      l.length + progressMeasure m n (run ds key n s l) ≤ progressMeasure m n s := by
  induction l with
  | nil => intro s _ _; simp [run]
  | cons a l ih =>
    intro s h hmove
    obtain ⟨hne, hrest⟩ := hmove
    have hstep := progressMeasure_step ds key m n s a h.values
      (back_of_empty_tail ds key m hend s)
    have hih := ih _ (inv_step ds key n s a h) hrest
    have hrun : run ds key n s (a :: l) = run ds key n (step ds key n s a) l := rfl
    rw [hrun, List.length_cons]
    rcases hstep with h1 | h1
    · exact absurd h1 hne
    · omega

/-- C5: on a dataset whose fetches never fail, in which no page holds the key and every page from
index `m` on is empty, with at least one worker: in every interleaving `concurrentSearch` is either
still running or has reported NotFound (never Found, never an abort); under every fair
interleaving it ends with NotFound and stays so; and it cannot loop forever: an interleaving
in which every scheduled goroutine moves has at most `12 * workerCount + 6 * m + 1` steps. -/
theorem concurrentSearch_notFound (ds : Dataset) (key : String) (n m : Nat) (hn : 1 ≤ n)
    (hok : neverFails ds) (hno : ∀ p, ¬ pageHasUser ds key p)
    (hend : ∀ p, m ≤ p → pageEmpty ds p) :
    (∀ schedule, (concurrentSearch ds key n schedule).status = none ∨
      (concurrentSearch ds key n schedule).status = some .notFound) ∧
    (∀ σ, Fair n σ → ∃ t, ∀ t', t ≤ t' →
      (concurrentSearchAt ds key n σ t').status = some .notFound) ∧
    (∀ schedule, allMove ds key n CState.init schedule →
      schedule.length ≤ 12 * n + 6 * m + 1) := by
  refine ⟨?_, ?_, ?_⟩
  · intro schedule
    cases hst : (concurrentSearch ds key n schedule).status with
    | none => exact Or.inl rfl
    | some o =>
      right
      rw [ended_notFound ds key _ (invLog_concurrentSearch ds key n schedule) hok hno o hst]
  · intro σ hfair
    have hprog := fair_progress ds key n σ hfair
      (fun s => Inv ds key n s ∧ s.status = none)
      (fun s => s.status ≠ none) (progressMeasure m n)
      (fun s hP => exists_enabled ds key n s hn hP.1 hP.2)
      (fun s b hP => by
        rcases progressMeasure_step ds key m n s b hP.1.values
          (back_of_empty_tail ds key m hend s) with h1 | h1
        · exact Or.inl h1
        · right
          by_cases hst : (step ds key n s b).status = none
          · exact Or.inr ⟨⟨inv_step ds key n s b hP.1, hst⟩, h1⟩
          · exact Or.inl hst)
      (concurrentSearchAt ds key n σ) (concurrentSearchAt_succ ds key n σ)
      _ 0 rfl ⟨inv_init ds key n, rfl⟩
    obtain ⟨t, _, hG⟩ := hprog
    refine ⟨t, ?_⟩
    intro t' htt'
    rw [concurrentSearchAt_frozen ds key n σ t hG t' htt']
    cases hst : (concurrentSearchAt ds key n σ t).status with
    | none => exact absurd hst hG
    | some o =>
      rw [ended_notFound ds key _ (invs_concurrentSearchAt ds key n σ t).2 hok hno o hst]
  · intro schedule hmove
    have := allMove_length ds key m n hend schedule _ (inv_init ds key n) hmove
    rw [progressMeasure_init] at this
    omega

/-- A fair schedule for two workers: generator, worker 0, worker 1, coordinator, in turn. -/
theorem roundRobin_fair :
    Fair 2 (fun t => if t % 4 = 0 then Actor.generator else if t % 4 = 1 then Actor.worker 0
      else if t % 4 = 2 then Actor.worker 1 else Actor.coordinator) := by
  intro a ha t
  cases a with
  | generator => exact ⟨4 * t, by omega, by simp⟩
  | coordinator =>
    refine ⟨4 * t + 3, by omega, ?_⟩
    have e : (4 * t + 3) % 4 = 3 := by omega
    simp [e]
  | worker w =>
    have hw : w < 2 := ha
    by_cases h0 : w = 0
    · subst h0
      refine ⟨4 * t + 1, by omega, ?_⟩
      have e : (4 * t + 1) % 4 = 1 := by omega
      simp [e]
    · have h1 : w = 1 := by omega
      subst h1
      refine ⟨4 * t + 2, by omega, ?_⟩
      have e : (4 * t + 2) % 4 = 2 := by omega
      simp [e]

theorem twoPageDataset_props :
    neverFails twoPageDataset ∧ (∀ p, ¬ pageHasUser twoPageDataset "u" p) ∧
      ∀ p, 2 ≤ p → pageEmpty twoPageDataset p := by
  refine ⟨?_, ?_, ?_⟩
  · intro p
    unfold twoPageDataset
    by_cases hp : p < 2
    · exact ⟨_, if_pos hp⟩
    · exact ⟨_, if_neg hp⟩
  · rintro p ⟨d, hd, hc⟩
    unfold twoPageDataset at hd
    by_cases hp : p < 2
    · rw [if_pos hp] at hd
      cases hd
      exact absurd hc (by decide)
    · rw [if_neg hp] at hd
      cases hd
      exact absurd hc (by decide)
  · intro p hp
    unfold pageEmpty twoPageDataset
    rw [if_neg (by omega)]

/-- Witness of `concurrentSearch_notFound`: two non-empty pages without the key, two workers,
round-robin scheduling: the search ends with NotFound. -/
theorem concurrentSearch_notFound_witness :
    ∃ t, ∀ t', t ≤ t' →
      (concurrentSearchAt twoPageDataset "u" 2
        (fun t => if t % 4 = 0 then Actor.generator else if t % 4 = 1 then Actor.worker 0
          else if t % 4 = 2 then Actor.worker 1 else Actor.coordinator) t').status =
        some .notFound :=
  (concurrentSearch_notFound twoPageDataset "u" 2 2 (by decide) twoPageDataset_props.1
    twoPageDataset_props.2.1 twoPageDataset_props.2.2).2.1 _ roundRobin_fair

/-! ## Theorems: the search for a key held by one page -/

/-- The shapes a step can take. -/
theorem step_cases (ds : Dataset) (key : String) (n : Nat) (s : CState) (a : Actor) :
    step ds key n s a = s ∨
    (a = .generator ∧ step ds key n s a =
      { s with values := s.values ++ [s.rankPage], rankPage := s.rankPage + 1 }) ∨
    (∃ w p rest, a = .worker w ∧ step ds key n s a =
      { s with values := rest, pc := Function.update s.pc w (.select p) }) ∨
    (∃ w x, a = .worker w ∧ step ds key n s a = { s with pc := Function.update s.pc w x }) ∨
    (∃ w p x, a = .worker w ∧ (∃ d, ds p = .ok d) ∧ step ds key n s a =
      { s with pc := Function.update s.pc w x, fetched := s.fetched ++ [(w, p)] }) ∨
    (∃ w p err, a = .worker w ∧ ds p = .error err ∧ step ds key n s a =
      { s with status := some (.fatal err), fetched := s.fetched ++ [(w, p)] }) ∨
    (∃ w v x, a = .worker w ∧ step ds key n s a =
      { s with results := s.results ++ [v], sent := s.sent ++ [(w, v)],
               pc := Function.update s.pc w x }) ∨
    (∃ w, a = .worker w ∧ step ds key n s a =
      { s with cancelled := true, pc := Function.update s.pc w .done }) ∨
    (∃ v rest, a = .coordinator ∧ step ds key n s a =
      { s with results := rest, status := some (.found v) }) ∨
    (∃ rest, a = .coordinator ∧ step ds key n s a = { s with results := rest, i := s.i + 1 }) ∨
    (a = .coordinator ∧ step ds key n s a = { s with status := some .notFound }) := by
  cases a with
  | generator =>
    by_cases hrun : s.status = none
    · by_cases hlt : s.values.length < n
      · right; left
        exact ⟨rfl, by simp only [step, hrun, if_true, stepGenerator, hlt]⟩
      · left
        simp only [step, hrun, if_true, stepGenerator, hlt, if_false]
    · left
      simp only [step, hrun, if_false]
  | coordinator =>
    by_cases hrun : s.status = none
    · by_cases hlt : s.i < n
      · cases hres : s.results with
        | nil =>
          left
          simp only [step, hrun, if_true, stepCoordinator, hlt, hres]
        | cons v rest =>
          by_cases hv : v = -1
          · right; right; right; right; right; right; right; right; right; left
            refine ⟨rest, rfl, ?_⟩
            simp only [step, hrun, if_true, stepCoordinator, hlt, hres, hv, ne_eq,
              not_true_eq_false, if_false]
          · right; right; right; right; right; right; right; right; left
            refine ⟨v, rest, rfl, ?_⟩
            simp only [step, hrun, if_true, stepCoordinator, hlt, hres, ne_eq, hv,
              not_false_eq_true]
      · right; right; right; right; right; right; right; right; right; right
        refine ⟨rfl, ?_⟩
        simp only [step, hrun, if_true, stepCoordinator, hlt, if_false]
    · left
      simp only [step, hrun, if_false]
  | worker w =>
    by_cases hrun : s.status = none ∧ w < n
    · have hstep : step ds key n s (.worker w) = stepWorker ds key n w s := by
        simp only [step, hrun, and_self, if_true]
      rw [hstep]
      unfold stepWorker
      cases hpc : s.pc w with
      | recv =>
        simp only []
        cases hv : s.values with
        | nil => left; simp only []
        | cons p rest =>
          right; right; left
          exact ⟨w, p, rest, rfl, rfl⟩
      | select p =>
        simp only []
        right; right; right; left
        by_cases hcan : s.cancelled = true
        · rw [if_pos hcan]; exact ⟨w, _, rfl, rfl⟩
        · rw [if_neg hcan]; exact ⟨w, _, rfl, rfl⟩
      | fetch p =>
        simp only []
        cases hd : ds p with
        | error err =>
          right; right; right; right; right; left
          exact ⟨w, p, err, rfl, hd, rfl⟩
        | ok d =>
          right; right; right; right; left
          simp only []
          by_cases hlen : d.length = 0
          · rw [if_pos hlen]; exact ⟨w, p, _, rfl, ⟨d, hd⟩, rfl⟩
          · rw [if_neg hlen]
            by_cases hcon : containsUser key d = true
            · rw [if_pos hcon]; exact ⟨w, p, _, rfl, ⟨d, hd⟩, rfl⟩
            · rw [if_neg hcon]; exact ⟨w, p, _, rfl, ⟨d, hd⟩, rfl⟩
      | sendNeg =>
        simp only []
        by_cases hlt : s.results.length < n
        · right; right; right; right; right; right; left
          rw [if_pos hlt]; exact ⟨w, _, _, rfl, rfl⟩
        · left; rw [if_neg hlt]
      | sendFound p =>
        simp only []
        by_cases hlt : s.results.length < n
        · right; right; right; right; right; right; left
          rw [if_pos hlt]; exact ⟨w, _, _, rfl, rfl⟩
        · left; rw [if_neg hlt]
      | cancel =>
        right; right; right; right; right; right; right; left
        exact ⟨w, rfl, rfl⟩
      | done => left; rfl
    · left
      simp only [step, hrun, if_false]

/-- The send log only grows. -/
theorem sent_mono (ds : Dataset) (key : String) (n : Nat) (s : CState) (a : Actor)
    (e : Nat × Int) (he : e ∈ s.sent) : e ∈ (step ds key n s a).sent := by
  rcases step_cases ds key n s a with h | ⟨_, h⟩ | ⟨_, _, _, _, h⟩ | ⟨_, _, _, h⟩ |
    ⟨_, _, _, _, _, h⟩ | ⟨_, _, _, _, _, h⟩ | ⟨_, _, _, _, h⟩ | ⟨_, _, h⟩ | ⟨_, _, _, h⟩ |
    ⟨_, _, h⟩ | ⟨_, h⟩ <;> rw [h] <;> first | exact he | exact List.mem_append_left _ he

/-- A step of another goroutine leaves the program counter of worker `w` alone. -/
theorem pc_other (ds : Dataset) (key : String) (n : Nat) (s : CState) (a : Actor) (w : Nat)
    (ha : a ≠ .worker w) : (step ds key n s a).pc w = s.pc w := by
  have hne : ∀ w', a = .worker w' → w ≠ w' := by
    intro w' h1 h2
    exact ha (by rw [h1, h2])
  rcases step_cases ds key n s a with h | ⟨_, h⟩ | ⟨w', _, _, ha', h⟩ | ⟨w', _, ha', h⟩ |
    ⟨w', _, _, ha', _, h⟩ | ⟨w', _, _, ha', _, h⟩ | ⟨w', _, _, ha', h⟩ | ⟨w', ha', h⟩ |
    ⟨_, _, _, h⟩ | ⟨_, _, h⟩ | ⟨_, h⟩ <;> rw [h] <;>
    first | rfl | exact Function.update_noteq (hne w' ha') _ _

/-- When no fetch fails, a step of the generator or of a worker leaves the status and the loop
counter of the coordinator alone and at most appends a value to the result channel. -/
theorem step_other_frame (ds : Dataset) (key : String) (n : Nat) (s : CState) (a : Actor)
    (hok : neverFails ds) (ha : a ≠ .coordinator) :
    (step ds key n s a).status = s.status ∧ (step ds key n s a).i = s.i ∧
      ((step ds key n s a).results = s.results ∨
        ∃ x, (step ds key n s a).results = s.results ++ [x]) := by
  rcases step_cases ds key n s a with h | ⟨_, h⟩ | ⟨_, _, _, _, h⟩ | ⟨_, _, _, h⟩ |
    ⟨_, _, _, _, _, h⟩ | ⟨_, p, _, _, herr, h⟩ | ⟨_, _, _, _, h⟩ | ⟨_, _, h⟩ | ⟨_, _, ha', h⟩ |
    ⟨_, ha', h⟩ | ⟨ha', h⟩
  · rw [h]; exact ⟨rfl, rfl, Or.inl rfl⟩
  · rw [h]; exact ⟨rfl, rfl, Or.inl rfl⟩
  · rw [h]; exact ⟨rfl, rfl, Or.inl rfl⟩
  · rw [h]; exact ⟨rfl, rfl, Or.inl rfl⟩
  · rw [h]; exact ⟨rfl, rfl, Or.inl rfl⟩
  · obtain ⟨d, hd⟩ := hok p
    rw [hd] at herr
    cases herr
  · rw [h]; exact ⟨rfl, rfl, Or.inr ⟨_, rfl⟩⟩
  · rw [h]; exact ⟨rfl, rfl, Or.inl rfl⟩
  · exact absurd ha' ha
  · exact absurd ha' ha
  · exact absurd ha' ha

theorem KeyOnlyAt.passes (ds : Dataset) (key : String) (k : Nat) (hk : KeyOnlyAt ds key k)
    (j : Nat) (hj : j < k) : pagePasses ds key j := by
  rw [pagePasses_iff]
  refine ⟨hk.before j hj, ?_⟩
  intro hh
  have := hk.only j hh
  omega

/-- Before page `k` is pulled nothing has been sent. -/
theorem phaseA_sent (ds : Dataset) (key : String) (k n : Nat) (s : CState)
    (h : Inv ds key n s) (hA : phaseA k s) : s.sent = [] := by
  cases hs : s.sent with
  | nil => rfl
  | cons e rest =>
    exfalso
    have hmem : e.1 ∈ s.sent.map Prod.fst := by rw [hs]; simp
    have hsent := (h.sent.iff e.1).mp hmem
    rcases hA.2 e.1 with h1 | ⟨p, h1⟩ | ⟨p, h1⟩ <;> rw [h1] at hsent <;> exact hsent

/-- A step before page `k` is pulled: the search keeps running, and afterwards page `k` is
still not pulled or some worker holds it. -/
theorem phaseA_step (ds : Dataset) (key : String) (k n : Nat) (hn : 1 ≤ n)
    (hk : KeyOnlyAt ds key k) (s : CState) (a : Actor) (h : Inv ds key n s)
    (hrun : s.status = none) (hA : phaseA k s) :
    (step ds key n s a).status = none ∧
      (phaseA k (step ds key n s a) ∨ phaseB k n (step ds key n s a)) := by
  have hsent := phaseA_sent ds key k n s h hA
  have hsplit := sent_length_split ds key n s h hrun
  rw [hsent] at hsplit
  simp only [List.length_nil] at hsplit
  have hcan : ¬ s.cancelled = true := by
    intro hc
    obtain ⟨e, he, _⟩ := h.sent.cancelled hc
    rw [hsent] at he
    simp at he
  cases a with
  | generator =>
    by_cases hlt : s.values.length < n
    · have hstep : step ds key n s .generator =
          { s with values := s.values ++ [s.rankPage], rankPage := s.rankPage + 1 } := by
        simp only [step, hrun, if_true, stepGenerator, hlt]
      rw [hstep]
      refine ⟨hrun, Or.inl ⟨?_, hA.2⟩⟩
      have := hA.1
      simp only [List.length_append, List.length_singleton]
      omega
    · have hstep : step ds key n s .generator = s := by
        simp only [step, hrun, if_true, stepGenerator, hlt, if_false]
      rw [hstep]
      exact ⟨hrun, Or.inl hA⟩
  | coordinator =>
    have hres : s.results = [] := List.length_eq_zero.mp (by omega)
    have hi : s.i < n := by omega
    have hstep : step ds key n s .coordinator = s := by
      simp only [step, hrun, if_true, stepCoordinator, hi, hres]
    rw [hstep]
    exact ⟨hrun, Or.inl hA⟩
  | worker w =>
    by_cases hw : w < n
    · have hstep : step ds key n s (.worker w) = stepWorker ds key n w s := by
        simp only [step, hrun, hw, and_self, if_true]
      rw [hstep]
      have hpcs : ∀ x : WorkerPC, (x = .recv ∨ (∃ p, x = .select p) ∨ (∃ p, x = .fetch p)) →
          ∀ w', Function.update s.pc w x w' = .recv ∨
            (∃ p, Function.update s.pc w x w' = .select p) ∨
            (∃ p, Function.update s.pc w x w' = .fetch p) := by
        intro x hx w'
        by_cases hww : w' = w
        · subst hww
          simpa using hx
        · rw [Function.update_noteq hww]
          exact hA.2 w'
      unfold stepWorker
      rcases hA.2 w with hpc | ⟨p, hpc⟩ | ⟨p, hpc⟩
      · rw [hpc]
        simp only []
        cases hv : s.values with
        | nil =>
          simp only []
          exact ⟨hrun, Or.inl hA⟩
        | cons p rest =>
          simp only []
          refine ⟨hrun, ?_⟩
          have hV := h.values
          rw [hv] at hV
          obtain ⟨_, hp, hle⟩ := invValues_pull n _ p rest hV
          have hnext := hA.1
          rw [hv] at hnext
          simp only [List.length_cons] at hnext
          by_cases hpk : p < k
          · left
            refine ⟨?_, hpcs _ (Or.inr (Or.inl ⟨p, rfl⟩))⟩
            show s.rankPage - rest.length ≤ k
            omega
          · right
            have hpk' : p = k := by omega
            refine ⟨w, hw, ?_⟩
            show (Function.update s.pc w (.select p) w).holds k
            rw [Function.update_same]
            exact hpk'
      · rw [hpc]
        simp only []
        rw [if_neg hcan]
        exact ⟨hrun, Or.inl ⟨hA.1, hpcs _ (Or.inr (Or.inr ⟨p, rfl⟩))⟩⟩
      · rw [hpc]
        simp only []
        have hlt := h.pcs.held_lt w p (by rw [hpc]; rfl)
        obtain ⟨d, hd, hne, hcon⟩ := hk.passes ds key k p (by have := hA.1; omega)
        have hlen : d.length ≠ 0 := fun h0 => hne (List.length_eq_zero.mp h0)
        rw [hd]
        simp only []
        rw [if_neg hlen, hcon]
        simp only [Bool.false_eq_true, if_false]
        exact ⟨hrun, Or.inl ⟨hA.1, hpcs _ (Or.inl rfl)⟩⟩
    · have hstep : step ds key n s (.worker w) = s := by
        simp only [step, hrun, hw, and_false, if_false]
      rw [hstep]
      exact ⟨hrun, Or.inl hA⟩

/-- While a worker holds page `k`, every value sent so far is -1. -/
theorem phaseB_sent (ds : Dataset) (key : String) (k n : Nat) (hk : KeyOnlyAt ds key k)
    (s : CState) (h : Inv ds key n s) (w0 : Nat) (hold : (s.pc w0).holds k) :
    ∀ e, e ∈ s.sent → e.2 = -1 := by
  intro e he
  rcases h.sent.hit e he with h1 | ⟨p, _, hp, _, hno⟩
  · exact h1
  · exfalso
    have := hk.only p hp
    subst this
    exact hno w0 hold

theorem holds_not_sent (pc : WorkerPC) (k : Nat) (h : pc.holds k) : ¬ pc.hasSent := by
  cases pc <;> simp [WorkerPC.holds] at h <;> simp [WorkerPC.hasSent]

/-- A step of the worker that holds page `k` brings it closer to its send, or makes the send. -/
theorem holder_step (ds : Dataset) (key : String) (k n : Nat) (hk : KeyOnlyAt ds key k)
    (s : CState) (h : Inv ds key n s) (hrun : s.status = none) (w0 : Nat) (hw0 : w0 < n)
    (hold : (s.pc w0).holds k) :
    (step ds key n s (.worker w0)).status = none ∧
      ((((step ds key n s (.worker w0)).pc w0).holds k ∧
          ((step ds key n s (.worker w0)).pc w0).stepsToSend < (s.pc w0).stepsToSend) ∨
        phaseC k (step ds key n s (.worker w0))) := by
  have hstep : step ds key n s (.worker w0) = stepWorker ds key n w0 s := by
    simp only [step, hrun, hw0, and_self, if_true]
  have hcan : ¬ s.cancelled = true := by
    intro hc
    obtain ⟨e, he, hne⟩ := h.sent.cancelled hc
    exact hne (phaseB_sent ds key k n hk s h w0 hold e he)
  rw [hstep]
  unfold stepWorker
  cases hpc : s.pc w0 with
  | recv => rw [hpc] at hold; exact absurd hold (by simp [WorkerPC.holds])
  | sendNeg => rw [hpc] at hold; exact absurd hold (by simp [WorkerPC.holds])
  | cancel => rw [hpc] at hold; exact absurd hold (by simp [WorkerPC.holds])
  | done => rw [hpc] at hold; exact absurd hold (by simp [WorkerPC.holds])
  | select p =>
    rw [hpc] at hold
    simp only [WorkerPC.holds] at hold
    subst hold
    simp only []
    rw [if_neg hcan]
    refine ⟨hrun, Or.inl ⟨?_, ?_⟩⟩
    · show (Function.update s.pc w0 (.fetch p) w0).holds p
      rw [Function.update_same]; rfl
    · show (Function.update s.pc w0 (.fetch p) w0).stepsToSend < _
      rw [Function.update_same]; simp [WorkerPC.stepsToSend]
  | fetch p =>
    rw [hpc] at hold
    simp only [WorkerPC.holds] at hold
    subst hold
    simp only []
    obtain ⟨d, hd, hcon⟩ := hk.hit
    have hlen : d.length ≠ 0 := by
      intro h0
      rw [List.length_eq_zero.mp h0] at hcon
      simp [containsUser] at hcon
    rw [hd]
    simp only []
    rw [if_neg hlen, if_pos hcon]
    refine ⟨hrun, Or.inl ⟨?_, ?_⟩⟩
    · show (Function.update s.pc w0 (.sendFound p) w0).holds p
      rw [Function.update_same]; rfl
    · show (Function.update s.pc w0 (.sendFound p) w0).stepsToSend < _
      rw [Function.update_same]; simp [WorkerPC.stepsToSend]
  | sendFound p =>
    rw [hpc] at hold
    simp only [WorkerPC.holds] at hold
    subst hold
    simp only []
    have hroom := results_room ds key n s h hrun w0 hw0 (by rw [hpc]; simp [WorkerPC.hasSent])
    rw [if_pos hroom]
    refine ⟨hrun, Or.inr ?_⟩
    show (p : Int) ∈ (s.sent ++ [(w0, (p : Int))]).map Prod.snd
    simp

/-- A step of any goroutine while worker `w0` holds page `k`: the search keeps running. -/
theorem phaseB_running (ds : Dataset) (key : String) (k n : Nat) (hk : KeyOnlyAt ds key k)
    (s : CState) (a : Actor) (h : Inv ds key n s) (hrun : s.status = none) (w0 : Nat)
    (hw0 : w0 < n) (hold : (s.pc w0).holds k) : (step ds key n s a).status = none := by
  by_cases ha : a = .coordinator
  · subst ha
    have hns := holds_not_sent _ k hold
    have h1 := sent_length_lt ds key n s h w0 hw0 hns
    have h2 := sent_length_split ds key n s h hrun
    have hi : s.i < n := by omega
    cases hres : s.results with
    | nil =>
      simp only [step, hrun, if_true, stepCoordinator, hi, hres]
    | cons v rest =>
      have hreads := h.coord.reads (by intro v hv; rw [hrun] at hv; cases hv)
      have hv : v = -1 := by
        have hmem : v ∈ s.sent.map Prod.snd := by rw [hreads, hres]; simp
        rw [List.mem_map] at hmem
        obtain ⟨e, he, hev⟩ := hmem
        rw [← hev]
        exact phaseB_sent ds key k n hk s h w0 hold e he
      simp only [step, hrun, if_true, stepCoordinator, hi, hres, hv, ne_eq, not_true_eq_false,
        if_false]
  · rw [(step_other_frame ds key n s a hk.ok ha).1]
    exact hrun

/-- Once page `k` has been sent and while the search runs, `k` waits in the result channel. -/
theorem phaseC_results (ds : Dataset) (key : String) (k n : Nat) (s : CState)
    (h : Inv ds key n s) (hrun : s.status = none) (hC : phaseC k s) :
    (k : Int) ∈ s.results := by
  have hreads := h.coord.reads (by intro v hv; rw [hrun] at hv; cases hv)
  unfold phaseC at hC
  rw [hreads, List.mem_append] at hC
  rcases hC with hC | hC
  · have := List.eq_of_mem_replicate hC
    omega
  · exact hC

/-- A step of the coordinator once page `k` waits in the result channel: it reports `k`, or it
reads a -1 and `k` still waits. -/
theorem coordinator_step_C (ds : Dataset) (key : String) (k n : Nat) (hk : KeyOnlyAt ds key k)
    (s : CState) (h : Inv ds key n s) (hrun : s.status = none) (hres : (k : Int) ∈ s.results) :
    (step ds key n s .coordinator).status = some (.found (k : Int)) ∨
      ((step ds key n s .coordinator).status = none ∧
        (k : Int) ∈ (step ds key n s .coordinator).results ∧
        n - (step ds key n s .coordinator).i < n - s.i) := by
  have h1 := sent_length_le ds key n s h
  have h2 := sent_length_split ds key n s h hrun
  have hreads := h.coord.reads (by intro v hv; rw [hrun] at hv; cases hv)
  cases hr : s.results with
  | nil => rw [hr] at hres; simp at hres
  | cons v rest =>
    have hi : s.i < n := by
      rw [hr] at h2
      simp only [List.length_cons] at h2
      omega
    by_cases hv : v = -1
    · right
      have hstep : step ds key n s .coordinator = { s with results := rest, i := s.i + 1 } := by
        simp only [step, hrun, if_true, stepCoordinator, hi, hr, hv, ne_eq, not_true_eq_false,
          if_false]
      rw [hstep]
      refine ⟨hrun, ?_, ?_⟩
      · show (k : Int) ∈ rest
        rw [hr, List.mem_cons] at hres
        rcases hres with hres | hres
        · omega
        · exact hres
      · show n - (s.i + 1) < n - s.i
        omega
    · left
      have hstep : step ds key n s .coordinator =
          { s with results := rest, status := some (.found v) } := by
        simp only [step, hrun, if_true, stepCoordinator, hi, hr, ne_eq, hv, not_false_eq_true]
      rw [hstep]
      show some (Outcome.found v) = some (Outcome.found (k : Int))
      have hmem : v ∈ s.sent.map Prod.snd := by rw [hreads, hr]; simp
      rw [List.mem_map] at hmem
      obtain ⟨e, he, hev⟩ := hmem
      rcases h.sent.hit e he with h1 | ⟨p, hp, hhit, _, _⟩
      · rw [hev] at h1; exact absurd h1 hv
      · have := hk.only p hhit
        subst this
        rw [← hev, hp]

/-- A step of the generator or of a worker once page `k` waits in the result channel. -/
theorem other_step_C (ds : Dataset) (key : String) (k n : Nat) (hk : KeyOnlyAt ds key k)
    (s : CState) (a : Actor) (ha : a ≠ .coordinator) (hrun : s.status = none)
    (hres : (k : Int) ∈ s.results) :
    (step ds key n s a).status = none ∧ (k : Int) ∈ (step ds key n s a).results ∧
      (step ds key n s a).i = s.i := by
  obtain ⟨h1, h2, h3⟩ := step_other_frame ds key n s a hk.ok ha
  refine ⟨by rw [h1]; exact hrun, ?_, h2⟩
  rcases h3 with h3 | ⟨x, h3⟩
  · rw [h3]; exact hres
  · rw [h3]; exact List.mem_append_left _ hres

/-- The invariant of a search for a key held by page `k` only: page `k` is not pulled yet, or is
held by a worker, or has been sent; and the search is running or has reported `k`. -/
theorem keyOnlyAt_step (ds : Dataset) (key : String) (k n : Nat) (hn : 1 ≤ n)
    (hk : KeyOnlyAt ds key k) (s : CState) (a : Actor) (h : Inv ds key n s)
    (hph : phaseA k s ∨ phaseB k n s ∨ phaseC k s)
    (hst : s.status = none ∨ s.status = some (.found (k : Int))) :
    (phaseA k (step ds key n s a) ∨ phaseB k n (step ds key n s a) ∨
        phaseC k (step ds key n s a)) ∧
      ((step ds key n s a).status = none ∨
        (step ds key n s a).status = some (.found (k : Int))) := by
  rcases hst with hrun | hfound
  · rcases hph with hA | ⟨w0, hw0, hold⟩ | hC
    · obtain ⟨h1, h2⟩ := phaseA_step ds key k n hn hk s a h hrun hA
      refine ⟨?_, Or.inl h1⟩
      rcases h2 with h2 | h2
      · exact Or.inl h2
      · exact Or.inr (Or.inl h2)
    · refine ⟨?_, Or.inl (phaseB_running ds key k n hk s a h hrun w0 hw0 hold)⟩
      by_cases ha : a = .worker w0
      · subst ha
        rcases (holder_step ds key k n hk s h hrun w0 hw0 hold).2 with ⟨h2, _⟩ | h2
        · exact Or.inr (Or.inl ⟨w0, hw0, h2⟩)
        · exact Or.inr (Or.inr h2)
      · refine Or.inr (Or.inl ⟨w0, hw0, ?_⟩)
        rw [pc_other ds key n s a w0 ha]
        exact hold
    · have hC' : phaseC k (step ds key n s a) := by
        unfold phaseC at hC ⊢
        rw [List.mem_map] at hC ⊢
        obtain ⟨e, he, hev⟩ := hC
        exact ⟨e, sent_mono ds key n s a e he, hev⟩
      refine ⟨Or.inr (Or.inr hC'), ?_⟩
      have hres := phaseC_results ds key k n s h hrun hC
      by_cases ha : a = .coordinator
      · subst ha
        rcases coordinator_step_C ds key k n hk s h hrun hres with h1 | ⟨h1, _, _⟩
        · exact Or.inr h1
        · exact Or.inl h1
      · exact Or.inl (other_step_C ds key k n hk s a ha hrun hres).1
  · have hfr := step_frozen ds key n s a (by rw [hfound]; simp)
    rw [hfr]
    exact ⟨hph, Or.inr hfound⟩

theorem keyOnlyAt_run (ds : Dataset) (key : String) (k n : Nat) (hn : 1 ≤ n)
    (hk : KeyOnlyAt ds key k) (l : List Actor) :
    ∀ s, Inv ds key n s → (phaseA k s ∨ phaseB k n s ∨ phaseC k s) →
      (s.status = none ∨ s.status = some (.found (k : Int))) →
      ((run ds key n s l).status = none ∨
        (run ds key n s l).status = some (.found (k : Int))) := by
  induction l with
  | nil => intro s _ _ hst; exact hst
  | cons a l ih =>
    intro s h hph hst
    obtain ⟨h1, h2⟩ := keyOnlyAt_step ds key k n hn hk s a h hph hst
    exact ih _ (inv_step ds key n s a h) h1 h2

theorem phaseA_init (k : Nat) : phaseA k CState.init :=
  ⟨by simp [CState.init], fun _ => Or.inl rfl⟩

/-- Under a fair schedule some worker comes to hold page `k`. -/
theorem eventually_held (ds : Dataset) (key : String) (k n : Nat) (hn : 1 ≤ n)
    (hk : KeyOnlyAt ds key k) (σ : Nat → Actor) (hfair : Fair n σ) :
    ∃ t, (concurrentSearchAt ds key n σ t).status = none ∧
      phaseB k n (concurrentSearchAt ds key n σ t) := by
  have hprog := fair_progress ds key n σ hfair
    (fun s => Inv ds key n s ∧ s.status = none ∧ phaseA k s)
    (fun s => s.status = none ∧ phaseB k n s) (progressMeasure (k + 1) n)
    (fun s hP => exists_enabled ds key n s hn hP.1 hP.2.1)
    (fun s b hP => by
      obtain ⟨h, hrun, hA⟩ := hP
      have hback : ∀ w p d, s.pc w = .fetch p → ds p = .ok d → d.length ≠ 0 →
          containsUser key d ≠ true → p < k + 1 := by
        intro w p d hpc _ _ _
        have := h.pcs.held_lt w p (by rw [hpc]; rfl)
        have := hA.1
        omega
      obtain ⟨h1, h2⟩ := phaseA_step ds key k n hn hk s b h hrun hA
      rcases progressMeasure_step ds key (k + 1) n s b h.values hback with h3 | h3
      · exact Or.inl h3
      · right
        rcases h2 with h2 | h2
        · exact Or.inr ⟨⟨inv_step ds key n s b h, h1, h2⟩, h3⟩
        · exact Or.inl ⟨h1, h2⟩)
    (concurrentSearchAt ds key n σ) (concurrentSearchAt_succ ds key n σ)
    _ 0 rfl ⟨inv_init ds key n, rfl, phaseA_init k⟩
  obtain ⟨t, _, hG⟩ := hprog
  exact ⟨t, hG⟩

/-- Under a fair schedule page `k` is sent on the result channel. -/
theorem eventually_sent (ds : Dataset) (key : String) (k n : Nat) (hn : 1 ≤ n)
    (hk : KeyOnlyAt ds key k) (σ : Nat → Actor) (hfair : Fair n σ) :
    ∃ t, (concurrentSearchAt ds key n σ t).status = none ∧
      phaseC k (concurrentSearchAt ds key n σ t) := by
  obtain ⟨t1, hrun1, w0, hw0, hold⟩ := eventually_held ds key k n hn hk σ hfair
  have hprog := fair_progress_by ds key n σ hfair (.worker w0) hw0
    (fun s => Inv ds key n s ∧ s.status = none ∧ (s.pc w0).holds k)
    (fun s => s.status = none ∧ phaseC k s) (fun s => (s.pc w0).stepsToSend)
    (fun s hP => by
      obtain ⟨h, hrun, hold⟩ := hP
      obtain ⟨h1, h2⟩ := holder_step ds key k n hk s h hrun w0 hw0 hold
      rcases h2 with ⟨h2, h3⟩ | h2
      · exact Or.inr ⟨⟨inv_step ds key n s _ h, h1, h2⟩, h3⟩
      · exact Or.inl ⟨h1, h2⟩)
    (fun s b hP => by
      obtain ⟨h, hrun, hold⟩ := hP
      by_cases hb : b = .worker w0
      · subst hb
        obtain ⟨h1, h2⟩ := holder_step ds key k n hk s h hrun w0 hw0 hold
        rcases h2 with ⟨h2, h3⟩ | h2
        · exact Or.inr ⟨⟨inv_step ds key n s _ h, h1, h2⟩, Nat.le_of_lt h3⟩
        · exact Or.inl ⟨h1, h2⟩
      · right
        have hpc := pc_other ds key n s b w0 hb
        refine ⟨⟨inv_step ds key n s b h,
          phaseB_running ds key k n hk s b h hrun w0 hw0 hold, ?_⟩, ?_⟩
        · rw [hpc]; exact hold
        · show ((step ds key n s b).pc w0).stepsToSend ≤ (s.pc w0).stepsToSend
          rw [hpc])
    (concurrentSearchAt ds key n σ) (concurrentSearchAt_succ ds key n σ)
    _ t1 (le_refl _) ⟨inv_concurrentSearch ds key n _, hrun1, hold⟩
  obtain ⟨t, _, hG⟩ := hprog
  exact ⟨t, hG⟩

/-- Under a fair schedule the coordinator reports page `k`. -/
theorem eventually_found (ds : Dataset) (key : String) (k n : Nat) (hn : 1 ≤ n)
    (hk : KeyOnlyAt ds key k) (σ : Nat → Actor) (hfair : Fair n σ) :
    ∃ t, (concurrentSearchAt ds key n σ t).status = some (.found (k : Int)) := by
  obtain ⟨t2, hrun2, hC⟩ := eventually_sent ds key k n hn hk σ hfair
  have hres2 := phaseC_results ds key k n _ (inv_concurrentSearch ds key n _) hrun2 hC
  have hprog := fair_progress_by ds key n σ hfair .coordinator trivial
    (fun s => Inv ds key n s ∧ s.status = none ∧ (k : Int) ∈ s.results)
    (fun s => s.status = some (.found (k : Int))) (fun s => n - s.i)
    (fun s hP => by
      obtain ⟨h, hrun, hres⟩ := hP
      rcases coordinator_step_C ds key k n hk s h hrun hres with h1 | ⟨h1, h2, h3⟩
      · exact Or.inl h1
      · exact Or.inr ⟨⟨inv_step ds key n s _ h, h1, h2⟩, h3⟩)
    (fun s b hP => by
      obtain ⟨h, hrun, hres⟩ := hP
      by_cases hb : b = .coordinator
      · subst hb
        rcases coordinator_step_C ds key k n hk s h hrun hres with h1 | ⟨h1, h2, h3⟩
        · exact Or.inl h1
        · exact Or.inr ⟨⟨inv_step ds key n s _ h, h1, h2⟩, Nat.le_of_lt h3⟩
      · obtain ⟨h1, h2, h3⟩ := other_step_C ds key k n hk s b hb hrun hres
        right
        refine ⟨⟨inv_step ds key n s b h, h1, h2⟩, ?_⟩
        show n - (step ds key n s b).i ≤ n - s.i
        rw [h3])
    (concurrentSearchAt ds key n σ) (concurrentSearchAt_succ ds key n σ)
    _ t2 (le_refl _) ⟨inv_concurrentSearch ds key n _, hrun2, hres2⟩
  obtain ⟨t, _, hG⟩ := hprog
  exact ⟨t, hG⟩

theorem duplicateDataset_neverFails : neverFails duplicateDataset := by
  intro p
  unfold duplicateDataset
  by_cases hp : p ≤ 1
  · exact ⟨_, if_pos hp⟩
  · exact ⟨_, if_neg hp⟩

/-- C1 (as stated) fails: the key is on pages 0 and 1, so page 0 holds it and no page comes
before; with two workers, worker 1 fetches page 1 and sends it before worker 0 sends page 0, and
the coordinator reports page 1, while `sequentialSearch` reports page 0. -/
theorem concurrent_reports_other_page :
    neverFails duplicateDataset ∧ pageHasUser duplicateDataset "u" 0 ∧
    (concurrentSearch duplicateDataset "u" 2
      [.generator, .generator, .worker 0, .worker 1, .worker 0, .worker 1, .worker 0, .worker 1,
       .worker 1, .worker 0, .coordinator]).status = some (.found 1) ∧
    sequentialSearch duplicateDataset "u" 1 = some (.found 0, [0]) :=
  ⟨duplicateDataset_neverFails, ⟨_, rfl, by decide⟩, by decide, by decide⟩

/-- C1 (amended): for every worker count of at least 1, every key and every dataset whose
fetches never fail, in which page `k` holds the key, no other page holds it and every page before
`k` is non-empty: in every interleaving `concurrentSearch` is running or has reported page `k`
(nothing else is ever reported); under every fair interleaving it ends reporting page `k`; and
`k` is the page `sequentialSearch` reports on that dataset. -/
theorem concurrentSearch_found (ds : Dataset) (key : String) (n k : Nat) (hn : 1 ≤ n)
    (hok : neverFails ds) (hhit : pageHasUser ds key k)
    (honly : ∀ p, pageHasUser ds key p → p = k)
    (hbefore : ∀ j, j < k → pageNonEmpty ds j) :
    (∀ schedule, (concurrentSearch ds key n schedule).status = none ∨
      (concurrentSearch ds key n schedule).status = some (.found (k : Int))) ∧
    (∀ σ, Fair n σ → ∃ t, ∀ t', t ≤ t' →
      (concurrentSearchAt ds key n σ t').status = some (.found (k : Int))) ∧
    sequentialSearch ds key (k + 1) = some (.found (k : Int), List.range (k + 1)) ∧
    (∀ fuel r, sequentialSearch ds key fuel = some r →
      r = (.found (k : Int), List.range (k + 1))) := by
  have hk : KeyOnlyAt ds key k := ⟨hok, hhit, honly, hbefore⟩
  have hseq : sequentialSearch ds key (k + 1) =
      some (.found (k : Int), List.range (k + 1)) := by
    rw [sequentialSearch_reach ds key k (hk.passes ds key k),
      sequentialSearchLoop_hit ds key 0 k _ hhit, List.range_succ]
  refine ⟨?_, ?_, hseq, ?_⟩
  · intro schedule
    exact keyOnlyAt_run ds key k n hn hk schedule _ (inv_init ds key n)
      (Or.inl (phaseA_init k)) (Or.inl rfl)
  · intro σ hfair
    obtain ⟨t, ht⟩ := eventually_found ds key k n hn hk σ hfair
    refine ⟨t, ?_⟩
    intro t' htt'
    rw [concurrentSearchAt_frozen ds key n σ t (by rw [ht]; simp) t' htt']
    exact ht
  · intro fuel r hr
    exact sequentialSearch_deterministic ds key fuel (k + 1) r _ hr hseq

theorem threePageDataset_props :
    neverFails threePageDataset ∧ pageHasUser threePageDataset "u" 1 ∧
      ∀ j, j < 1 → pageNonEmpty threePageDataset j := by
  refine ⟨?_, ⟨_, rfl, by decide⟩, ?_⟩
  · intro p
    unfold threePageDataset
    by_cases h0 : p = 0
    · exact ⟨_, if_pos h0⟩
    · by_cases h1 : p = 1
      · rw [if_neg h0]; exact ⟨_, if_pos h1⟩
      · by_cases h2 : p = 2
        · rw [if_neg h0, if_neg h1]; exact ⟨_, if_pos h2⟩
        · rw [if_neg h0, if_neg h1]; exact ⟨_, if_neg h2⟩
  · intro j hj
    have : j = 0 := by omega
    subst this
    exact ⟨_, rfl, by simp⟩

/-- Witness of `concurrentSearch_found`: three pages, the key at the second position of page 1,
two workers: every fair run ends with Found(1), here the round-robin one; and a concrete
interleaving that reports page 1. -/
theorem concurrentSearch_found_witness :
    (∃ t, ∀ t', t ≤ t' →
      (concurrentSearchAt threePageDataset "u" 2
        (fun t => if t % 4 = 0 then Actor.generator else if t % 4 = 1 then Actor.worker 0
          else if t % 4 = 2 then Actor.worker 1 else Actor.coordinator) t').status =
        some (.found 1)) ∧
    (concurrentSearch threePageDataset "u" 2
      [.generator, .generator, .worker 0, .worker 1, .worker 0, .worker 1, .worker 0, .worker 1,
       .worker 1, .coordinator]).status = some (.found 1) ∧
    sequentialSearch threePageDataset "u" 2 = some (.found 1, [0, 1]) :=
  ⟨(concurrentSearch_found threePageDataset "u" 2 1 (by decide) threePageDataset_props.1
      threePageDataset_props.2.1 (fun p hp => threePageDataset_hit p hp)
      threePageDataset_props.2.2).2.1 _ roundRobin_fair,
   by decide, by decide⟩

/-! ## Theorems: the date query string -/

theorem daysSinceEpoch_cycles (q c f e : Nat) (hc : c ≤ 3) (hf : f ≤ 24) (he : e ≤ 3) :
    daysSinceEpoch (((400 * q + 100 * c + 4 * f + e : Nat) : Int) + absoluteZeroYear) =
      146097 * q + 36524 * c + 1461 * f + 365 * e := by
  simp only [daysSinceEpoch, add_sub_cancel_right, Int.toNat_ofNat, daysPer400Years,
    daysPer100Years, daysPer4Years]
  have h1 : (400 * q + 100 * c + 4 * f + e) / 400 = q := by omega
  rw [h1]
  have h2 : 400 * q + 100 * c + 4 * f + e - 400 * q = 100 * c + 4 * f + e := by omega
  rw [h2]
  have h3 : (100 * c + 4 * f + e) / 100 = c := by omega
  rw [h3]
  have h4 : 100 * c + 4 * f + e - 100 * c = 4 * f + e := by omega
  rw [h4]
  have h5 : (4 * f + e) / 4 = f := by omega
  rw [h5]
  have h6 : 4 * f + e - 4 * f = e := by omega
  rw [h6]

theorem isLeap_cycles (q c f e : Nat) (hc : c ≤ 3) (hf : f ≤ 24) (he : e ≤ 3) :
    isLeap (((400 * q + 100 * c + 4 * f + e : Nat) : Int) + absoluteZeroYear) = true ↔
      e = 3 ∧ (f = 24 → c = 3) := by
  simp only [isLeap, absoluteZeroYear, Bool.and_eq_true, decide_eq_true_eq, Bool.or_eq_true,
    ne_eq, decide_not, Bool.not_eq_true', decide_eq_false_iff_not]
  push_cast
  omega

theorem absYearDay_cycles (abs : Nat) :
    ∃ q c f e yd, c ≤ 3 ∧ f ≤ 24 ∧ e ≤ 3 ∧
      absYearDay abs = (400 * q + 100 * c + 4 * f + e, yd) ∧
      abs / secondsPerDay = 146097 * q + 36524 * c + 1461 * f + 365 * e + yd ∧
      yd ≤ 365 ∧ (yd = 365 → e = 3 ∧ (f = 24 → c = 3)) := by
  simp only [absYearDay, daysPer400Years, daysPer100Years, daysPer4Years, secondsPerDay,
    Nat.reduceMul, Nat.reduceAdd]
  generalize abs / 86400 = D
  generalize hq : D / 146097 = q
  generalize hr4 : D - 146097 * q = r4
  generalize hc0 : r4 / 36524 = c0
  generalize hc : c0 - c0 / 4 = c
  generalize hr1 : r4 - 36524 * c = r1
  generalize hf : r1 / 1461 = f
  generalize hr2 : r1 - 1461 * f = r2
  generalize he0 : r2 / 365 = e0
  generalize he : e0 - e0 / 4 = e
  have b1 : D = 146097 * q + r4 ∧ r4 < 146097 := by omega
  have b2 : c0 ≤ 4 := by omega
  have b3 : c ≤ 3 ∧ r4 = 36524 * c + r1 ∧ r1 ≤ 36524 ∧ (r1 = 36524 → c = 3) := by omega
  have b4 : f ≤ 24 ∧ r1 = 1461 * f + r2 ∧ r2 < 1461 := by omega
  have b5 : e0 ≤ 4 := by omega
  have b6 : e ≤ 3 ∧ 365 * e ≤ r2 ∧ r2 - 365 * e ≤ 365 ∧ (r2 - 365 * e = 365 → e = 3 ∧ r2 = 1460) := by
    omega
  refine ⟨q, c, f, e, r2 - 365 * e, b3.1, b4.1, b6.1, rfl, by omega, b6.2.2.1, ?_⟩
  intro h
  obtain ⟨h1, h2⟩ := b6.2.2.2 h
  refine ⟨h1, ?_⟩
  intro h3
  apply b3.2.2.2
  omega

/-- The month and day computed from a day of a non-leap year. -/
theorem monthDay_common (day : Nat) (h : day ≤ 364) :
    1 ≤ (monthDay false day).1 ∧ (monthDay false day).1 ≤ 12 ∧
    1 ≤ (monthDay false day).2 ∧ (monthDay false day).2 ≤ 31 ∧
    daysBefore ((monthDay false day).1 - 1) + ((monthDay false day).2 - 1) = day ∧
    (3 ≤ (monthDay false day).1 ↔ 59 ≤ day) := by
  simp only [monthDay, Bool.false_eq_true, false_and, if_false]
  obtain ⟨k, hk⟩ : ∃ k, k = day / 31 := ⟨_, rfl⟩
  rw [← hk]
  have hk11 : k ≤ 11 := by omega
  interval_cases k <;> simp only [daysBefore] <;> split_ifs <;> simp only [daysBefore] <;> omega

theorem monthDay_leap (yday : Nat) (h : yday ≤ 365) :
    1 ≤ (monthDay true yday).1 ∧ (monthDay true yday).1 ≤ 12 ∧
    1 ≤ (monthDay true yday).2 ∧ (monthDay true yday).2 ≤ 31 ∧
    daysBefore ((monthDay true yday).1 - 1) + (if 3 ≤ (monthDay true yday).1 then 1 else 0) +
      ((monthDay true yday).2 - 1) = yday := by
  by_cases h59 : yday = 59
  · subst h59
    decide
  · by_cases hgt : yday > 59
    · have heq : monthDay true yday = monthDay false (yday - 1) := by
        simp only [monthDay, true_and, Nat.reduceAdd, Nat.reduceSub, h59, if_false, hgt, if_true,
          Bool.false_eq_true, false_and]
      rw [heq]
      obtain ⟨h1, h2, h3, h4, h5, h6⟩ := monthDay_common (yday - 1) (by omega)
      refine ⟨h1, h2, h3, h4, ?_⟩
      by_cases h60 : yday = 60
      · subst h60; decide
      · have : 3 ≤ (monthDay false (yday - 1)).1 := h6.mpr (by omega)
        rw [if_pos this]
        omega
    · have heq : monthDay true yday = monthDay false yday := by
        simp only [monthDay, true_and, Nat.reduceAdd, Nat.reduceSub, h59, if_false, hgt,
          Bool.false_eq_true, false_and]
      rw [heq]
      obtain ⟨h1, h2, h3, h4, h5, h6⟩ := monthDay_common yday (by omega)
      refine ⟨h1, h2, h3, h4, ?_⟩
      have : ¬ 3 ≤ (monthDay false yday).1 := fun hh => by have := h6.mp hh; omega
      rw [if_neg this]
      omega

theorem daysSinceEpoch_zero : daysSinceEpoch 0 = 106751990353566 := by decide

theorem daysSinceEpoch_tenThousand : daysSinceEpoch 10000 = 106751994005991 := by decide

/-- The year of a time between the start of year 0 and the end of year 9999. -/
theorem absDate_year_bounds (abs : Nat) (hlo : daysSinceEpoch 0 * secondsPerDay ≤ abs)
    (hhi : abs < daysSinceEpoch 10000 * secondsPerDay) :
    0 ≤ (absDate abs).1 ∧ (absDate abs).1 ≤ 9999 := by
  obtain ⟨q, c, f, e, yd, hc, hf, he, hy, hD, hyd, hleap⟩ := absYearDay_cycles abs
  rw [daysSinceEpoch_zero] at hlo
  rw [daysSinceEpoch_tenThousand] at hhi
  simp only [secondsPerDay] at hlo hhi hD
  simp only [absDate, hy, absoluteZeroYear]
  have hD1 : 106751990353566 ≤ abs / 86400 := by omega
  have hD2 : abs / 86400 < 106751994005991 := by omega
  rw [hD] at hD1 hD2
  have hrem : 36524 * c + 1461 * f + 365 * e + yd ≤ 146096 := by omega
  push_cast
  constructor
  · by_contra hneg
    have hy1 : 400 * q + 100 * c + 4 * f + e ≤ 292277022398 := by omega
    have hq1 : q ≤ 730692555 := by omega
    have hq2 : 730692555 ≤ q := by omega
    have hq : q = 730692555 := by omega
    subst hq
    have h1 : 100 * c + 4 * f + e ≤ 398 := by omega
    have h2 : 145731 ≤ 36524 * c + 1461 * f + 365 * e + yd := by omega
    have hc3 : c = 3 := by omega
    subst hc3
    have hf24 : f = 24 := by omega
    subst hf24
    omega
  · by_contra hneg
    have hy1 : 292277032399 ≤ 400 * q + 100 * c + 4 * f + e := by omega
    have hq1 : q ≤ 730692580 := by omega
    have hq2 : 730692580 ≤ q := by omega
    have hq : q = 730692580 := by omega
    subst hq
    have h1 : 399 ≤ 100 * c + 4 * f + e := by omega
    have h2 : 36524 * c + 1461 * f + 365 * e + yd < 145731 := by omega
    have hc3 : c = 3 := by omega
    subst hc3
    have hf24 : f = 24 := by omega
    subst hf24
    omega

/-- The date of a time determines its day: the day count that `Date` computes from the year,
month and day that `absDate` returns is the day of the time. -/
theorem absDate_roundtrip (abs : Nat) :
    1 ≤ (absDate abs).2.1 ∧ (absDate abs).2.1 ≤ 12 ∧
    1 ≤ (absDate abs).2.2 ∧ (absDate abs).2.2 ≤ 31 ∧
    daysSinceEpoch (absDate abs).1 + daysBefore ((absDate abs).2.1 - 1) +
      (if isLeap (absDate abs).1 = true ∧ 3 ≤ (absDate abs).2.1 then 1 else 0) +
      ((absDate abs).2.2 - 1) = abs / secondsPerDay := by
  obtain ⟨q, c, f, e, yd, hc, hf, he, hy, hD, hyd, hleap⟩ := absYearDay_cycles abs
  have hdse := daysSinceEpoch_cycles q c f e hc hf he
  have hlp := isLeap_cycles q c f e hc hf he
  simp only [absDate, hy]
  rw [hdse, hD]
  cases hl : isLeap (((400 * q + 100 * c + 4 * f + e : Nat) : Int) + absoluteZeroYear) with
  | true =>
    obtain ⟨h1, h2, h3, h4, h5⟩ := monthDay_leap yd hyd
    refine ⟨h1, h2, h3, h4, ?_⟩
    simp only [true_and]
    omega
  | false =>
    have hyd' : yd ≤ 364 := by
      by_contra hgt
      have h365 : yd = 365 := by omega
      have := hlp.mpr (hleap h365)
      rw [hl] at this
      exact Bool.noConfusion this
    obtain ⟨h1, h2, h3, h4, h5, _⟩ := monthDay_common yd hyd'
    refine ⟨h1, h2, h3, h4, ?_⟩
    simp only [Bool.false_eq_true, false_and, if_false]
    omega

theorem norm_inRange (hi lo base : Int) (h0 : 0 ≤ lo) (h1 : lo < base) :
    norm hi lo base = (hi, lo) := by
  have h2 : ¬ lo < 0 := by omega
  have h3 : ¬ lo ≥ base := by omega
  simp only [norm, if_neg h2, if_neg h3]

theorem clock_bounds (t : Time) :
    t.Clock.1 < 24 ∧ t.Clock.2.1 < 60 ∧ t.Clock.2.2 < 60 ∧
      t.Clock.1 * 3600 + t.Clock.2.1 * 60 + t.Clock.2.2 = t.abs % secondsPerDay := by
  simp only [Time.Clock, secondsPerDay]
  omega

/-- `AddDate(0, 0, -i)` goes back exactly `i` days of 86400 seconds. -/
theorem addDate_days (t : Time) (i : Nat) (h : i * secondsPerDay ≤ t.abs) :
    t.AddDate 0 0 (-(i : Int)) = ⟨t.abs - i * secondsPerDay⟩ := by
  obtain ⟨hm1, hm2, hd1, hd2, hrt⟩ := absDate_roundtrip t.abs
  obtain ⟨hc1, hc2, hc3, hc4⟩ := clock_bounds t
  simp only [Time.AddDate, Date, Time.Year, Time.Month, Time.Day, add_zero]
  generalize hY : (absDate t.abs).1 = Y at hrt ⊢
  generalize hM : (absDate t.abs).2.1 = M at hrt hm1 hm2 ⊢
  generalize hDy : (absDate t.abs).2.2 = Dy at hrt hd1 hd2 ⊢
  generalize hH : t.Clock.1 = H at hc1 hc4 ⊢
  generalize hMi : t.Clock.2.1 = Mi at hc2 hc4 ⊢
  generalize hS : t.Clock.2.2 = S at hc3 hc4 ⊢
  rw [norm_inRange Y ((M : Int) - 1) 12 (by omega) (by omega)]
  rw [norm_inRange (Mi : Int) (S : Int) 60 (by omega) (by omega)]
  rw [norm_inRange (H : Int) (Mi : Int) 60 (by omega) (by omega)]
  rw [norm_inRange ((Dy : Int) + -(i : Int)) (H : Int) 24 (by omega) (by omega)]
  simp only []
  have hMn : ((M : Int) - 1 + 1 - 1).toNat = M - 1 := by omega
  have hM3 : ((M : Int) - 1 + 1 ≥ 3) ↔ 3 ≤ M := by omega
  rw [hMn]
  simp only [hM3]
  congr 1
  simp only [secondsPerDay] at h hc4 hrt ⊢
  split_ifs at hrt ⊢ <;> omega

theorem toDigitsCore_succ (fuel n : Nat) (acc : List Char) :
    Nat.toDigitsCore 10 (fuel + 1) n acc =
      if n / 10 = 0 then Nat.digitChar (n % 10) :: acc
      else Nat.toDigitsCore 10 fuel (n / 10) (Nat.digitChar (n % 10) :: acc) := rfl

theorem toDigits_unfold (n : Nat) : Nat.toDigits 10 n = Nat.toDigitsCore 10 (n + 1) n [] := rfl

theorem toDigitsCore_fuel (fuel : Nat) :
    ∀ n acc, n < fuel → Nat.toDigitsCore 10 fuel n acc = Nat.toDigits 10 n ++ acc := by
  induction fuel using Nat.strong_induction_on with
  | _ fuel ih =>
    intro n acc hn
    cases fuel with
    | zero => omega
    | succ fuel =>
      rw [toDigitsCore_succ, toDigits_unfold n, toDigitsCore_succ]
      by_cases h0 : n / 10 = 0
      · rw [if_pos h0, if_pos h0]
        rfl
      · rw [if_neg h0, if_neg h0, ih fuel (by omega) _ _ (by omega),
          ih n (by omega) _ _ (by omega)]
        simp

theorem toDigits_small (n : Nat) (h : n < 10) : Nat.toDigits 10 n = [Nat.digitChar n] := by
  have h0 : n / 10 = 0 := by omega
  have h1 : n % 10 = n := by omega
  rw [toDigits_unfold, toDigitsCore_succ, if_pos h0, h1]

theorem toDigits_step (n : Nat) (h : 10 ≤ n) :
    Nat.toDigits 10 n = Nat.toDigits 10 (n / 10) ++ [Nat.digitChar (n % 10)] := by
  have h0 : ¬ n / 10 = 0 := by omega
  rw [toDigits_unfold n, toDigitsCore_succ, if_neg h0, toDigitsCore_fuel n _ _ (by omega)]

theorem fmtZeroPadded_two (n : Nat) (h : n < 100) :
    fmtZeroPadded 2 (n : Int) = [Nat.digitChar (n / 10), Nat.digitChar (n % 10)] := by
  have hneg : ¬ ((n : Int) < 0) := by omega
  simp only [fmtZeroPadded, if_neg hneg, Int.natAbs_ofNat]
  by_cases h10 : n < 10
  · rw [toDigits_small n h10]
    have e1 : n / 10 = 0 := by omega
    have e2 : n % 10 = n := by omega
    rw [e1, e2]
    rfl
  · rw [toDigits_step n (by omega), toDigits_small (n / 10) (by omega)]
    rfl

theorem fmtZeroPadded_four (n : Nat) (h : n < 10000) :
    fmtZeroPadded 4 (n : Int) = [Nat.digitChar (n / 1000), Nat.digitChar (n / 100 % 10),
      Nat.digitChar (n / 10 % 10), Nat.digitChar (n % 10)] := by
  have hneg : ¬ ((n : Int) < 0) := by omega
  simp only [fmtZeroPadded, if_neg hneg, Int.natAbs_ofNat]
  by_cases h10 : n < 10
  · rw [toDigits_small n h10]
    have e1 : n / 1000 = 0 := by omega
    have e2 : n / 100 % 10 = 0 := by omega
    have e3 : n / 10 % 10 = 0 := by omega
    have e4 : n % 10 = n := by omega
    rw [e1, e2, e3, e4]
    rfl
  · by_cases h100 : n < 100
    · rw [toDigits_step n (by omega), toDigits_small (n / 10) (by omega)]
      have e1 : n / 1000 = 0 := by omega
      have e2 : n / 100 % 10 = 0 := by omega
      have e3 : n / 10 % 10 = n / 10 := by omega
      rw [e1, e2, e3]
      rfl
    · by_cases h1000 : n < 1000
      · rw [toDigits_step n (by omega), toDigits_step (n / 10) (by omega),
          toDigits_small (n / 10 / 10) (by omega)]
        have e1 : n / 1000 = 0 := by omega
        have e2 : n / 100 % 10 = n / 10 / 10 := by omega
        rw [e1, e2]
        rfl
      · rw [toDigits_step n (by omega), toDigits_step (n / 10) (by omega),
          toDigits_step (n / 10 / 10) (by omega), toDigits_small (n / 10 / 10 / 10) (by omega)]
        have e1 : n / 1000 = n / 10 / 10 / 10 := by omega
        have e2 : n / 100 % 10 = n / 10 / 10 % 10 := by omega
        rw [e1, e2]
        rfl

theorem digitChar_inj (a b : Nat) (ha : a < 10) (hb : b < 10)
    (h : Nat.digitChar a = Nat.digitChar b) : a = b := by
  interval_cases a <;> interval_cases b <;> first | rfl | exact absurd h (by decide)

theorem yyyymmdd_inj (y m d y' m' d' : Nat) (hy : y < 10000) (hm : m < 100) (hd : d < 100)
    (hy' : y' < 10000) (hm' : m' < 100) (hd' : d' < 100)
    (h : yyyymmdd y m d = yyyymmdd y' m' d') : y = y' ∧ m = m' ∧ d = d' := by
  simp only [yyyymmdd, List.cons.injEq, and_true] at h
  obtain ⟨h1, h2, h3, h4, h5, h6, h7, h8⟩ := h
  have e1 := digitChar_inj _ _ (by omega) (by omega) h1
  have e2 := digitChar_inj _ _ (by omega) (by omega) h2
  have e3 := digitChar_inj _ _ (by omega) (by omega) h3
  have e4 := digitChar_inj _ _ (by omega) (by omega) h4
  have e5 := digitChar_inj _ _ (by omega) (by omega) h5
  have e6 := digitChar_inj _ _ (by omega) (by omega) h6
  have e7 := digitChar_inj _ _ (by omega) (by omega) h7
  have e8 := digitChar_inj _ _ (by omega) (by omega) h8
  omega

/-- Inside the years 0 to 9999, the entry written for position `i` is the prefix followed by the
token of the date `i` days before `today`. -/
theorem entry_eq_token (today : Time) (i : Nat) (hi : i < 7)
    (hlo : (daysSinceEpoch 0 + 6) * secondsPerDay ≤ today.abs)
    (hhi : today.abs < daysSinceEpoch 10000 * secondsPerDay) :
    dateDigitListEntry (today.AddDate 0 0 (-(i : Int))).Year
        (today.AddDate 0 0 (-(i : Int))).Month (today.AddDate 0 0 (-(i : Int))).Day =
      "dateDigitList[]=" ++ String.mk (dateToken today i) := by
  have hsub : i * secondsPerDay ≤ today.abs := by
    simp only [secondsPerDay] at hlo ⊢
    omega
  have hlo' : daysSinceEpoch 0 * secondsPerDay ≤ today.abs - i * secondsPerDay := by
    simp only [secondsPerDay] at hlo ⊢
    omega
  have hhi' : today.abs - i * secondsPerDay < daysSinceEpoch 10000 * secondsPerDay := by
    omega
  rw [addDate_days today i hsub]
  obtain ⟨hy0, hy1⟩ := absDate_year_bounds _ hlo' hhi'
  obtain ⟨_, hm, _, hd, _⟩ := absDate_roundtrip (today.abs - i * secondsPerDay)
  simp only [dateDigitListEntry, Time.Year, Time.Month, Time.Day, dateToken]
  have hyear : (absDate (today.abs - i * secondsPerDay)).1 =
      (((absDate (today.abs - i * secondsPerDay)).1.toNat : Nat) : Int) := by omega
  rw [hyear, fmtZeroPadded_four _ (by omega), fmtZeroPadded_two _ (by omega),
    fmtZeroPadded_two _ (by omega)]
  rfl

/-- C9 (as stated) fails: on January 1 of the year 10000 (Unix time 253402300800) the first
entry carries a five-digit year, so it is not of the form YYYYMMDD. -/
theorem year_10000_token_has_nine_digits :
    buildDateDigitListQueryParams (Time.ofUnix 253402300800) =
      "dateDigitList[]=100000101&dateDigitList[]=99991231&dateDigitList[]=99991230&" ++
      "dateDigitList[]=99991229&dateDigitList[]=99991228&dateDigitList[]=99991227&" ++
      "dateDigitList[]=99991226" := by
  rfl

/-- C9 (amended): for every instant `today` (UTC) such that it and the six days before it lie in
the years 0 to 9999, `buildDateDigitListQueryParams` produces exactly 7 entries
`dateDigitList[]=YYYYMMDD` joined by "&", with no "&" at either end; the `i`-th token
(`i = 0..6`) is that of the calendar date `i` days before `today`: the four digits of its year, the
two of its month (1 to 12) and the two of its day (1 to 31); and the 7 tokens are pairwise
distinct. -/
theorem buildDateDigitListQueryParams_spec (today : Time)
    (hlo : (daysSinceEpoch 0 + 6) * secondsPerDay ≤ today.abs)
    (hhi : today.abs < daysSinceEpoch 10000 * secondsPerDay) :
    buildDateDigitListQueryParams today =
      "&".intercalate ((List.range 7).map
        (fun i => "dateDigitList[]=" ++ String.mk (dateToken today i))) ∧
    (∀ i, i < 7 →
      0 ≤ (absDate (today.abs - i * secondsPerDay)).1 ∧
      (absDate (today.abs - i * secondsPerDay)).1 ≤ 9999 ∧
      1 ≤ (absDate (today.abs - i * secondsPerDay)).2.1 ∧
      (absDate (today.abs - i * secondsPerDay)).2.1 ≤ 12 ∧
      1 ≤ (absDate (today.abs - i * secondsPerDay)).2.2 ∧
      (absDate (today.abs - i * secondsPerDay)).2.2 ≤ 31 ∧
      today.AddDate 0 0 (-(i : Int)) = ⟨today.abs - i * secondsPerDay⟩) ∧
    (∀ i j, i < 7 → j < 7 → dateToken today i = dateToken today j → i = j) := by
  have hbounds : ∀ i, i < 7 →
      0 ≤ (absDate (today.abs - i * secondsPerDay)).1 ∧
      (absDate (today.abs - i * secondsPerDay)).1 ≤ 9999 ∧
      1 ≤ (absDate (today.abs - i * secondsPerDay)).2.1 ∧
      (absDate (today.abs - i * secondsPerDay)).2.1 ≤ 12 ∧
      1 ≤ (absDate (today.abs - i * secondsPerDay)).2.2 ∧
      (absDate (today.abs - i * secondsPerDay)).2.2 ≤ 31 ∧
      today.AddDate 0 0 (-(i : Int)) = ⟨today.abs - i * secondsPerDay⟩ := by
    intro i hi
    have hsub : i * secondsPerDay ≤ today.abs := by
      simp only [secondsPerDay] at hlo ⊢
      omega
    have hlo' : daysSinceEpoch 0 * secondsPerDay ≤ today.abs - i * secondsPerDay := by
      simp only [secondsPerDay] at hlo ⊢
      omega
    have hhi' : today.abs - i * secondsPerDay < daysSinceEpoch 10000 * secondsPerDay := by
      omega
    obtain ⟨hy0, hy1⟩ := absDate_year_bounds _ hlo' hhi'
    obtain ⟨hm0, hm, hd0, hd, _⟩ := absDate_roundtrip (today.abs - i * secondsPerDay)
    exact ⟨hy0, hy1, hm0, hm, hd0, hd, addDate_days today i hsub⟩
  refine ⟨?_, hbounds, ?_⟩
  · unfold buildDateDigitListQueryParams
    rw [List.foldl_ext _
      (fun sb i => (if i > 0 then sb ++ "&" else sb) ++
        ("dateDigitList[]=" ++ String.mk (dateToken today i))) ""
      (fun sb i hi => by
        have hi7 : i < 7 := List.mem_range.mp hi
        simp only [entry_eq_token today i hi7 hlo hhi])]
    rfl
  · intro i j hi hj h
    obtain ⟨hy0, hy1, _, hm, _, hd, _⟩ := hbounds i hi
    obtain ⟨hy0', hy1', _, hm', _, hd', _⟩ := hbounds j hj
    obtain ⟨e1, e2, e3⟩ := yyyymmdd_inj _ _ _ _ _ _ (by omega) (by omega) (by omega)
      (by omega) (by omega) (by omega) h
    have hY : (absDate (today.abs - i * secondsPerDay)).1 =
        (absDate (today.abs - j * secondsPerDay)).1 := by omega
    obtain ⟨_, _, _, _, r1⟩ := absDate_roundtrip (today.abs - i * secondsPerDay)
    obtain ⟨_, _, _, _, r2⟩ := absDate_roundtrip (today.abs - j * secondsPerDay)
    rw [hY, e2, e3] at r1
    rw [r1] at r2
    simp only [secondsPerDay] at r2 hlo
    omega

/-- Witness of `buildDateDigitListQueryParams_spec`: at 2024-03-02T00:00:00Z (Unix time
1709337600) the seven entries run from March 2 back to February 25, across the leap day. -/
theorem buildDateDigitListQueryParams_spec_witness :
    buildDateDigitListQueryParams (Time.ofUnix 1709337600) =
      "&".intercalate ((List.range 7).map
        (fun i => "dateDigitList[]=" ++ String.mk (dateToken (Time.ofUnix 1709337600) i))) ∧
    buildDateDigitListQueryParams (Time.ofUnix 1709337600) =
      "dateDigitList[]=20240302&dateDigitList[]=20240301&dateDigitList[]=20240229&" ++
      "dateDigitList[]=20240228&dateDigitList[]=20240227&dateDigitList[]=20240226&" ++
      "dateDigitList[]=20240225" :=
  ⟨(buildDateDigitListQueryParams_spec (Time.ofUnix 1709337600) (by decide) (by decide)).1,
   by rfl⟩

end Pomofocus
